import Mathlib

/-!
# avllib: an AVL tree with a head node (`avl.h`)

A shallow embedding of `Avl<ValueType,Compare>`, `AvlNode<T>` and
`AvlIterator<T>` from `avl.h`.

* A pointer `AvlNode<T>*` is a value of `AvlNode α`; `nullptr` is `AvlNode.nil`.
  The node graph of an `Avl` is a strict tree, so a node is identified with the
  subtree below it.
* `Avl::insert` and `Avl::remove` walk down the tree keeping pointers to nodes
  above the current one (`T`, `S`, the arrays `st[]`/`a[]`).  Such a pointer is
  a `Frame`: the node's fields together with the side on which the walk left
  it.  Assigning to the child on that side is `Frame.attach`.
* Reaching `AVL_INTERNAL_ERROR`, reading a member through `nullptr`, and
  writing outside an array are the three ways an operation does not complete;
  they are the non-`ok` constructors of `Outcome`.
-/

/-- Capacity of the ancestor arrays: `#define MAX_AVL_DEPTH 100`. -/
def MAX_AVL_DEPTH : Nat := 100

/-- Result of running a piece of the library. -/
inductive Outcome (β : Type) where
  | ok (val : β) : Outcome β
  | internalError : Outcome β
  | nullDeref : Outcome β
  | outOfBounds : Outcome β
  deriving DecidableEq

/-- Sequencing: a fault ends the run. -/
def Outcome.andThen {β γ : Type} (x : Outcome β) (k : β → Outcome γ) : Outcome γ :=
  match x with
  | .ok v => k v
  | .internalError => .internalError
  | .nullDeref => .nullDeref
  | .outOfBounds => .outOfBounds

/-- The operation came to its end. -/
def Outcome.completes {β : Type} : Outcome β → Bool
  | .ok _ => true
  | _ => false

/-- `AvlNode<T>*`: either `nullptr` or a node with `value`, `balance`, `left`, `right`. -/
inductive AvlNode (α : Type) where
  | nil : AvlNode α
  | node (value : α) (balance : Int) (left right : AvlNode α) : AvlNode α
  deriving DecidableEq

/-- The macro `AvlCompareEquals(x,y)`: `(!compare(x,y)) && (!compare(y,x))`. -/
def AvlCompareEquals {α : Type} (compare : α → α → Bool) (x y : α) : Bool :=
  (!compare x y) && (!compare y x)

/-- `new AvlNode<ValueType>(t)`: balance 0, no children. -/
def AvlNode.mk1 {α : Type} (t : α) : AvlNode α := .node t 0 .nil .nil

/-- A remembered ancestor: entry `st[k]` with its direction `a[k]` (`1` right,
`-1` left).  `other` is the child on the side the walk did not take. -/
structure Frame (α : Type) where
  a : Int
  value : α
  balance : Int
  other : AvlNode α
  deriving DecidableEq

/-- `if (a[k]==1) st[k]->right = c; else st[k]->left = c;` -/
def Frame.attach {α : Type} (f : Frame α) (c : AvlNode α) : AvlNode α :=
  if f.a = 1 then .node f.value f.balance f.other c
  else .node f.value f.balance c f.other

/-- The frame left behind when the walk goes from a node to its left child. -/
def Frame.goLeft {α : Type} (v : α) (b : Int) (r : AvlNode α) : Frame α := ⟨-1, v, b, r⟩

/-- The frame left behind when the walk goes from a node to its right child. -/
def Frame.goRight {α : Type} (v : α) (b : Int) (l : AvlNode α) : Frame α := ⟨1, v, b, l⟩

/-- Ancestors that are not touched any more: each keeps its fields and gets the
subtree below it as the child on its recorded side (top of the stack first). -/
def rebuild {α : Type} : AvlNode α → List (Frame α) → AvlNode α
  | c, [] => c
  | c, f :: st => rebuild (f.attach c) st

/-- `Avl::link(a, P)`. -/
def link {α : Type} (a : Int) : AvlNode α → Outcome (AvlNode α)
  | .nil => .internalError
  | .node _ _ l r => if a = 1 then .ok r else if a = -1 then .ok l else .internalError

/-- The class `Avl`: `head` and `mySize`. -/
structure Avl (α : Type) where
  head : AvlNode α
  mySize : Int
  deriving DecidableEq

/-- The constructor `Avl()`. -/
def Avl.empty {α : Type} : Avl α := ⟨.nil, 0⟩

/-! ## `Avl::insert` -/

/-- Step a6 for one node `P` strictly between `S` and the new node `Q`: its
balance becomes the direction of `t`, and the walk goes on to its child on that
side (which is `c`, the subtree already holding `Q`). -/
def insertA6 {α : Type} (compare : α → α → Bool) (t : α) (f : Frame α) (c : AvlNode α) :
    Outcome (AvlNode α) :=
  if compare t f.value then .ok (Frame.attach ⟨f.a, f.value, -1, f.other⟩ c)
  else if compare f.value t then .ok (Frame.attach ⟨f.a, f.value, 1, f.other⟩ c)
  else .internalError

/-- Balances of `S` and `R` after the double rotation a9, from `P->balance`. -/
def insertA9Balances (a pb : Int) : Outcome (Int × Int) :=
  if pb = a then .ok (-a, 0)
  else if pb = 0 then .ok (0, 0)
  else if pb = -a then .ok (0, a)
  else .internalError

/-- Steps a7 to a9 at the node `S`; the result is the node `P` that step a10
links into `T` in place of `S` (`S` itself in the cases i and ii). -/
def insertA7 {α : Type} (compare : α → α → Bool) (t : α) : AvlNode α → Outcome (AvlNode α)
  | .nil => .nullDeref
  | .node sv sb sl sr =>
    let a : Int := if compare t sv then -1 else 1
    if sb = 0 then .ok (.node sv a sl sr)
    else if sb = -a then .ok (.node sv 0 sl sr)
    else if sb ≠ a then .internalError
    else
      match (if compare t sv then sl else sr) with
      | .nil => .nullDeref
      | .node rv rb rl rr =>
        if rb = a then
          if a = 1 then .ok (.node rv 0 (.node sv 0 sl rl) rr)
          else .ok (.node rv 0 rl (.node sv 0 rr sr))
        else if rb = -a then
          if a = 1 then
            match rl with
            | .nil => .nullDeref
            | .node pv pb pl pr =>
              (insertA9Balances a pb).andThen fun bs =>
                .ok (.node pv 0 (.node sv bs.1 sl pl) (.node rv bs.2 pr rr))
          else
            match rr with
            | .nil => .nullDeref
            | .node pv pb pl pr =>
              (insertA9Balances a pb).andThen fun bs =>
                .ok (.node pv 0 (.node rv bs.2 rl pl) (.node sv bs.1 pr sr))
        else .internalError

/-- Steps a6 and a7 to a9 over the recorded part of the path from `Q` up to
`S` (`S` is the last frame): every node below `S` gets step a6, `S` gets a7.
`insertLoop` always passes at least the frame of `S`, so the first case is
never taken. -/
def insertAdjust {α : Type} (compare : α → α → Bool) (t : α) :
    AvlNode α → List (Frame α) → Outcome (AvlNode α)
  | c, [] => .ok c
  | c, [s] => insertA7 compare t (s.attach c)
  | c, f :: g :: fs =>
    (insertA6 compare t f c).andThen fun n => insertAdjust compare t n (g :: fs)

/-- What follows `locationFound=true`: `Q` is the new node, `below` holds the
frames from the parent of `Q` up to `S`, `above` those from `T` up to `head`. -/
def insertFinish {α : Type} (compare : α → α → Bool) (t : α)
    (below above : List (Frame α)) : Outcome (Option (AvlNode α)) :=
  (insertAdjust compare t (AvlNode.mk1 t) below).andThen fun p =>
    .ok (some (rebuild p above))

/-- The loop a2 to a4 at the node `P`.  `below` are the frames from the parent
of `P` up to `S` (empty while `P == S`), `above` those from `T` up to `head`.
`ok none` is the `return` at "already inserted"; `ok (some h)` is the new
content of `head` once the value has been added. -/
def insertLoop {α : Type} (compare : α → α → Bool) (t : α) :
    AvlNode α → List (Frame α) → List (Frame α) → Outcome (Option (AvlNode α))
  | .nil, _, _ => .nullDeref
  | .node v b l r, below, above =>
    if AvlCompareEquals compare v t then .ok none
    else if compare t v then
      match l with
      | .nil => insertFinish compare t (Frame.goLeft v b r :: below) above
      | .node qv qb ql qr =>
        if qb ≠ 0 then
          insertLoop compare t (.node qv qb ql qr) [] (Frame.goLeft v b r :: below ++ above)
        else
          insertLoop compare t (.node qv qb ql qr) (Frame.goLeft v b r :: below) above
    else
      match r with
      | .nil => insertFinish compare t (Frame.goRight v b l :: below) above
      | .node qv qb ql qr =>
        if qb ≠ 0 then
          insertLoop compare t (.node qv qb ql qr) [] (Frame.goRight v b l :: below ++ above)
        else
          insertLoop compare t (.node qv qb ql qr) (Frame.goRight v b l :: below) above

/-- `void Avl::insert(const ValueType& t)`. -/
def Avl.insert {α : Type} (compare : α → α → Bool) (t : α) (s : Avl α) : Outcome (Avl α) :=
  match s.head with
  | .nil => .ok ⟨AvlNode.mk1 t, 1⟩
  | .node hv hb hl hr =>
    if AvlCompareEquals compare hv t then .ok s
    else
      match hr with
      | .nil => .ok ⟨.node hv hb hl (AvlNode.mk1 t), s.mySize + 1⟩
      | .node rv rb rl rr =>
        match insertLoop compare t (.node rv rb rl rr) [] [Frame.goRight hv hb hl] with
        | .ok none => .ok s
        | .ok (some h) => .ok ⟨h, s.mySize + 1⟩
        | .internalError => .internalError
        | .nullDeref => .nullDeref
        | .outOfBounds => .outOfBounds

/-! ## `Avl::remove` -/

/-- The loop d2 to d4 at the node `P`, with the stack `st` (top first; its last
entry is `st[0] = head`, and `k` is its length).  `ok none` is the `return` at
"element not in tree"; `ok (some (P, st))` is the exit with `found=true`. -/
def removeFind {α : Type} (compare : α → α → Bool) (t : α) :
    AvlNode α → List (Frame α) → Outcome (Option (AvlNode α × List (Frame α)))
  | .nil, _ => .ok none
  | .node v b l r, st =>
    if AvlCompareEquals compare v t then .ok (some (.node v b l r, st))
    else if compare t v then
      if (Frame.goLeft v b r :: st).length = MAX_AVL_DEPTH then .internalError
      else removeFind compare t l (Frame.goLeft v b r :: st)
    else
      if (Frame.goRight v b l :: st).length = MAX_AVL_DEPTH then .internalError
      else removeFind compare t r (Frame.goRight v b l :: st)

/-- The loop d8 at the node `S`, which has `k` stack entries above it; `spine`
are the entries pushed since `P` (top first).  It ends at the node without a
left child and gives its value, its right child and the entries pushed. -/
def removeD8 {α : Type} :
    AvlNode α → List (Frame α) → Nat → Outcome (α × AvlNode α × List (Frame α))
  | .nil, _, _ => .nullDeref
  | .node sv sb sl sr, spine, k =>
    match sl with
    | .nil => .ok (sv, sr, spine)
    | .node lv lb ll lr =>
      if k + 1 = MAX_AVL_DEPTH then .internalError
      else removeD8 (.node lv lb ll lr) (Frame.goLeft sv sb sr :: spine) (k + 1)

/-- Steps d5 to d9 for the found node `P` below the stack `st`: the subtree
that now hangs where the walk back up starts, and the stack for that walk. -/
def removeUnlink {α : Type} :
    AvlNode α → List (Frame α) → Outcome (AvlNode α × List (Frame α))
  | .nil, _ => .nullDeref
  | .node _ pb pl pr, st =>
    match pr with
    | .nil =>
      match pl with
      | .nil => .ok (.nil, st)
      | .node lv _ ll lr => .ok (.node lv 0 ll lr, st)
    | .node rv rb rl rr =>
      match rl with
      | .nil =>
        if (Frame.goRight rv pb pl :: st).length = MAX_AVL_DEPTH then .internalError
        else .ok (rr, Frame.goRight rv pb pl :: st)
      | .node lv lb ll lr =>
        if st.length + 1 = MAX_AVL_DEPTH then .internalError
        else if st.length + 2 = MAX_AVL_DEPTH then .internalError
        else
          (removeD8 (.node lv lb ll lr) [Frame.goLeft rv rb rr] (st.length + 2)).andThen
            fun res => .ok (res.2.1, res.2.2 ++ Frame.goRight res.1 pb pl :: st)

/-- Balances of `S` and `R` after the double rotation d13, from `PP->balance`. -/
def removeD13Balances (a ppb : Int) : Outcome (Int × Int) :=
  if ppb = -a then .ok (a, 0)
  else if ppb = 0 then .ok (0, 0)
  else if ppb = a then .ok (0, -a)
  else .internalError

/-- One turn of the loop d10 at `S = st[k]` with `a = a[k]`, for `S->balance`
equal to `-a[k]` (step iii): the rotations d11, d12, d13.  The result is the
node linked into `st[k-1]` in place of `S`, and whether the loop goes on
(`false` is the `return` of d11). -/
def removeRotate {α : Type} (a : Int) : AvlNode α → Outcome (AvlNode α × Bool)
  | .nil => .nullDeref
  | .node sv sb sl sr =>
    (link (-a) (.node sv sb sl sr)).andThen fun R =>
      match R with
      | .nil => .nullDeref
      | .node rv rb rl rr =>
        if rb = 0 then
          if -a = 1 then .ok (.node rv a (.node sv sb sl rl) rr, false)
          else .ok (.node rv a rl (.node sv sb rr sr), false)
        else if rb = -a then
          if -a = 1 then .ok (.node rv 0 (.node sv 0 sl rl) rr, true)
          else .ok (.node rv 0 rl (.node sv 0 rr sr), true)
        else if rb = a then
          (link a (.node rv rb rl rr)).andThen fun PP =>
            match PP with
            | .nil => .nullDeref
            | .node pv pb pl pr =>
              (removeD13Balances a pb).andThen fun bs =>
                if a = 1 then .ok (.node pv 0 (.node rv bs.2 rl pl) (.node sv bs.1 pr sr), true)
                else .ok (.node pv 0 (.node sv bs.1 sl pl) (.node rv bs.2 pr rr), true)
        else .internalError

/-- The loop d10: `c` is the subtree hanging below the top entry of the stack.
With only `st[0] = head` left (`k == 0`) the loop returns; the result is the
new content of `head`.  The stack always holds `st[0]`, so the first case is
never taken. -/
def removeBalance {α : Type} : AvlNode α → List (Frame α) → Outcome (AvlNode α)
  | c, [] => .ok c
  | c, [h] => .ok (h.attach c)
  | c, f :: g :: st =>
    if f.balance = 0 then
      .ok (rebuild (Frame.attach ⟨f.a, f.value, -f.a, f.other⟩ c) (g :: st))
    else if f.balance = f.a then
      removeBalance (Frame.attach ⟨f.a, f.value, 0, f.other⟩ c) (g :: st)
    else if f.balance = -f.a then
      match removeRotate f.a (f.attach c) with
      | .ok (n, true) => removeBalance n (g :: st)
      | .ok (n, false) => .ok (rebuild n (g :: st))
      | .internalError => .internalError
      | .nullDeref => .nullDeref
      | .outOfBounds => .outOfBounds
    else .internalError

/-- The part of `Avl::remove` from the comment "notation d1..d13" on. -/
def removeMain {α : Type} (compare : α → α → Bool) (t : α) (s : Avl α) : Outcome (Avl α) :=
  match s.head with
  | .nil => .nullDeref
  | .node hv hb hl hr =>
    match hr with
    | .nil => .ok s
    | .node rv rb rl rr =>
      match removeFind compare t (.node rv rb rl rr) [Frame.goRight hv hb hl] with
      | .ok none => .ok s
      | .ok (some (P, st)) =>
        (removeUnlink P st).andThen fun u =>
          (removeBalance u.1 u.2).andThen fun h => .ok ⟨h, s.mySize - 1⟩
      | .internalError => .internalError
      | .nullDeref => .nullDeref
      | .outOfBounds => .outOfBounds

/-- `void Avl::remove(const ValueType & t)`. -/
def Avl.remove {α : Type} (compare : α → α → Bool) (t : α) (s : Avl α) : Outcome (Avl α) :=
  match s.head with
  | .nil => .ok s
  | .node hv hb _ hr =>
    if AvlCompareEquals compare hv t then
      match hr with
      | .nil => .ok ⟨.nil, 0⟩
      | .node rv rb rl rr => removeMain compare t ⟨.node rv rb .nil (.node hv hb rl rr), s.mySize⟩
    else removeMain compare t s

/-! ## `Avl::get`, `Avl::size`, `Avl::clear` -/

/-- The `while (P!=nullptr)` loop of `Avl::get`.  A pass in which none of the
three tests holds would leave `P` as it is; `AvlCompareEquals` being false
means one of the two `compare` calls holds, so there is no such pass. -/
def getLoop {α : Type} (compare : α → α → Bool) (t : α) : AvlNode α → Option α
  | .nil => none
  | .node v _ l r =>
    if AvlCompareEquals compare t v then some v
    else if compare v t then getLoop compare t r
    else if compare t v then getLoop compare t l
    else none

/-- `ValueType * Avl::get(const ValueType& t)`: `none` is `nullptr`, `some v`
is the address of the stored value `v`. -/
def Avl.get {α : Type} (compare : α → α → Bool) (t : α) (s : Avl α) : Option α :=
  match s.head with
  | .nil => none
  | .node hv _ _ hr =>
    if AvlCompareEquals compare hv t then some hv
    else getLoop compare t hr

/-- `int Avl::size() const`. -/
def Avl.size {α : Type} (s : Avl α) : Int := s.mySize

/-- `void Avl::clear()`. -/
def Avl.clear {α : Type} (s : Avl α) : Avl α :=
  match s.head with
  | .nil => s
  | .node _ _ _ _ => ⟨.nil, 0⟩

/-! ## `AvlIterator` -/

/-- The class `AvlIterator`: the array `st`, `current` and `tableIndex`. -/
structure AvlIterator (α : Type) where
  st : List (AvlNode α)
  current : AvlNode α
  tableIndex : Int
  deriving DecidableEq

/-- The constructor `AvlIterator(AvlNode<T> * c)`. -/
def AvlIterator.mk1 {α : Type} (c : AvlNode α) : AvlIterator α :=
  ⟨List.replicate MAX_AVL_DEPTH .nil, c, 0⟩

/-- `iterator Avl::begin() const`. -/
def Avl.begin {α : Type} (s : Avl α) : AvlIterator α := AvlIterator.mk1 s.head

/-- `int AvlIterator::isLast()`. -/
def AvlIterator.isLast {α : Type} (it : AvlIterator α) : Bool :=
  match it.current with
  | .nil => true
  | .node _ _ _ _ => false

/-- `T AvlIterator::operator*()`. -/
def AvlIterator.deref {α : Type} (it : AvlIterator α) : Outcome α :=
  match it.current with
  | .nil => .nullDeref
  | .node v _ _ _ => .ok v

/-- The read `st[tableIndex-1]->right`. -/
def AvlIterator.stackedRight {α : Type} (st : List (AvlNode α)) (i : Int) :
    Outcome (AvlNode α) :=
  if i < 0 then .outOfBounds
  else
    match st.get? i.toNat with
    | none => .outOfBounds
    | some .nil => .nullDeref
    | some (.node _ _ _ r) => .ok r

/-- `AvlIterator & AvlIterator::operator++()`.  The source writes
`st[tableIndex]` and reads `st[tableIndex-1]` without a test of the index.  An
access outside the `MAX_AVL_DEPTH` entries of `st` is where this description of
a run ends, with `outOfBounds`: what the program does after such a write is not
defined by the language and is not described here.  What is stated about the
values a traversal yields is therefore stated for trees on which no such
access occurs; that there are reachable states on which it does occur is
shown separately. -/
def AvlIterator.next {α : Type} (it : AvlIterator α) : Outcome (AvlIterator α) :=
  match it.current with
  | .nil => .ok it
  | .node v b l r =>
    match r with
    | .nil =>
      match l with
      | .nil =>
        if it.tableIndex < 1 then .ok ⟨it.st, .nil, it.tableIndex⟩
        else
          (AvlIterator.stackedRight it.st (it.tableIndex - 1)).andThen fun c =>
            .ok ⟨it.st, c, it.tableIndex - 1⟩
      | .node lv lb ll lr => .ok ⟨it.st, .node lv lb ll lr, it.tableIndex⟩
    | .node rv rb rl rr =>
      match l with
      | .nil => .ok ⟨it.st, .node rv rb rl rr, it.tableIndex⟩
      | .node lv lb ll lr =>
        if it.tableIndex < 0 ∨ (MAX_AVL_DEPTH : Int) ≤ it.tableIndex then .outOfBounds
        else
          .ok ⟨it.st.set it.tableIndex.toNat (.node v b (.node lv lb ll lr) (.node rv rb rl rr)),
            .node lv lb ll lr, it.tableIndex + 1⟩

/-- At most `n` turns of `for (i = ...; !i.isLast(); ++i) { ... *i ... }`: the
values read through `*i`, and the iterator the loop stopped with. -/
def AvlIterator.run {α : Type} : Nat → AvlIterator α → Outcome (List α × AvlIterator α)
  | 0, it => .ok ([], it)
  | n + 1, it =>
    match it.current with
    | .nil => .ok ([], it)
    | .node v _ _ _ =>
      it.next.andThen fun it2 =>
        (AvlIterator.run n it2).andThen fun res => .ok (v :: res.1, res.2)

/-! ## Sequences of operations -/

/-- A call of one of the mutating members of `Avl`. -/
inductive Op (α : Type) where
  | insert (t : α) : Op α
  | remove (t : α) : Op α
  | clear : Op α
  deriving DecidableEq

/-- One call. -/
def Avl.apply {α : Type} (compare : α → α → Bool) (s : Avl α) : Op α → Outcome (Avl α)
  | .insert t => s.insert compare t
  | .remove t => s.remove compare t
  | .clear => .ok s.clear

/-- A sequence of calls, ended by the first one that does not complete. -/
def Avl.applyAll {α : Type} (compare : α → α → Bool) : Avl α → List (Op α) → Outcome (Avl α)
  | s, [] => .ok s
  | s, op :: ops => (s.apply compare op).andThen fun s2 => Avl.applyAll compare s2 ops

/-- States reached from the empty `Avl` by calls of `insert`, `remove` and
`clear` that complete.  (`clear` only leads back to the empty state.) -/
inductive Reachable {α : Type} (compare : α → α → Bool) : Avl α → Prop where
  | empty : Reachable compare Avl.empty
  | step (s s2 : Avl α) (op : Op α) :
      Reachable compare s → s.apply compare op = .ok s2 → Reachable compare s2

/-! ## Observations on trees -/

/-- Number of nodes. -/
def AvlNode.count {α : Type} : AvlNode α → Nat
  | .nil => 0
  | .node _ _ l r => l.count + r.count + 1

/-- Number of nodes on the longest downward path. -/
def AvlNode.height {α : Type} : AvlNode α → Nat
  | .nil => 0
  | .node _ _ l r => max l.height r.height + 1

/-- Left subtree, node, right subtree. -/
def AvlNode.inorder {α : Type} : AvlNode α → List α
  | .nil => []
  | .node v _ l r => l.inorder ++ v :: r.inorder

/-- Node, left subtree, right subtree. -/
def AvlNode.preorder {α : Type} : AvlNode α → List α
  | .nil => []
  | .node v _ l r => v :: (l.preorder ++ r.preorder)

/-- `head->right` (nothing for an empty `Avl`). -/
def Avl.root {α : Type} (s : Avl α) : AvlNode α :=
  match s.head with
  | .nil => .nil
  | .node _ _ _ r => r

/-- The stored values: the value of `head`, then those below `head->right`. -/
def Avl.stored {α : Type} (s : Avl α) : List α :=
  match s.head with
  | .nil => []
  | .node hv _ _ r => hv :: r.inorder

/-- Binary search tree: at every node the values on the left compare before
the node's value and those on the right after it. -/
def AvlNode.isBST {α : Type} (compare : α → α → Bool) : AvlNode α → Bool
  | .nil => true
  | .node v _ l r =>
    l.inorder.all (fun x => compare x v) && r.inorder.all (fun y => compare v y)
      && l.isBST compare && r.isBST compare

/-- What `updateDepth` tests at every node: `balance` is the height of the right
subtree minus that of the left one, and lies between `-1` and `1`. -/
def AvlNode.balanced {α : Type} : AvlNode α → Bool
  | .nil => true
  | .node _ b l r =>
    decide (b = (r.height : Int) - (l.height : Int)) && decide (-1 ≤ b ∧ b ≤ 1)
      && l.balanced && r.balanced

/-- `void Avl::updateDepth(AvlNodeType * n)`: the depth it leaves in
`max(n->leftDepth, n->rightDepth)`, or the `AVL_INTERNAL_ERROR` it runs into. -/
def updateDepth {α : Type} : AvlNode α → Outcome Int
  | .nil => .ok 0
  | .node _ b l r =>
    (match r with
      | .nil => (.ok 0 : Outcome Int)
      | .node rv rb rl rr => (updateDepth (.node rv rb rl rr)).andThen fun d => .ok (d + 1)).andThen
    fun rightDepth =>
    (match l with
      | .nil => (.ok 0 : Outcome Int)
      | .node lv lb ll lr => (updateDepth (.node lv lb ll lr)).andThen fun d => .ok (d + 1)).andThen
    fun leftDepth =>
      if b ≠ rightDepth - leftDepth then .internalError
      else if b > 1 ∨ b < -1 then .internalError
      else .ok (if leftDepth > rightDepth then leftDepth else rightDepth)

/-- `void Avl::check()`. -/
def Avl.check {α : Type} (s : Avl α) : Outcome Unit :=
  match s.head with
  | .nil => .ok ()
  | .node _ _ _ r => (updateDepth r).andThen fun _ => .ok ()

/-- A comparator that is a strict weak order; "equal" is `AvlCompareEquals`. -/
structure StrictWeak {α : Type} (compare : α → α → Bool) : Prop where
  irrefl : ∀ x, compare x x = false
  trans : ∀ x y z, compare x y = true → compare y z = true → compare x z = true
  equiv_trans : ∀ x y z, AvlCompareEquals compare x y = true →
      AvlCompareEquals compare y z = true → AvlCompareEquals compare x z = true

/-- The comparator `std::less` on natural numbers. -/
def natLess : Nat → Nat → Bool := fun x y => decide (x < y)

/-! ## Auxiliary notions used in the proofs -/

/-- Values to the left of the hole of a frame. -/
def Frame.leftPart {α : Type} (f : Frame α) : List α :=
  if f.a = 1 then f.other.inorder ++ [f.value] else []

/-- Values to the right of the hole of a frame. -/
def Frame.rightPart {α : Type} (f : Frame α) : List α :=
  if f.a = 1 then [] else f.value :: f.other.inorder

/-- Values to the left of the hole of a stack of frames. -/
def stackLeft {α : Type} : List (Frame α) → List α
  | [] => []
  | f :: st => stackLeft st ++ f.leftPart

/-- Values to the right of the hole of a stack of frames. -/
def stackRight {α : Type} : List (Frame α) → List α
  | [] => []
  | f :: st => f.rightPart ++ stackRight st

/-- A list is sorted by the comparator. -/
def Sorted {α : Type} (compare : α → α → Bool) (xs : List α) : Prop :=
  xs.Pairwise (fun x y => compare x y = true)

/-- What holds of every state reached by completed calls: `head` has no left
child, the values below `head->right` are sorted, none of them is equal to the
value of `head`, and `mySize` counts the nodes. -/
def Avl.Inv {α : Type} (compare : α → α → Bool) (s : Avl α) : Prop :=
  match s.head with
  | .nil => s.mySize = 0
  | .node hv _ hl root =>
    hl = .nil ∧ Sorted compare root.inorder ∧
      (∀ x ∈ root.inorder, AvlCompareEquals compare hv x = false) ∧
      s.mySize = (root.inorder.length : Int) + 1

/-- Largest number of entries of `st` in use at once during the traversal of a
subtree, beyond those in use when the traversal enters it. -/
def AvlNode.stackNeed {α : Type} : AvlNode α → Nat
  | .nil => 0
  | .node _ _ l r =>
    if l.count = 0 ∨ r.count = 0 then max l.stackNeed r.stackNeed
    else max (l.stackNeed + 1) r.stackNeed

/-- What `operator++` does at a node without children. -/
def AvlIterator.leafExit {α : Type} (st : List (AvlNode α)) (ti : Int) :
    Outcome (AvlIterator α) :=
  if ti < 1 then .ok ⟨st, .nil, ti⟩
  else (AvlIterator.stackedRight st (ti - 1)).andThen fun c => .ok ⟨st, c, ti - 1⟩

/-- Put values in front of those a run yields. -/
def AvlIterator.yieldFirst {α : Type} (xs : List α)
    (r : Outcome (List α × AvlIterator α)) : Outcome (List α × AvlIterator α) :=
  r.andThen fun res => .ok (xs ++ res.1, res.2)

/-! ## `avlmap.h`: `MapPair`, `PairCompare`, `MapIterator`, `Map` -/

/-- Result of a member that may throw: the two exception classes of the
library are `MapException` (`avlmap.h`) and `AvlException` (`AVL_EXCEPTION`). -/
inductive Throwing (β : Type) where
  | returns (val : β) : Throwing β
  | mapException : Throwing β
  | avlException : Throwing β
  deriving DecidableEq

/-- The class `MapPair<Key,Value>`: the members `key`, `value`, `noValue`, `noKey`. -/
structure MapPair (K V : Type) where
  key : K
  value : V
  noValue : Bool
  noKey : Bool
  deriving DecidableEq

/-- The constructor `MapPair()`; `key()` and `value()` are value-initialised. -/
def MapPair.mk0 {K V : Type} [Inhabited K] [Inhabited V] : MapPair K V :=
  ⟨default, default, true, true⟩

/-- The constructor `MapPair(Key k)`: the key-only pair. -/
def MapPair.mk1 {K V : Type} [Inhabited V] (k : K) : MapPair K V :=
  ⟨k, default, true, false⟩

/-- The constructor `MapPair(Key k, Value & v)`. -/
def MapPair.mk2 {K V : Type} (k : K) (v : V) : MapPair K V :=
  ⟨k, v, false, false⟩

/-- The copy constructor `MapPair(const MapPair<Key,Value>& mp)`. -/
def MapPair.copy {K V : Type} (mp : MapPair K V) : MapPair K V :=
  ⟨mp.key, mp.value, mp.noValue, mp.noKey⟩

/-- `Key & MapPair::getKey()`. -/
def MapPair.getKey {K V : Type} (p : MapPair K V) : Throwing K :=
  if p.noKey then .mapException else .returns p.key

/-- `Value & MapPair::getValue()`. -/
def MapPair.getValue {K V : Type} (p : MapPair K V) : Throwing V :=
  if p.noValue then .mapException else .returns p.value

/-- `void MapPair::setValue(Value & v)`. -/
def MapPair.setValue {K V : Type} (p : MapPair K V) (v : V) : MapPair K V :=
  ⟨p.key, v, p.noValue, p.noKey⟩

/-- `bool MapPair::hasValue()`. -/
def MapPair.hasValue {K V : Type} (p : MapPair K V) : Bool := !p.noValue

/-- `bool MapPair::hasKey()`. -/
def MapPair.hasKey {K V : Type} (p : MapPair K V) : Bool := !p.noKey

/-- `PairCompare::operator()`: `cmp(v1.getKey(), v2.getKey())`.  `getKey()` throws
on a pair without key; `Map` hands the comparator only pairs built with a key
(its probes, and its stored pairs: `Map.Reachable.full`), for which the result
is `cmp` of the two `key` members. -/
def PairCompare {K V : Type} (cmp : K → K → Bool) (v1 v2 : MapPair K V) : Bool :=
  cmp v1.key v2.key

/-- The write `p->...` through a pointer `p` that `Avl::get(t)` returned, inside
the loop of `get`: the node at which that loop stops gets its value replaced
by `f` of it. -/
def getLoopWrite {α : Type} (compare : α → α → Bool) (t : α) (f : α → α) :
    AvlNode α → AvlNode α
  | .nil => .nil
  | .node v b l r =>
    if AvlCompareEquals compare t v then .node (f v) b l r
    else if compare v t then .node v b l (getLoopWrite compare t f r)
    else if compare t v then .node v b (getLoopWrite compare t f l) r
    else .node v b l r

/-- The write through the pointer that `Avl::get(t)` returned: the value that
`get` designates is replaced by `f` of it; nothing else is touched. -/
def Avl.getWrite {α : Type} (compare : α → α → Bool) (t : α) (f : α → α) (s : Avl α) : Avl α :=
  match s.head with
  | .nil => s
  | .node hv hb hl hr =>
    if AvlCompareEquals compare hv t then ⟨.node (f hv) hb hl hr, s.mySize⟩
    else ⟨.node hv hb hl (getLoopWrite compare t f hr), s.mySize⟩

/-- The class `Map<Key,Value,Compare>`: its member `mapAvl`. -/
structure Map (K V : Type) where
  mapAvl : Avl (MapPair K V)
  deriving DecidableEq

/-- The constructor `Map()`. -/
def Map.empty {K V : Type} : Map K V := ⟨Avl.empty⟩

/-- `void Map::insert(Key k, Value v)`. -/
def Map.insert {K V : Type} (cmp : K → K → Bool) (k : K) (v : V) (m : Map K V) :
    Outcome (Map K V) :=
  match m.mapAvl.get (PairCompare cmp) (MapPair.mk2 k v) with
  | none => (m.mapAvl.insert (PairCompare cmp) (MapPair.mk2 k v)).andThen fun a => .ok ⟨a⟩
  | some _ =>
    .ok ⟨m.mapAvl.getWrite (PairCompare cmp) (MapPair.mk2 k v) (fun p => p.setValue v)⟩

/-- `void Map::remove(Key k)`. -/
def Map.remove {K V : Type} [Inhabited V] (cmp : K → K → Bool) (k : K) (m : Map K V) :
    Outcome (Map K V) :=
  (m.mapAvl.remove (PairCompare cmp) (MapPair.mk1 k)).andThen fun a => .ok ⟨a⟩

/-- `bool Map::has(const Key & k) const`. -/
def Map.has {K V : Type} [Inhabited V] (cmp : K → K → Bool) (k : K) (m : Map K V) : Bool :=
  match m.mapAvl.get (PairCompare cmp) (MapPair.mk1 k) with
  | none => false
  | some _ => true

/-- `Value * Map::get(const Key & k) const`: `none` is `nullptr`. -/
def Map.get {K V : Type} [Inhabited V] (cmp : K → K → Bool) (k : K) (m : Map K V) : Option V :=
  match m.mapAvl.get (PairCompare cmp) (MapPair.mk1 k) with
  | none => none
  | some p => if !p.hasValue then none else some p.value

/-- `Value & Map::operator[] (const Key & k) const`. -/
def Map.index {K V : Type} [Inhabited V] (cmp : K → K → Bool) (k : K) (m : Map K V) :
    Throwing V :=
  match m.mapAvl.get (PairCompare cmp) (MapPair.mk1 k) with
  | none => .avlException
  | some p => if !p.hasValue then .avlException else p.getValue

/-- `void Map::clear()`. -/
def Map.clear {K V : Type} (m : Map K V) : Map K V :=
  if m.mapAvl.size > 0 then ⟨m.mapAvl.clear⟩ else m

/-- `int Map::size() const`. -/
def Map.size {K V : Type} (m : Map K V) : Int := m.mapAvl.size

/-- The class `MapIterator<Key,Value>`: its member `avlIter`. -/
structure MapIterator (K V : Type) where
  avlIter : AvlIterator (MapPair K V)
  deriving DecidableEq

/-- `iterator Map::begin() const`; `MapIterator()` holds `AvlIterator(nullptr)`. -/
def Map.begin {K V : Type} (m : Map K V) : MapIterator K V :=
  if m.mapAvl.size = 0 then ⟨AvlIterator.mk1 .nil⟩ else ⟨m.mapAvl.begin⟩

/-- `int MapIterator::isLast()`. -/
def MapIterator.isLast {K V : Type} (i : MapIterator K V) : Bool := i.avlIter.isLast

/-- `MapPair<Key, Value> MapIterator::operator*()`. -/
def MapIterator.deref {K V : Type} (i : MapIterator K V) : Outcome (MapPair K V) :=
  i.avlIter.deref

/-- `MapIterator & MapIterator::operator++()`. -/
def MapIterator.next {K V : Type} (i : MapIterator K V) : Outcome (MapIterator K V) :=
  i.avlIter.next.andThen fun it => .ok ⟨it⟩

/-- `bool MapIterator::hasValue()`. -/
def MapIterator.hasValue {K V : Type} (i : MapIterator K V) : Outcome Bool :=
  i.avlIter.deref.andThen fun p => .ok p.hasValue

/-- `bool MapIterator::hasKey()`. -/
def MapIterator.hasKey {K V : Type} (i : MapIterator K V) : Outcome Bool :=
  i.avlIter.deref.andThen fun p => .ok p.hasKey

/-- At most `n` turns of the loop `while (!mi.isLast()) { mapAvl.insert(*mi); ++mi; }`
of `Map::operator=`, with `a` the content of `mapAvl`. -/
def Map.assignLoop {K V : Type} (cmp : K → K → Bool) :
    Nat → MapIterator K V → Avl (MapPair K V) → Outcome (Avl (MapPair K V))
  | 0, _, a => .ok a
  | n + 1, mi, a =>
    match mi.avlIter.current with
    | .nil => .ok a
    | .node p _ _ _ =>
      (a.insert (PairCompare cmp) p).andThen fun a2 =>
        mi.next.andThen fun mi2 => Map.assignLoop cmp n mi2 a2

/-- `Map & Map::operator=(const Map & m)` for a map `m` other than `*this`.
The loop makes one turn per node of `m`, so as many turns as `m` has nodes
bring it to `mi.isLast()` (`Map.assignLoop_runs`). -/
def Map.assign {K V : Type} (cmp : K → K → Bool) (m : Map K V) (self : Map K V) :
    Outcome (Map K V) :=
  (Map.assignLoop cmp m.mapAvl.head.count m.begin self.mapAvl.clear).andThen fun a => .ok ⟨a⟩

/-- States of a `Map` reached from the empty one by calls of `insert`, `remove`,
`clear` and `operator=` (from another reached map) that complete. -/
inductive Map.Reachable {K V : Type} [Inhabited V] (cmp : K → K → Bool) : Map K V → Prop where
  | empty : Map.Reachable cmp Map.empty
  | insert (m m2 : Map K V) (k : K) (v : V) :
      Map.Reachable cmp m → m.insert cmp k v = .ok m2 → Map.Reachable cmp m2
  | remove (m m2 : Map K V) (k : K) :
      Map.Reachable cmp m → m.remove cmp k = .ok m2 → Map.Reachable cmp m2
  | clear (m : Map K V) : Map.Reachable cmp m → Map.Reachable cmp m.clear
  | assign (self m m2 : Map K V) :
      Map.Reachable cmp self → Map.Reachable cmp m → Map.assign cmp m self = .ok m2 →
      Map.Reachable cmp m2

/-- The same tree with every value replaced by its image: shape and balances
are kept. -/
def AvlNode.map {α β : Type} (g : α → β) : AvlNode α → AvlNode β
  | .nil => .nil
  | .node v b l r => .node (g v) b (l.map g) (r.map g)

/-- `n` times `operator++`. -/
def AvlIterator.nextTimes {α : Type} : Nat → AvlIterator α → Outcome (AvlIterator α)
  | 0, it => .ok it
  | n + 1, it => it.next.andThen fun it2 => AvlIterator.nextTimes n it2

/-- Lexicographic order on character sequences, character by character. -/
def charsLess : List Char → List Char → Bool
  | [], [] => false
  | [], _ :: _ => true
  | _ :: _, [] => false
  | a :: as, b :: bs =>
    if a.toNat < b.toNat then true
    else if b.toNat < a.toNat then false
    else charsLess as bs

/-- The comparator `std::less` on strings. -/
def stringLess : String → String → Bool := fun x y => charsLess x.data y.data

/-- What the write through the pointer returned by `get(t)` does to a stored
value: the value equal to `t` in the comparator sense becomes `f` of it. -/
def writeImage {α : Type} (compare : α → α → Bool) (t : α) (f : α → α) (x : α) : α :=
  if AvlCompareEquals compare x t then f x else x

/-- Every stored pair has a key and a value. -/
def Map.Full {K V : Type} (m : Map K V) : Prop :=
  ∀ p ∈ m.mapAvl.stored, p.noKey = false ∧ p.noValue = false

/-- Calls of `Avl::insert` for the values of a list, in order. -/
def Avl.insertAll {α : Type} (compare : α → α → Bool) : Avl α → List α → Outcome (Avl α)
  | a, [] => .ok a
  | a, x :: xs => (a.insert compare x).andThen fun a2 => Avl.insertAll compare a2 xs

/-- The `Map<string,int>` after `insert("a",1)`. -/
def mapA1 : Map String Int := ⟨⟨.node (MapPair.mk2 "a" 1) 0 .nil .nil, 1⟩⟩

/-- The `Map<string,int>` after `insert("a",1)`, `insert("a",2)`. -/
def mapA2 : Map String Int := ⟨⟨.node (MapPair.mk2 "a" 2) 0 .nil .nil, 1⟩⟩

/-- The map after `insert(1,10)`. -/
def map1 : Map Nat Nat := ⟨⟨.node (MapPair.mk2 1 10) 0 .nil .nil, 1⟩⟩

/-- The map after `insert(1,10)`, `insert(2,20)`. -/
def map12 : Map Nat Nat :=
  ⟨⟨.node (MapPair.mk2 1 10) 0 .nil (.node (MapPair.mk2 2 20) 0 .nil .nil), 2⟩⟩

/-- The map after `insert(1,10)`, `insert(2,20)`, `insert(3,30)`. -/
def map123 : Map Nat Nat :=
  ⟨⟨.node (MapPair.mk2 1 10) 0 .nil
    (.node (MapPair.mk2 2 20) 1 .nil (.node (MapPair.mk2 3 30) 0 .nil .nil)), 3⟩⟩

/-- The map after `insert(1,10)`, `insert(2,20)`, `insert(3,30)`, `remove(2)`. -/
def map13 : Map Nat Nat :=
  ⟨⟨.node (MapPair.mk2 1 10) 0 .nil (.node (MapPair.mk2 3 30) 0 .nil .nil), 2⟩⟩

/-! ## Copying an `Avl`, and further notions used in the proofs -/

/-- `AvlNodeType * copyNodeRec(AvlNodeType * n)`: `nullptr` for `nullptr`;
otherwise the node made by the copy constructor of `AvlNode` (value and balance
of `n`, no children), whose `right` and `left` are then set to the copies of
the children of `n`. -/
def copyNodeRec {α : Type} : AvlNode α → AvlNode α
  | .nil => .nil
  | .node v b l r => .node v b (copyNodeRec l) (copyNodeRec r)

/-- The copy constructor `Avl(const Avl<ValueType,Compare> & a)`. -/
def Avl.copy {α : Type} (a : Avl α) : Avl α := ⟨copyNodeRec a.head, a.mySize⟩

/-- `Avl::operator=(const Avl<ValueType,Compare> & a)` on the tree `self`, for
`a` another object than `self`: the nodes of `self` are deleted, then `mySize`
and `head` are taken from `a`. -/
def Avl.assign {α : Type} (a : Avl α) (_self : Avl α) : Avl α :=
  ⟨copyNodeRec a.head, a.mySize⟩

/-- The walk a2 to a4 of `insertLoop` alone: the frames it has recorded when it
reaches `locationFound=true` (`below`: parent of `Q` up to `S`; `above`: `T` up
to `head`), or `none` at "already inserted". -/
def insertWalk {α : Type} (compare : α → α → Bool) (t : α) :
    AvlNode α → List (Frame α) → List (Frame α) →
      Outcome (Option (List (Frame α) × List (Frame α)))
  | .nil, _, _ => .nullDeref
  | .node v b l r, below, above =>
    if AvlCompareEquals compare v t then .ok none
    else if compare t v then
      match l with
      | .nil => .ok (some (Frame.goLeft v b r :: below, above))
      | .node qv qb ql qr =>
        if qb ≠ 0 then
          insertWalk compare t (.node qv qb ql qr) [] (Frame.goLeft v b r :: below ++ above)
        else
          insertWalk compare t (.node qv qb ql qr) (Frame.goLeft v b r :: below) above
    else
      match r with
      | .nil => .ok (some (Frame.goRight v b l :: below, above))
      | .node qv qb ql qr =>
        if qb ≠ 0 then
          insertWalk compare t (.node qv qb ql qr) [] (Frame.goRight v b l :: below ++ above)
        else
          insertWalk compare t (.node qv qb ql qr) (Frame.goRight v b l :: below) above

/-- The balance field of a node (`0` for `nullptr`, which has none). -/
def AvlNode.bal {α : Type} : AvlNode α → Int
  | .nil => 0
  | .node _ b _ _ => b

/-- A frame is that of a node satisfying the balance condition when the
subtree on the side the walk took has height `h`. -/
def Frame.fits {α : Type} (f : Frame α) (h : Nat) : Prop :=
  f.other.balanced = true ∧ -1 ≤ f.balance ∧ f.balance ≤ 1 ∧
    ((f.a = 1 ∧ f.balance = (h : Int) - (f.other.height : Int)) ∨
      (f.a = -1 ∧ f.balance = (f.other.height : Int) - (h : Int)))

/-- Height of the tree that a stack of frames builds around a subtree of
height `h`. -/
def chainHeight {α : Type} : List (Frame α) → Nat → Nat
  | [], h => h
  | f :: fs, h => chainHeight fs (max h f.other.height + 1)

/-- Every frame of the stack fits the height of what is below it, when the
subtree in the hole has height `h`. -/
def chainFits {α : Type} : List (Frame α) → Nat → Prop
  | [], _ => True
  | f :: fs, h => f.fits h ∧ chainFits fs (max h f.other.height + 1)

/-- The frame was recorded on the way towards the place of `t`. -/
def Frame.follows {α : Type} (compare : α → α → Bool) (t : α) (f : Frame α) : Prop :=
  (f.a = -1 ∧ compare t f.value = true) ∨
    (f.a = 1 ∧ compare t f.value = false ∧ compare f.value t = true)

/-- The balance of `S` (the last frame, or the current node when there is no
frame), provided every node of the path below `S` has balance `0`; `b` is the
balance of the current node. -/
def pathBalance {α : Type} (b : Int) : List (Frame α) → Option Int
  | [] => some b
  | f :: fs => if b = 0 then pathBalance f.balance fs else none

/-- Number of nodes of the sparsest tree of height `n` that satisfies the
balance condition. -/
def fibSize : Nat → Nat
  | 0 => 0
  | 1 => 1
  | n + 2 => fibSize (n + 1) + fibSize n + 1

/-- A tree with `n` nodes that have two children, each the left child of the
one before. -/
def combTree : Nat → AvlNode Nat
  | 0 => .node 0 0 .nil .nil
  | n + 1 => .node 0 0 (combTree n) (.node 0 0 .nil .nil)

/-! ## Notions used for the bounds of the iterator's stack -/

/-- The index of `st` that `operator++` reads (`st[tableIndex-1]`, at a node
without children when `tableIndex >= 1`) or writes (`st[tableIndex]`, at a node
with two children) in the state `it`; `none` when it does not touch `st`. -/
def AvlIterator.accessed {α : Type} (it : AvlIterator α) : Option Int :=
  match it.current with
  | .nil => none
  | .node _ _ l r =>
    match r with
    | .nil =>
      match l with
      | .nil => if it.tableIndex < 1 then none else some (it.tableIndex - 1)
      | .node _ _ _ _ => none
    | .node _ _ _ _ =>
      match l with
      | .nil => none
      | .node _ _ _ _ => some it.tableIndex

/-- An iterator state that fits the traversal of a tree of height `H`: the
number of stacked nodes plus the height of the subtree at `current` stays
within `H`, and every stacked node is a node whose right subtree fits in the
same way at the level of that entry. -/
def AvlIterator.within {α : Type} (H : Nat) (it : AvlIterator α) : Prop :=
  it.st.length = MAX_AVL_DEPTH ∧ 0 ≤ it.tableIndex ∧
    it.tableIndex + ((max it.current.height 1 : Nat) : Int) ≤ ((max H 1 : Nat) : Int) ∧
    ∀ i : Nat, (i : Int) < it.tableIndex →
      ∃ v b l r, it.st.get? i = some (.node v b l r) ∧ i + max r.height 1 ≤ max H 1

/-! ## A run of calls that builds a deep tree -/

/-- The first 78 calls of the run `deepOps`. -/
def deepPrefix : List (Op Nat) :=
  [Op.insert 1000, Op.insert 872, Op.insert 936, Op.insert 744, Op.insert 616, Op.remove 1000, Op.insert 488,
    Op.insert 552, Op.insert 904, Op.remove 872, Op.insert 1064, Op.insert 1000, Op.insert 1032,
    Op.insert 1016, Op.insert 1024, Op.insert 920, Op.remove 616, Op.insert 1048, Op.remove 744,
    Op.insert 928, Op.insert 520, Op.remove 1016, Op.insert 360, Op.insert 232, Op.remove 1032,
    Op.remove 1000, Op.insert 1036, Op.insert 1030, Op.insert 1042, Op.insert 1039, Op.remove 232,
    Op.remove 552, Op.remove 1036, Op.remove 1039, Op.insert 504, Op.insert 512, Op.insert 1192,
    Op.remove 1042, Op.insert 1056, Op.insert 1052, Op.insert 1060, Op.remove 504, Op.insert 1128,
    Op.remove 360, Op.remove 520, Op.remove 1056, Op.remove 1060, Op.insert 360, Op.insert 232, Op.insert 104,
    Op.insert 1320, Op.remove 1064, Op.insert 1160, Op.insert 1144, Op.insert 1176, Op.insert 1168,
    Op.remove 104, Op.remove 512, Op.remove 1192, Op.remove 1168, Op.insert 424, Op.remove 1160,
    Op.remove 1176, Op.insert 392, Op.insert 104, Op.insert 1448, Op.insert 1384, Op.insert 1416,
    Op.remove 360, Op.insert 1400, Op.insert 1392, Op.remove 104, Op.remove 488, Op.remove 1392,
    Op.remove 1400, Op.insert 312, Op.remove 1384, Op.remove 1416]

/-- One round of the run `deepOps`: `h` is the value of `head`, `M` the
largest stored value and `m` a value below all stored ones. -/
def deepRound (h M m : Nat) : List (Op Nat) :=
  [Op.insert (M + 5), Op.insert (M + 3), Op.insert m, Op.insert (M + 6), Op.insert (M + 2),
    Op.insert (M + 4), Op.insert (M + 7), Op.remove m, Op.remove h, Op.remove (M + 3), Op.remove (M + 4),
    Op.insert m, Op.remove (M + 5), Op.remove (M + 6)]

/-- A run of 1492 calls of `insert` and `remove` on an `Avl<int>` that all
complete: 78 calls, then 101 rounds of 14 calls. -/
def deepOps : List (Op Nat) :=
  deepPrefix ++ deepRound 392 1448 231 ++ deepRound 312 1455 230 ++
    (List.range 99).flatMap fun j => deepRound (232 - j) (1462 + 7 * j) (229 - j)

/-! ## Basic facts -/

theorem Outcome.andThen_eq_ok {β γ : Type} (x : Outcome β) (k : β → Outcome γ) (v : γ) :
    x.andThen k = .ok v ↔ ∃ u, x = .ok u ∧ k u = .ok v := by
  cases x <;> simp [Outcome.andThen]

theorem AvlCompareEquals_comm {α : Type} (compare : α → α → Bool) (x y : α) :
    AvlCompareEquals compare x y = AvlCompareEquals compare y x := by
  simp [AvlCompareEquals, Bool.and_comm]

theorem AvlCompareEquals_eq_true {α : Type} (compare : α → α → Bool) (x y : α) :
    AvlCompareEquals compare x y = true ↔ compare x y = false ∧ compare y x = false := by
  simp [AvlCompareEquals]

theorem AvlCompareEquals_eq_false {α : Type} (compare : α → α → Bool) (x y : α) :
    AvlCompareEquals compare x y = false ↔ compare x y = true ∨ compare y x = true := by
  simp only [AvlCompareEquals]
  cases compare x y <;> cases compare y x <;> simp

theorem AvlCompareEquals_of_lt {α : Type} (compare : α → α → Bool) (x y : α)
    (h : compare x y = true) : AvlCompareEquals compare x y = false := by
  simp [AvlCompareEquals, h]

theorem AvlCompareEquals_of_gt {α : Type} (compare : α → α → Bool) (x y : α)
    (h : compare y x = true) : AvlCompareEquals compare x y = false := by
  simp [AvlCompareEquals, h]

theorem StrictWeak.refl_equals {α : Type} {compare : α → α → Bool} (hc : StrictWeak compare)
    (x : α) : AvlCompareEquals compare x x = true := by
  simp [AvlCompareEquals, hc.irrefl]

theorem Frame.inorder_attach {α : Type} (f : Frame α) (c : AvlNode α) :
    (f.attach c).inorder = f.leftPart ++ c.inorder ++ f.rightPart := by
  unfold Frame.attach Frame.leftPart Frame.rightPart
  split <;> simp [AvlNode.inorder]

theorem inorder_rebuild {α : Type} (st : List (Frame α)) (c : AvlNode α) :
    (rebuild c st).inorder = stackLeft st ++ c.inorder ++ stackRight st := by
  induction st generalizing c with
  | nil => simp [rebuild, stackLeft, stackRight]
  | cons f st ih => simp [rebuild, stackLeft, stackRight, ih, Frame.inorder_attach]

theorem stackLeft_append {α : Type} (st1 st2 : List (Frame α)) :
    stackLeft (st1 ++ st2) = stackLeft st2 ++ stackLeft st1 := by
  induction st1 with
  | nil => simp [stackLeft]
  | cons f st ih => simp [stackLeft, ih]

theorem stackRight_append {α : Type} (st1 st2 : List (Frame α)) :
    stackRight (st1 ++ st2) = stackRight st1 ++ stackRight st2 := by
  induction st1 with
  | nil => simp [stackRight]
  | cons f st ih => simp [stackRight, ih]

theorem rebuild_append {α : Type} (st1 st2 : List (Frame α)) (c : AvlNode α) :
    rebuild c (st1 ++ st2) = rebuild (rebuild c st1) st2 := by
  induction st1 generalizing c with
  | nil => simp [rebuild]
  | cons f st ih => simp [rebuild, ih]

theorem AvlNode.count_eq_length {α : Type} (n : AvlNode α) : n.count = n.inorder.length := by
  induction n with
  | nil => simp [AvlNode.count, AvlNode.inorder]
  | node v b l r ihl ihr => simp [AvlNode.count, AvlNode.inorder, ihl, ihr]; omega

theorem AvlNode.preorder_perm_inorder {α : Type} (n : AvlNode α) :
    n.preorder.Perm n.inorder := by
  induction n with
  | nil => simp [AvlNode.preorder, AvlNode.inorder]
  | node v b l r ihl ihr =>
    simp only [AvlNode.preorder, AvlNode.inorder]
    exact ((List.Perm.append ihl ihr).cons v).trans List.perm_middle.symm

/-! ## `insert` keeps the in-order listing and adds `t` -/

theorem insertA7_inorder {α : Type} (compare : α → α → Bool) (t : α) (S p : AvlNode α)
    (h : insertA7 compare t S = .ok p) : p.inorder = S.inorder := by
  cases S with
  | nil => simp [insertA7] at h
  | node sv sb sl sr =>
    simp only [insertA7] at h
    by_cases hc : compare t sv = true
    · simp only [hc, if_true] at h
      split at h
      · cases h; simp [AvlNode.inorder]
      · split at h
        · cases h; simp [AvlNode.inorder]
        · split at h
          · cases h
          · cases sl with
            | nil => simp at h
            | node rv rb rl rr =>
              simp only at h
              split at h
              · simp at h; cases h; simp [AvlNode.inorder]
              · split at h
                · simp at h
                  cases rr with
                  | nil => simp at h
                  | node pv pb pl pr =>
                    simp only [Outcome.andThen_eq_ok] at h
                    obtain ⟨bs, -, h⟩ := h
                    cases h; simp [AvlNode.inorder]
                · cases h
    · simp only [hc] at h
      simp only [Bool.false_eq_true, if_false] at h
      split at h
      · cases h; simp [AvlNode.inorder]
      · split at h
        · cases h; simp [AvlNode.inorder]
        · split at h
          · cases h
          · cases sr with
            | nil => simp at h
            | node rv rb rl rr =>
              simp only at h
              split at h
              · simp at h; cases h; simp [AvlNode.inorder]
              · split at h
                · simp at h
                  cases rl with
                  | nil => simp at h
                  | node pv pb pl pr =>
                    simp only [Outcome.andThen_eq_ok] at h
                    obtain ⟨bs, -, h⟩ := h
                    cases h; simp [AvlNode.inorder]
                · cases h

theorem insertA6_inorder {α : Type} (compare : α → α → Bool) (t : α) (f : Frame α)
    (c n : AvlNode α) (h : insertA6 compare t f c = .ok n) :
    n.inorder = f.leftPart ++ c.inorder ++ f.rightPart := by
  unfold insertA6 at h
  split at h
  · cases h; simp [Frame.inorder_attach, Frame.leftPart, Frame.rightPart]
  · split at h
    · cases h; simp [Frame.inorder_attach, Frame.leftPart, Frame.rightPart]
    · cases h

theorem insertAdjust_inorder {α : Type} (compare : α → α → Bool) (t : α)
    (below : List (Frame α)) (c p : AvlNode α)
    (h : insertAdjust compare t c below = .ok p) :
    p.inorder = stackLeft below ++ c.inorder ++ stackRight below := by
  induction below generalizing c with
  | nil => simp [insertAdjust] at h; subst h; simp [stackLeft, stackRight]
  | cons f fs ih =>
    cases fs with
    | nil =>
      simp only [insertAdjust] at h
      rw [insertA7_inorder compare t _ _ h, Frame.inorder_attach]
      simp [stackLeft, stackRight]
    | cons g gs =>
      simp only [insertAdjust, Outcome.andThen_eq_ok] at h
      obtain ⟨n, hn, h⟩ := h
      rw [ih n h, insertA6_inorder compare t f c n hn]
      simp [stackLeft, stackRight]

theorem insertFinish_spec {α : Type} (compare : α → α → Bool) (t : α)
    (below above : List (Frame α)) (hf : Frame α) (h : AvlNode α)
    (hh : insertFinish compare t below (above ++ [hf]) = .ok (some h)) :
    ∃ p, h = hf.attach p ∧
      p.inorder = stackLeft (below ++ above) ++ t :: stackRight (below ++ above) := by
  simp only [insertFinish, Outcome.andThen_eq_ok] at hh
  obtain ⟨p0, hp0, hh⟩ := hh
  simp only [Outcome.ok.injEq, Option.some.injEq] at hh
  refine ⟨rebuild p0 above, ?_, ?_⟩
  · rw [← hh, rebuild_append]; rfl
  · rw [inorder_rebuild, insertAdjust_inorder compare t below _ p0 hp0]
    simp [stackLeft_append, stackRight_append, AvlNode.mk1, AvlNode.inorder]

theorem Sorted.node {α : Type} {compare : α → α → Bool} {v : α} {l r : List α}
    (h : Sorted compare (l ++ v :: r)) :
    Sorted compare l ∧ Sorted compare r ∧ (∀ x ∈ l, compare x v = true) ∧
      (∀ y ∈ r, compare v y = true) := by
  unfold Sorted at *
  rw [List.pairwise_append, List.pairwise_cons] at h
  refine ⟨h.1, h.2.1.2, fun x hx => h.2.2 x hx v (by simp), h.2.1.1⟩

theorem AvlNode.mem_inorder_node {α : Type} {x v : α} {b : Int} {l r : AvlNode α} :
    x ∈ (AvlNode.node v b l r).inorder ↔ x ∈ l.inorder ∨ x = v ∨ x ∈ r.inorder := by
  simp [AvlNode.inorder]

theorem insertLoop_none {α : Type} (compare : α → α → Bool) (t : α) (P : AvlNode α)
    (below above : List (Frame α))
    (h : insertLoop compare t P below above = .ok none) :
    ∃ x ∈ P.inorder, AvlCompareEquals compare x t = true := by
  induction P generalizing below above with
  | nil => simp [insertLoop] at h
  | node v b l r ihl ihr =>
    unfold insertLoop at h
    by_cases he : AvlCompareEquals compare v t = true
    · exact ⟨v, by simp [AvlNode.inorder], he⟩
    · simp only [he] at h
      by_cases hc : compare t v = true
      · simp only [hc, if_true, Bool.false_eq_true, if_false] at h
        cases l with
        | nil => simp [insertFinish, Outcome.andThen_eq_ok] at h
        | node qv qb ql qr =>
          simp only at h
          split at h
          · obtain ⟨x, hx, hxe⟩ := ihl _ _ h
            exact ⟨x, AvlNode.mem_inorder_node.2 (Or.inl hx), hxe⟩
          · obtain ⟨x, hx, hxe⟩ := ihl _ _ h
            exact ⟨x, AvlNode.mem_inorder_node.2 (Or.inl hx), hxe⟩
      · simp only [hc, Bool.false_eq_true, if_false] at h
        cases r with
        | nil => simp [insertFinish, Outcome.andThen_eq_ok] at h
        | node qv qb ql qr =>
          simp only at h
          split at h
          · obtain ⟨x, hx, hxe⟩ := ihr _ _ h
            exact ⟨x, AvlNode.mem_inorder_node.2 (Or.inr (Or.inr hx)), hxe⟩
          · obtain ⟨x, hx, hxe⟩ := ihr _ _ h
            exact ⟨x, AvlNode.mem_inorder_node.2 (Or.inr (Or.inr hx)), hxe⟩

theorem stackLeft_goLeft {α : Type} (v : α) (b : Int) (r : AvlNode α) (st : List (Frame α)) :
    stackLeft (Frame.goLeft v b r :: st) = stackLeft st := by
  simp [stackLeft, Frame.leftPart, Frame.goLeft]

theorem stackRight_goLeft {α : Type} (v : α) (b : Int) (r : AvlNode α) (st : List (Frame α)) :
    stackRight (Frame.goLeft v b r :: st) = v :: r.inorder ++ stackRight st := by
  simp [stackRight, Frame.rightPart, Frame.goLeft]

theorem stackLeft_goRight {α : Type} (v : α) (b : Int) (l : AvlNode α) (st : List (Frame α)) :
    stackLeft (Frame.goRight v b l :: st) = stackLeft st ++ (l.inorder ++ [v]) := by
  simp [stackLeft, Frame.leftPart, Frame.goRight]

theorem stackRight_goRight {α : Type} (v : α) (b : Int) (l : AvlNode α) (st : List (Frame α)) :
    stackRight (Frame.goRight v b l :: st) = stackRight st := by
  simp [stackRight, Frame.rightPart, Frame.goRight]

theorem compare_of_not_equals {α : Type} {compare : α → α → Bool} {v t : α}
    (he : ¬ AvlCompareEquals compare v t = true) (hc : ¬ compare t v = true) :
    compare v t = true := by
  simp only [AvlCompareEquals] at he
  cases h1 : compare v t <;> cases h2 : compare t v <;> simp_all

theorem insertLoop_some {α : Type} (compare : α → α → Bool) (t : α)
    (htrans : ∀ x y z, compare x y = true → compare y z = true → compare x z = true)
    (P : AvlNode α) (below above : List (Frame α)) (hf : Frame α) (h : AvlNode α)
    (hs : Sorted compare P.inorder)
    (hh : insertLoop compare t P below (above ++ [hf]) = .ok (some h)) :
    ∃ p L R, h = hf.attach p ∧ P.inorder = L ++ R ∧ (∀ x ∈ L, compare x t = true) ∧
      (∀ y ∈ R, compare t y = true) ∧
      p.inorder = stackLeft (below ++ above) ++ (L ++ t :: R) ++ stackRight (below ++ above) := by
  induction P generalizing below above with
  | nil => simp [insertLoop] at hh
  | node v b l r ihl ihr =>
    unfold insertLoop at hh
    simp only [AvlNode.inorder] at hs
    obtain ⟨hsl, hsr, hlv, hvr⟩ := Sorted.node hs
    by_cases he : AvlCompareEquals compare v t = true
    · simp [he] at hh
    · simp only [he, Bool.false_eq_true, if_false] at hh
      by_cases hc : compare t v = true
      · simp only [hc, if_true] at hh
        have hR : ∀ y ∈ v :: r.inorder, compare t y = true := by
          intro y hy
          rcases List.mem_cons.1 hy with rfl | hy
          · exact hc
          · exact htrans _ _ _ hc (hvr y hy)
        cases l with
        | nil =>
          simp only at hh
          obtain ⟨p, hp, hpi⟩ := insertFinish_spec compare t _ above hf h hh
          refine ⟨p, [], v :: r.inorder, hp, by simp [AvlNode.inorder], by simp, hR, ?_⟩
          rw [hpi]
          simp [stackLeft_goLeft, stackRight_goLeft]
        | node qv qb ql qr =>
          simp only at hh
          have key : ∀ bl ab, bl ++ ab = Frame.goLeft v b r :: below ++ above →
              insertLoop compare t (AvlNode.node qv qb ql qr) bl (ab ++ [hf]) = .ok (some h) →
              ∃ p L R, h = hf.attach p ∧ (AvlNode.node v b (AvlNode.node qv qb ql qr) r).inorder = L ++ R ∧
                (∀ x ∈ L, compare x t = true) ∧ (∀ y ∈ R, compare t y = true) ∧
                p.inorder = stackLeft (below ++ above) ++ (L ++ t :: R) ++ stackRight (below ++ above) := by
            intro bl ab hba hrec
            obtain ⟨p, L, R, hp, hLR, hL, hRr, hpi⟩ := ihl bl ab hsl hrec
            refine ⟨p, L, R ++ v :: r.inorder, hp, ?_, hL, ?_, ?_⟩
            · rw [AvlNode.inorder, hLR]; simp
            · intro y hy
              rcases List.mem_append.1 hy with hy | hy
              · exact hRr y hy
              · exact hR y hy
            · rw [hpi, hba]
              simp [stackLeft_goLeft, stackRight_goLeft]
          split at hh
          · exact key [] (Frame.goLeft v b r :: below ++ above) (by simp) (by simpa using hh)
          · exact key (Frame.goLeft v b r :: below) above (by simp) hh
      · simp only [hc, Bool.false_eq_true, if_false] at hh
        have hvt : compare v t = true := compare_of_not_equals he hc
        have hL : ∀ x ∈ l.inorder ++ [v], compare x t = true := by
          intro x hx
          rcases List.mem_append.1 hx with hx | hx
          · exact htrans _ _ _ (hlv x hx) hvt
          · simp at hx; subst hx; exact hvt
        cases r with
        | nil =>
          simp only at hh
          obtain ⟨p, hp, hpi⟩ := insertFinish_spec compare t _ above hf h hh
          refine ⟨p, l.inorder ++ [v], [], hp, by simp [AvlNode.inorder], hL, by simp, ?_⟩
          rw [hpi]
          simp [stackLeft_goRight, stackRight_goRight]
        | node qv qb ql qr =>
          simp only at hh
          have key : ∀ bl ab, bl ++ ab = Frame.goRight v b l :: below ++ above →
              insertLoop compare t (AvlNode.node qv qb ql qr) bl (ab ++ [hf]) = .ok (some h) →
              ∃ p L R, h = hf.attach p ∧ (AvlNode.node v b l (AvlNode.node qv qb ql qr)).inorder = L ++ R ∧
                (∀ x ∈ L, compare x t = true) ∧ (∀ y ∈ R, compare t y = true) ∧
                p.inorder = stackLeft (below ++ above) ++ (L ++ t :: R) ++ stackRight (below ++ above) := by
            intro bl ab hba hrec
            obtain ⟨p, L, R, hp, hLR, hLl, hRr, hpi⟩ := ihr bl ab hsr hrec
            refine ⟨p, (l.inorder ++ [v]) ++ L, R, hp, ?_, ?_, hRr, ?_⟩
            · rw [AvlNode.inorder, hLR]; simp
            · intro x hx
              rcases List.mem_append.1 hx with hx | hx
              · exact hL x hx
              · exact hLl x hx
            · rw [hpi, hba]
              simp [stackLeft_goRight, stackRight_goRight]
          split at hh
          · exact key [] (Frame.goRight v b l :: below ++ above) (by simp) (by simpa using hh)
          · exact key (Frame.goRight v b l :: below) above (by simp) hh

theorem insertLoop_found {α : Type} (compare : α → α → Bool) (t : α)
    (htrans : ∀ x y z, compare x y = true → compare y z = true → compare x z = true)
    (P : AvlNode α) (below above : List (Frame α))
    (hs : Sorted compare P.inorder)
    (hx : ∃ x ∈ P.inorder, AvlCompareEquals compare x t = true) :
    insertLoop compare t P below above = .ok none := by
  induction P generalizing below above with
  | nil => simp [AvlNode.inorder] at hx
  | node v b l r ihl ihr =>
    unfold insertLoop
    simp only [AvlNode.inorder] at hs
    obtain ⟨hsl, hsr, hlv, hvr⟩ := Sorted.node hs
    obtain ⟨x, hx, hxe⟩ := hx
    by_cases he : AvlCompareEquals compare v t = true
    · simp [he]
    · simp only [he, Bool.false_eq_true, if_false]
      rw [AvlCompareEquals_eq_true] at hxe
      rcases AvlNode.mem_inorder_node.1 hx with hxl | rfl | hxr
      · -- x is on the left: then t compares before v
        have hc : compare t v = true := by
          by_contra hc
          have hvt := compare_of_not_equals he hc
          have := htrans _ _ _ (hlv x hxl) hvt
          simp [hxe.1] at this
        simp only [hc, if_true]
        cases l with
        | nil => simp [AvlNode.inorder] at hxl
        | node qv qb ql qr =>
          simp only
          split
          · exact ihl _ _ hsl ⟨x, hxl, (AvlCompareEquals_eq_true _ _ _).2 hxe⟩
          · exact ihl _ _ hsl ⟨x, hxl, (AvlCompareEquals_eq_true _ _ _).2 hxe⟩
      · exact absurd ((AvlCompareEquals_eq_true _ _ _).2 hxe) he
      · have hc : ¬ compare t v = true := by
          intro hc
          have := htrans _ _ _ hc (hvr x hxr)
          simp [hxe.2] at this
        simp only [hc, Bool.false_eq_true, if_false]
        cases r with
        | nil => simp [AvlNode.inorder] at hxr
        | node qv qb ql qr =>
          simp only
          split
          · exact ihr _ _ hsr ⟨x, hxr, (AvlCompareEquals_eq_true _ _ _).2 hxe⟩
          · exact ihr _ _ hsr ⟨x, hxr, (AvlCompareEquals_eq_true _ _ _).2 hxe⟩

/-! ## `remove` keeps the in-order listing and takes one value out -/

theorem removeFind_some {α : Type} (compare : α → α → Bool) (t : α)
    (P : AvlNode α) (st : List (Frame α)) (P2 : AvlNode α) (st2 : List (Frame α))
    (h : removeFind compare t P st = .ok (some (P2, st2))) :
    ∃ v b l r fs, P2 = .node v b l r ∧ AvlCompareEquals compare v t = true ∧
      st2 = fs ++ st ∧ rebuild P2 fs = P := by
  induction P generalizing st with
  | nil => simp [removeFind] at h
  | node v b l r ihl ihr =>
    unfold removeFind at h
    by_cases he : AvlCompareEquals compare v t = true
    · simp only [he, if_true, Outcome.ok.injEq, Option.some.injEq, Prod.mk.injEq] at h
      exact ⟨v, b, l, r, [], h.1.symm, he, by simp [h.2], by simp [rebuild, h.1]⟩
    · simp only [he, Bool.false_eq_true, if_false] at h
      by_cases hc : compare t v = true
      · simp only [hc, if_true] at h
        split at h
        · cases h
        · obtain ⟨v2, b2, l2, r2, fs, hP2, hev, hst, hre⟩ := ihl _ h
          refine ⟨v2, b2, l2, r2, fs ++ [Frame.goLeft v b r], hP2, hev, by simp [hst], ?_⟩
          rw [rebuild_append, hre]
          simp [rebuild, Frame.attach, Frame.goLeft]
      · simp only [hc, Bool.false_eq_true, if_false] at h
        split at h
        · cases h
        · obtain ⟨v2, b2, l2, r2, fs, hP2, hev, hst, hre⟩ := ihr _ h
          refine ⟨v2, b2, l2, r2, fs ++ [Frame.goRight v b l], hP2, hev, by simp [hst], ?_⟩
          rw [rebuild_append, hre]
          simp [rebuild, Frame.attach, Frame.goRight]

theorem removeFind_none {α : Type} (compare : α → α → Bool) (t : α)
    (htrans : ∀ x y z, compare x y = true → compare y z = true → compare x z = true)
    (P : AvlNode α) (st : List (Frame α)) (hs : Sorted compare P.inorder)
    (h : removeFind compare t P st = .ok none) :
    ∀ x ∈ P.inorder, AvlCompareEquals compare x t = false := by
  induction P generalizing st with
  | nil => simp [AvlNode.inorder]
  | node v b l r ihl ihr =>
    unfold removeFind at h
    simp only [AvlNode.inorder] at hs
    obtain ⟨hsl, hsr, hlv, hvr⟩ := Sorted.node hs
    by_cases he : AvlCompareEquals compare v t = true
    · simp [he] at h
    · simp only [he, Bool.false_eq_true, if_false] at h
      intro x hx
      by_cases hc : compare t v = true
      · simp only [hc, if_true] at h
        split at h
        · cases h
        · rcases AvlNode.mem_inorder_node.1 hx with hxl | rfl | hxr
          · exact ihl _ hsl h x hxl
          · simpa using he
          · exact AvlCompareEquals_of_gt _ _ _ (htrans _ _ _ hc (hvr x hxr))
      · simp only [hc, Bool.false_eq_true, if_false] at h
        have hvt := compare_of_not_equals he hc
        split at h
        · cases h
        · rcases AvlNode.mem_inorder_node.1 hx with hxl | rfl | hxr
          · exact AvlCompareEquals_of_lt _ _ _ (htrans _ _ _ (hlv x hxl) hvt)
          · simpa using he
          · exact ihr _ hsr h x hxr

theorem removeFind_absent {α : Type} (compare : α → α → Bool) (t : α)
    (P : AvlNode α) (st : List (Frame α))
    (hx : ∀ x ∈ P.inorder, AvlCompareEquals compare x t = false)
    (hd : st.length + P.height < MAX_AVL_DEPTH) :
    removeFind compare t P st = .ok none := by
  induction P generalizing st with
  | nil => simp [removeFind]
  | node v b l r ihl ihr =>
    unfold removeFind
    simp only [AvlNode.height] at hd
    have he : AvlCompareEquals compare v t = false := hx v (by simp [AvlNode.inorder])
    simp only [he, Bool.false_eq_true, if_false, List.length_cons]
    have h1 : ¬ (st.length + 1 = MAX_AVL_DEPTH) := by omega
    simp only [h1, if_false]
    split
    · apply ihl
      · intro x hxl; exact hx x (AvlNode.mem_inorder_node.2 (Or.inl hxl))
      · simp only [List.length_cons]; omega
    · apply ihr
      · intro x hxr; exact hx x (AvlNode.mem_inorder_node.2 (Or.inr (Or.inr hxr)))
      · simp only [List.length_cons]; omega

theorem removeD8_spec {α : Type} (S : AvlNode α) (spine : List (Frame α)) (k : Nat)
    (sv : α) (sr : AvlNode α) (sp : List (Frame α))
    (h : removeD8 S spine k = .ok (sv, sr, sp)) :
    ∃ fs, sp = fs ++ spine ∧ stackLeft fs = [] ∧
      S.inorder = sv :: (sr.inorder ++ stackRight fs) := by
  induction S generalizing spine k with
  | nil => simp [removeD8] at h
  | node v b l r ihl _ =>
    unfold removeD8 at h
    cases l with
    | nil =>
      simp only [Outcome.ok.injEq, Prod.mk.injEq] at h
      obtain ⟨rfl, rfl, rfl⟩ := h
      exact ⟨[], by simp, by simp [stackLeft], by simp [AvlNode.inorder, stackRight]⟩
    | node lv lb ll lr =>
      simp only at h
      split at h
      · cases h
      · obtain ⟨fs, hsp, hl, hin⟩ := ihl _ _ h
        refine ⟨fs ++ [Frame.goLeft v b r], by simp [hsp], ?_, ?_⟩
        · simp [stackLeft_append, hl, stackLeft, Frame.leftPart, Frame.goLeft]
        · rw [AvlNode.inorder, hin]
          simp [stackRight_append, stackRight, Frame.rightPart, Frame.goLeft]

theorem removeUnlink_spec {α : Type} (pv : α) (pb : Int) (pl pr : AvlNode α)
    (st : List (Frame α)) (c : AvlNode α) (st2 : List (Frame α))
    (h : removeUnlink (.node pv pb pl pr) st = .ok (c, st2)) :
    ∃ fs, st2 = fs ++ st ∧
      stackLeft fs ++ c.inorder ++ stackRight fs = pl.inorder ++ pr.inorder := by
  unfold removeUnlink at h
  cases pr with
  | nil =>
    cases pl with
    | nil =>
      simp only [Outcome.ok.injEq, Prod.mk.injEq] at h
      obtain ⟨rfl, rfl⟩ := h
      exact ⟨[], by simp, by simp [stackLeft, stackRight, AvlNode.inorder]⟩
    | node lv lb ll lr =>
      simp only [Outcome.ok.injEq, Prod.mk.injEq] at h
      obtain ⟨rfl, rfl⟩ := h
      exact ⟨[], by simp, by simp [stackLeft, stackRight, AvlNode.inorder]⟩
  | node rv rb rl rr =>
    cases rl with
    | nil =>
      simp only at h
      split at h
      · cases h
      · simp only [Outcome.ok.injEq, Prod.mk.injEq] at h
        obtain ⟨rfl, rfl⟩ := h
        exact ⟨[Frame.goRight rv pb pl], by simp,
          by simp [stackLeft, stackRight, AvlNode.inorder, Frame.leftPart, Frame.rightPart,
            Frame.goRight]⟩
    | node lv lb ll lr =>
      simp only at h
      split at h
      · cases h
      · split at h
        · cases h
        · simp only [Outcome.andThen_eq_ok] at h
          obtain ⟨⟨sv, sr, sp⟩, hd8, h⟩ := h
          simp only [Outcome.ok.injEq, Prod.mk.injEq] at h
          obtain ⟨rfl, rfl⟩ := h
          obtain ⟨fs, hsp, hl, hin⟩ := removeD8_spec _ _ _ _ _ _ hd8
          refine ⟨fs ++ [Frame.goLeft rv rb rr, Frame.goRight sv pb pl], by simp [hsp], ?_⟩
          rw [AvlNode.inorder, hin]
          simp [stackLeft_append, stackRight_append, hl, stackLeft, stackRight,
            Frame.leftPart, Frame.rightPart, Frame.goLeft, Frame.goRight]

theorem link_eq_ok {α : Type} (a : Int) (v : α) (b : Int) (l r R : AvlNode α)
    (h : link a (.node v b l r) = .ok R) : (a = 1 ∧ R = r) ∨ (a = -1 ∧ R = l) := by
  simp only [link] at h
  by_cases h1 : a = 1
  · simp only [h1, if_true, Outcome.ok.injEq] at h
    exact Or.inl ⟨h1, h.symm⟩
  · simp only [h1, if_false] at h
    by_cases h2 : a = -1
    · simp only [h2, if_true, Outcome.ok.injEq] at h
      exact Or.inr ⟨h2, h.symm⟩
    · simp [h2] at h

theorem removeRotate_inorder {α : Type} (a : Int) (S n : AvlNode α) (go : Bool)
    (h : removeRotate a S = .ok (n, go)) : n.inorder = S.inorder := by
  cases S with
  | nil => simp [removeRotate] at h
  | node sv sb sl sr =>
    simp only [removeRotate, Outcome.andThen_eq_ok] at h
    obtain ⟨R, hR, h⟩ := h
    cases R with
    | nil => simp at h
    | node rv rb rl rr =>
      simp only at h
      rcases link_eq_ok _ _ _ _ _ _ hR with ⟨ha, rfl⟩ | ⟨ha, rfl⟩
      · -- the taller side is the right one
        have ha1 : a = -1 := by omega
        subst ha1
        split at h
        · simp at h; obtain ⟨rfl, -⟩ := h; simp [AvlNode.inorder]
        · split at h
          · simp at h; obtain ⟨rfl, -⟩ := h; simp [AvlNode.inorder]
          · split at h
            · simp only [Outcome.andThen_eq_ok] at h
              obtain ⟨PP, hPP, h⟩ := h
              rcases link_eq_ok _ _ _ _ _ _ hPP with ⟨hx, -⟩ | ⟨-, rfl⟩
              · omega
              · cases PP with
                | nil => simp at h
                | node pv pb pl pr =>
                  simp only [Outcome.andThen_eq_ok] at h
                  obtain ⟨bs, -, h⟩ := h
                  simp at h; obtain ⟨rfl, -⟩ := h; simp [AvlNode.inorder]
            · cases h
      · have ha1 : a = 1 := by omega
        subst ha1
        split at h
        · simp at h; obtain ⟨rfl, -⟩ := h; simp [AvlNode.inorder]
        · split at h
          · simp at h; obtain ⟨rfl, -⟩ := h; simp [AvlNode.inorder]
          · split at h
            · simp only [Outcome.andThen_eq_ok] at h
              obtain ⟨PP, hPP, h⟩ := h
              rcases link_eq_ok _ _ _ _ _ _ hPP with ⟨-, rfl⟩ | ⟨hx, -⟩
              · cases PP with
                | nil => simp at h
                | node pv pb pl pr =>
                  simp only [Outcome.andThen_eq_ok] at h
                  obtain ⟨bs, -, h⟩ := h
                  simp at h; obtain ⟨rfl, -⟩ := h; simp [AvlNode.inorder]
              · omega
            · cases h

theorem rebuild_snoc {α : Type} (c : AvlNode α) (fs : List (Frame α)) (hf : Frame α) :
    rebuild c (fs ++ [hf]) = hf.attach (rebuild c fs) := by
  rw [rebuild_append]; rfl

theorem removeBalance_spec {α : Type} (fs : List (Frame α)) (hf : Frame α)
    (c h : AvlNode α) (hh : removeBalance c (fs ++ [hf]) = .ok h) :
    ∃ p, h = hf.attach p ∧ p.inorder = stackLeft fs ++ c.inorder ++ stackRight fs := by
  induction fs generalizing c with
  | nil =>
    simp only [List.nil_append, removeBalance, Outcome.ok.injEq] at hh
    exact ⟨c, hh.symm, by simp [stackLeft, stackRight]⟩
  | cons f fs ih =>
    obtain ⟨g, st, hg⟩ : ∃ g st, fs ++ [hf] = g :: st := by
      cases fs with
      | nil => exact ⟨hf, [], rfl⟩
      | cons f2 fs2 => exact ⟨f2, fs2 ++ [hf], rfl⟩
    rw [List.cons_append, hg] at hh
    unfold removeBalance at hh
    rw [← hg] at hh
    split at hh
    · simp only [Outcome.ok.injEq] at hh
      refine ⟨rebuild (Frame.attach ⟨f.a, f.value, -f.a, f.other⟩ c) fs, ?_, ?_⟩
      · rw [← hh, rebuild_snoc]
      · simp [inorder_rebuild, Frame.inorder_attach, stackLeft, stackRight, Frame.leftPart,
          Frame.rightPart]
    · split at hh
      · obtain ⟨p, hp, hpi⟩ := ih _ hh
        refine ⟨p, hp, ?_⟩
        rw [hpi]
        simp [Frame.inorder_attach, stackLeft, stackRight, Frame.leftPart, Frame.rightPart]
      · split at hh
        · split at hh
          · rename_i n heq
            obtain ⟨p, hp, hpi⟩ := ih _ hh
            refine ⟨p, hp, ?_⟩
            rw [hpi, removeRotate_inorder _ _ _ _ heq]
            simp [Frame.inorder_attach, stackLeft, stackRight]
          · rename_i n heq
            simp only [Outcome.ok.injEq] at hh
            refine ⟨rebuild n fs, ?_, ?_⟩
            · rw [← hh, rebuild_snoc]
            · rw [inorder_rebuild, removeRotate_inorder _ _ _ _ heq]
              simp [Frame.inorder_attach, stackLeft, stackRight]
          · cases hh
          · cases hh
          · cases hh
        · cases hh

theorem removeMain_spec {α : Type} (compare : α → α → Bool) (t : α)
    (hv : α) (hb : Int) (hl root : AvlNode α) (n : Int) (s2 : Avl α)
    (h : removeMain compare t ⟨.node hv hb hl root, n⟩ = .ok s2) :
    (s2 = ⟨.node hv hb hl root, n⟩ ∧
      (root = .nil ∨ removeFind compare t root [Frame.goRight hv hb hl] = .ok none)) ∨
    (∃ fs pv pb pl pr root2,
      removeFind compare t root [Frame.goRight hv hb hl]
        = .ok (some (.node pv pb pl pr, fs ++ [Frame.goRight hv hb hl])) ∧
      s2 = ⟨.node hv hb hl root2, n - 1⟩ ∧
      AvlCompareEquals compare pv t = true ∧
      root.inorder = stackLeft fs ++ (pl.inorder ++ pv :: pr.inorder) ++ stackRight fs ∧
      root2.inorder = stackLeft fs ++ (pl.inorder ++ pr.inorder) ++ stackRight fs) := by
  unfold removeMain at h
  simp only at h
  cases root with
  | nil =>
    simp only [Outcome.ok.injEq] at h
    exact Or.inl ⟨h.symm, Or.inl rfl⟩
  | node rv rb rl rr =>
    simp only at h
    split at h
    · simp only [Outcome.ok.injEq] at h
      rename_i heq
      exact Or.inl ⟨h.symm, Or.inr heq⟩
    · rename_i P st heq
      right
      obtain ⟨pv, pb, pl, pr, fs, rfl, hev, rfl, hre⟩ := removeFind_some _ _ _ _ _ _ heq
      simp only [Outcome.andThen_eq_ok] at h
      obtain ⟨⟨c, st2⟩, hu, h2, hbal, h⟩ := h
      obtain ⟨gs, rfl, hin⟩ := removeUnlink_spec _ _ _ _ _ _ _ hu
      simp only at hbal
      rw [← List.append_assoc] at hbal
      obtain ⟨p, hp, hpi⟩ := removeBalance_spec _ _ _ _ hbal
      simp only [Outcome.ok.injEq] at h
      refine ⟨fs, pv, pb, pl, pr, p, heq, ?_, hev, ?_, ?_⟩
      · rw [← h, hp]; simp [Frame.attach, Frame.goRight]
      · rw [← hre, inorder_rebuild]; simp [AvlNode.inorder]
      · rw [hpi, stackLeft_append, stackRight_append]
        have : stackLeft fs ++ stackLeft gs ++ c.inorder ++ (stackRight gs ++ stackRight fs)
            = stackLeft fs ++ (stackLeft gs ++ c.inorder ++ stackRight gs) ++ stackRight fs := by
          simp
        rw [this, hin]
    · cases h
    · cases h
    · cases h

/-! ## The invariant of reachable states, and `get` -/

theorem Sorted.sublist {α : Type} {compare : α → α → Bool} {xs ys : List α}
    (h : Sorted compare ys) (hsub : xs.Sublist ys) : Sorted compare xs :=
  List.Pairwise.sublist hsub h

theorem Sorted.insert_mid {α : Type} {compare : α → α → Bool} {L R : List α} {t : α}
    (h : Sorted compare (L ++ R)) (hL : ∀ x ∈ L, compare x t = true)
    (hR : ∀ y ∈ R, compare t y = true) : Sorted compare (L ++ t :: R) := by
  unfold Sorted at *
  rw [List.pairwise_append] at h ⊢
  refine ⟨h.1, List.pairwise_cons.2 ⟨hR, h.2.1⟩, ?_⟩
  intro x hx y hy
  rcases List.mem_cons.1 hy with rfl | hy
  · exact hL x hx
  · exact h.2.2 x hx y hy

theorem Sorted.eq_of_equals {α : Type} {compare : α → α → Bool} {xs : List α}
    (h : Sorted compare xs) {x y : α} (hx : x ∈ xs) (hy : y ∈ xs)
    (he : AvlCompareEquals compare x y = true) : x = y := by
  unfold Sorted at h
  rw [AvlCompareEquals_eq_true] at he
  induction xs with
  | nil => simp at hx
  | cons z zs ih =>
    rw [List.pairwise_cons] at h
    rcases List.mem_cons.1 hx with hxz | hxz <;> rcases List.mem_cons.1 hy with hyz | hyz
    · rw [hxz, hyz]
    · subst hxz; have := h.1 y hyz; simp [he.1] at this
    · subst hyz; have := h.1 x hxz; simp [he.2] at this
    · exact ih h.2 hxz hyz

theorem Sorted.nodup {α : Type} {compare : α → α → Bool} {xs : List α}
    (h : Sorted compare xs) (hirr : ∀ x, compare x x = false) : xs.Nodup := by
  unfold Sorted at h
  refine List.Pairwise.imp ?_ h
  intro a b hab heq
  subst heq
  simp [hirr] at hab

theorem sorted_iff_isBST {α : Type} (compare : α → α → Bool)
    (htrans : ∀ x y z, compare x y = true → compare y z = true → compare x z = true)
    (n : AvlNode α) : n.isBST compare = true ↔ Sorted compare n.inorder := by
  induction n with
  | nil => simp [AvlNode.isBST, AvlNode.inorder, Sorted]
  | node v b l r ihl ihr =>
    simp only [AvlNode.isBST, AvlNode.inorder, Bool.and_eq_true, List.all_eq_true, ihl, ihr]
    constructor
    · rintro ⟨⟨⟨hl, hr⟩, hsl⟩, hsr⟩
      unfold Sorted at *
      rw [List.pairwise_append, List.pairwise_cons]
      refine ⟨hsl, ⟨hr, hsr⟩, ?_⟩
      intro x hx y hy
      rcases List.mem_cons.1 hy with rfl | hy
      · exact hl x hx
      · exact htrans _ _ _ (hl x hx) (hr y hy)
    · intro h
      obtain ⟨hsl, hsr, hl, hr⟩ := Sorted.node h
      exact ⟨⟨⟨hl, hr⟩, hsl⟩, hsr⟩

theorem getLoop_some {α : Type} (compare : α → α → Bool) (t : α) (P : AvlNode α) (v : α)
    (h : getLoop compare t P = some v) :
    v ∈ P.inorder ∧ AvlCompareEquals compare t v = true := by
  induction P with
  | nil => simp [getLoop] at h
  | node w b l r ihl ihr =>
    unfold getLoop at h
    split at h
    · simp only [Option.some.injEq] at h
      subst h
      exact ⟨by simp [AvlNode.inorder], by assumption⟩
    · split at h
      · exact ⟨AvlNode.mem_inorder_node.2 (Or.inr (Or.inr (ihr h).1)), (ihr h).2⟩
      · split at h
        · exact ⟨AvlNode.mem_inorder_node.2 (Or.inl (ihl h).1), (ihl h).2⟩
        · cases h

theorem getLoop_none {α : Type} (compare : α → α → Bool) (t : α)
    (htrans : ∀ x y z, compare x y = true → compare y z = true → compare x z = true)
    (P : AvlNode α) (hs : Sorted compare P.inorder)
    (h : getLoop compare t P = none) :
    ∀ x ∈ P.inorder, AvlCompareEquals compare x t = false := by
  induction P with
  | nil => simp [AvlNode.inorder]
  | node w b l r ihl ihr =>
    unfold getLoop at h
    simp only [AvlNode.inorder] at hs
    obtain ⟨hsl, hsr, hlw, hwr⟩ := Sorted.node hs
    intro x hx
    by_cases he : AvlCompareEquals compare t w = true
    · simp [he] at h
    · simp only [he, Bool.false_eq_true, if_false] at h
      have hew : AvlCompareEquals compare w t = false := by
        rw [AvlCompareEquals_comm]; simpa using he
      by_cases hc : compare w t = true
      · simp only [hc, if_true] at h
        rcases AvlNode.mem_inorder_node.1 hx with hxl | rfl | hxr
        · exact AvlCompareEquals_of_lt _ _ _ (htrans _ _ _ (hlw x hxl) hc)
        · exact hew
        · exact ihr hsr h x hxr
      · simp only [hc, Bool.false_eq_true, if_false] at h
        have hc2 : compare t w = true := compare_of_not_equals he hc
        simp only [hc2, if_true] at h
        rcases AvlNode.mem_inorder_node.1 hx with hxl | rfl | hxr
        · exact ihl hsl h x hxl
        · exact hew
        · exact AvlCompareEquals_of_gt _ _ _ (htrans _ _ _ hc2 (hwr x hxr))

theorem Avl.get_some {α : Type} (compare : α → α → Bool) (t : α) (s : Avl α) (v : α)
    (h : s.get compare t = some v) :
    v ∈ s.stored ∧ AvlCompareEquals compare v t = true := by
  unfold Avl.get at h
  unfold Avl.stored
  split at h
  · cases h
  · split at h
    · simp only [Option.some.injEq] at h
      subst h
      exact ⟨by simp, by assumption⟩
    · obtain ⟨h1, h2⟩ := getLoop_some _ _ _ _ h
      exact ⟨by simp [h1], by rw [AvlCompareEquals_comm]; exact h2⟩

theorem Avl.get_none {α : Type} (compare : α → α → Bool) (t : α)
    (htrans : ∀ x y z, compare x y = true → compare y z = true → compare x z = true)
    (s : Avl α) (hinv : s.Inv compare) (h : s.get compare t = none) :
    ∀ x ∈ s.stored, AvlCompareEquals compare x t = false := by
  unfold Avl.get at h
  unfold Avl.Inv at hinv
  unfold Avl.stored
  split at h
  · simp
  · rename_i hv hb hl root heq
    simp only [heq] at hinv ⊢
    split at h
    · cases h
    · rename_i hne
      intro x hx
      rcases List.mem_cons.1 hx with rfl | hx
      · simpa using hne
      · exact getLoop_none _ _ htrans _ hinv.2.1 h x hx

theorem Avl.get_eq_none_iff {α : Type} (compare : α → α → Bool) (t : α)
    (htrans : ∀ x y z, compare x y = true → compare y z = true → compare x z = true)
    (s : Avl α) (hinv : s.Inv compare) :
    s.get compare t = none ↔ ∀ x ∈ s.stored, AvlCompareEquals compare x t = false := by
  constructor
  · exact Avl.get_none compare t htrans s hinv
  · intro h
    cases hg : s.get compare t with
    | none => rfl
    | some v =>
      obtain ⟨h1, h2⟩ := Avl.get_some _ _ _ _ hg
      rw [h v h1] at h2
      cases h2

theorem Avl.stored_unique {α : Type} (compare : α → α → Bool) (s : Avl α)
    (hinv : s.Inv compare) {x y : α} (hx : x ∈ s.stored) (hy : y ∈ s.stored)
    (he : AvlCompareEquals compare x y = true) : x = y := by
  unfold Avl.Inv at hinv
  unfold Avl.stored at hx hy
  split at hinv
  · rename_i heq; simp [heq] at hx
  · rename_i hv hb hl root heq
    simp only [heq] at hx hy
    rcases List.mem_cons.1 hx with hxz | hxz <;> rcases List.mem_cons.1 hy with hyz | hyz
    · rw [hxz, hyz]
    · subst hxz; rw [hinv.2.2.1 y hyz] at he; cases he
    · subst hyz; rw [AvlCompareEquals_comm, hinv.2.2.1 x hxz] at he; cases he
    · exact hinv.2.1.eq_of_equals hxz hyz he

theorem Avl.stored_nodup {α : Type} (compare : α → α → Bool) (hirr : ∀ x, compare x x = false)
    (s : Avl α) (hinv : s.Inv compare) : s.stored.Nodup := by
  unfold Avl.Inv at hinv
  unfold Avl.stored
  split at hinv
  · simp
  · rename_i hv hb hl root heq
    refine List.nodup_cons.2 ⟨?_, hinv.2.1.nodup hirr⟩
    intro hmem
    have := hinv.2.2.1 hv hmem
    simp [AvlCompareEquals, hirr] at this

theorem Avl.get_of_mem {α : Type} (compare : α → α → Bool) (hc : StrictWeak compare)
    (t : α) (s : Avl α) (hinv : s.Inv compare) (v : α) (hv : v ∈ s.stored)
    (he : AvlCompareEquals compare v t = true) : s.get compare t = some v := by
  cases hg : s.get compare t with
  | none =>
    have := (Avl.get_eq_none_iff compare t hc.trans s hinv).1 hg v hv
    rw [this] at he; cases he
  | some w =>
    obtain ⟨h1, h2⟩ := Avl.get_some _ _ _ _ hg
    have : AvlCompareEquals compare v w = true :=
      hc.equiv_trans _ _ _ he (by rw [AvlCompareEquals_comm]; exact h2)
    rw [Avl.stored_unique compare s hinv hv h1 this]

/-! ## What `insert` and `remove` do to a state that satisfies the invariant -/

theorem Avl.insert_present {α : Type} (compare : α → α → Bool) (t : α)
    (htrans : ∀ x y z, compare x y = true → compare y z = true → compare x z = true)
    (s : Avl α) (hinv : s.Inv compare)
    (hx : ∃ x ∈ s.stored, AvlCompareEquals compare x t = true) :
    s.insert compare t = .ok s := by
  obtain ⟨x, hx, hxe⟩ := hx
  unfold Avl.Inv at hinv
  unfold Avl.stored at hx
  unfold Avl.insert
  split
  · rename_i heq; simp [heq] at hx
  · rename_i hv hb hl root heq
    simp only [heq] at hx hinv
    by_cases he : AvlCompareEquals compare hv t = true
    · simp [he]
    · simp only [he, Bool.false_eq_true, if_false]
      have hxr : x ∈ root.inorder := by
        rcases List.mem_cons.1 hx with rfl | h
        · exact absurd hxe he
        · exact h
      cases root with
      | nil => simp [AvlNode.inorder] at hxr
      | node rv rb rl rr =>
        simp only
        rw [insertLoop_found compare t htrans _ _ _ hinv.2.1 ⟨x, hxr, hxe⟩]

theorem Avl.insert_absent {α : Type} (compare : α → α → Bool) (t : α)
    (htrans : ∀ x y z, compare x y = true → compare y z = true → compare x z = true)
    (s s2 : Avl α) (hinv : s.Inv compare)
    (hx : ∀ x ∈ s.stored, AvlCompareEquals compare x t = false)
    (h : s.insert compare t = .ok s2) :
    s2.Inv compare ∧ s2.mySize = s.mySize + 1 ∧ s2.stored.Perm (t :: s.stored) := by
  obtain ⟨head, n⟩ := s
  unfold Avl.Inv at hinv
  unfold Avl.stored at hx
  unfold Avl.insert at h
  simp only at hinv hx h
  cases head with
  | nil =>
    simp only [Outcome.ok.injEq] at h
    subst h
    simp only at hinv
    subst hinv
    simp [Avl.Inv, Avl.stored, AvlNode.mk1, AvlNode.inorder, Sorted]
  | node hv hb hl root =>
    simp only at hinv h hx
    have he : AvlCompareEquals compare hv t = false := hx hv (by simp)
    simp only [he, Bool.false_eq_true, if_false] at h
    cases root with
    | nil =>
      simp only [Outcome.ok.injEq] at h
      subst h
      refine ⟨?_, rfl, ?_⟩
      · simp only [Avl.Inv, AvlNode.mk1, AvlNode.inorder]
        refine ⟨hinv.1, by simp [Sorted], ?_, ?_⟩
        · intro x hxm
          simp at hxm; subst hxm
          exact he
        · simp [hinv.2.2.2, AvlNode.inorder]
      · simp only [Avl.stored, AvlNode.mk1, AvlNode.inorder]
        exact List.Perm.swap _ _ _
    | node rv rb rl rr =>
      simp only at h
      split at h
      · rename_i heq
        obtain ⟨x, hxm, hxe⟩ := insertLoop_none _ _ _ _ _ heq
        rw [hx x (by simp [hxm])] at hxe
        cases hxe
      · rename_i hd heq
        simp only [Outcome.ok.injEq] at h
        subst h
        obtain ⟨p, L, R, hp, hLR, hL, hR, hpi⟩ :=
          insertLoop_some compare t htrans _ [] [] (Frame.goRight hv hb hl) hd hinv.2.1 heq
        simp only [List.append_nil, stackLeft, stackRight, List.nil_append] at hpi
        have hattach : (Frame.goRight hv hb hl).attach p = .node hv hb hl p := by
          simp [Frame.attach, Frame.goRight]
        rw [hattach] at hp
        subst hp
        refine ⟨?_, rfl, ?_⟩
        · simp only [Avl.Inv]
          rw [hpi]
          refine ⟨hinv.1, Sorted.insert_mid (hLR ▸ hinv.2.1) hL hR, ?_, ?_⟩
          · intro x hxm
            rcases List.mem_append.1 hxm with h1 | h1
            · exact hinv.2.2.1 x (by rw [hLR]; simp [h1])
            · rcases List.mem_cons.1 h1 with rfl | h2
              · exact he
              · exact hinv.2.2.1 x (by rw [hLR]; simp [h2])
          · rw [hinv.2.2.2, hLR]; simp; omega
        · simp only [Avl.stored]
          rw [hpi, hLR]
          exact (List.Perm.cons hv List.perm_middle).trans (List.Perm.swap _ _ _)
      · cases h
      · cases h
      · cases h

theorem Avl.remove_absent {α : Type} (compare : α → α → Bool) (t : α) (s : Avl α)
    (hx : ∀ x ∈ s.stored, AvlCompareEquals compare x t = false)
    (hd : s.head.height < MAX_AVL_DEPTH) :
    s.remove compare t = .ok s := by
  obtain ⟨head, n⟩ := s
  unfold Avl.stored at hx
  unfold Avl.remove
  simp only at hx hd ⊢
  cases head with
  | nil => rfl
  | node hv hb hl root =>
    simp only at hx ⊢
    have he : AvlCompareEquals compare hv t = false := hx hv (by simp)
    simp only [he, Bool.false_eq_true, if_false]
    unfold removeMain
    simp only
    cases root with
    | nil => rfl
    | node rv rb rl rr =>
      simp only
      rw [removeFind_absent compare t _ _ (fun x hxm => hx x (by simp [hxm]))]
      simp only [AvlNode.height, List.length_cons, List.length_nil] at hd ⊢
      omega

theorem Avl.remove_spec {α : Type} (compare : α → α → Bool) (t : α)
    (htrans : ∀ x y z, compare x y = true → compare y z = true → compare x z = true)
    (s s2 : Avl α) (hinv : s.Inv compare) (h : s.remove compare t = .ok s2) :
    s2.Inv compare ∧
    ((s2 = s ∧ ∀ x ∈ s.stored, AvlCompareEquals compare x t = false) ∨
     (∃ pv, AvlCompareEquals compare pv t = true ∧ (pv :: s2.stored).Perm s.stored ∧
        s2.mySize = s.mySize - 1)) := by
  obtain ⟨head, n⟩ := s
  unfold Avl.remove at h
  simp only at h
  cases head with
  | nil =>
    simp only [Outcome.ok.injEq] at h
    subst h
    exact ⟨hinv, Or.inl ⟨rfl, by simp [Avl.stored]⟩⟩
  | node hv hb hl root =>
    simp only [Avl.Inv] at hinv
    obtain ⟨hl0, hsort, hhead, hsize⟩ := hinv
    simp only at h
    by_cases he : AvlCompareEquals compare hv t = true
    · simp only [he, if_true] at h
      cases root with
      | nil =>
        simp only [Outcome.ok.injEq] at h
        subst h
        refine ⟨by simp [Avl.Inv], Or.inr ⟨hv, he, by simp [Avl.stored, AvlNode.inorder], ?_⟩⟩
        simp [hsize, AvlNode.inorder]
      | node rv rb rl rr =>
        simp only at h
        rcases removeMain_spec _ _ _ _ _ _ _ _ h with ⟨-, h1 | h1⟩ | h1
        · cases h1
        · simp [removeFind, he] at h1
        · obtain ⟨fs, pv, pb, pl, pr, root2, hfind, rfl, hev, -, hr2⟩ := h1
          simp only [removeFind, he, if_true, Outcome.ok.injEq, Option.some.injEq,
            Prod.mk.injEq, AvlNode.node.injEq] at hfind
          obtain ⟨⟨rfl, rfl, rfl, rfl⟩, hfs⟩ := hfind
          have hfs0 : fs = [] := by simpa using hfs
          subst hfs0
          simp only [stackLeft, stackRight, List.nil_append, List.append_nil] at hr2
          simp only [AvlNode.inorder] at hsort hhead hsize
          obtain ⟨hsl, hsr, hlv, hvr⟩ := Sorted.node hsort
          refine ⟨?_, Or.inr ⟨hv, he, ?_, rfl⟩⟩
          · simp only [Avl.Inv]
            rw [hr2]
            refine ⟨by trivial, hsort.sublist (by simp), ?_, ?_⟩
            · intro x hxm
              rcases List.mem_append.1 hxm with h1 | h1
              · exact AvlCompareEquals_of_gt _ _ _ (hlv x h1)
              · exact AvlCompareEquals_of_lt _ _ _ (hvr x h1)
            · rw [hsize]; simp; omega
          · simp only [Avl.stored, AvlNode.inorder]
            rw [hr2]
            exact (List.Perm.cons hv List.perm_middle.symm)
    · simp only [he, Bool.false_eq_true, if_false] at h
      rcases removeMain_spec _ _ _ _ _ _ _ _ h with ⟨rfl, h1⟩ | h1
      · refine ⟨⟨hl0, hsort, hhead, hsize⟩, Or.inl ⟨rfl, ?_⟩⟩
        intro x hxm
        simp only [Avl.stored] at hxm
        rcases List.mem_cons.1 hxm with rfl | hxr
        · simpa using he
        · rcases h1 with rfl | h1
          · simp [AvlNode.inorder] at hxr
          · exact removeFind_none _ _ htrans _ _ hsort h1 x hxr
      · obtain ⟨fs, pv, pb, pl, pr, root2, -, rfl, hev, hr, hr2⟩ := h1
        have hsub : root2.inorder.Sublist root.inorder := by
          rw [hr, hr2]
          refine List.Sublist.append (List.Sublist.append (List.Sublist.refl _) ?_)
            (List.Sublist.refl _)
          exact List.Sublist.append (List.Sublist.refl _) (List.sublist_cons_self _ _)
        refine ⟨?_, Or.inr ⟨pv, hev, ?_, rfl⟩⟩
        · simp only [Avl.Inv]
          refine ⟨hl0, hsort.sublist hsub, fun x hxm => hhead x (hsub.subset hxm), ?_⟩
          rw [hsize, hr, hr2]; simp; omega
        · simp only [Avl.stored]
          rw [hr, hr2]
          refine (List.Perm.swap _ _ _).trans (List.Perm.cons hv ?_)
          have e1 : stackLeft fs ++ (pl.inorder ++ pr.inorder) ++ stackRight fs
              = (stackLeft fs ++ pl.inorder) ++ (pr.inorder ++ stackRight fs) := by simp
          have e2 : stackLeft fs ++ (pl.inorder ++ pv :: pr.inorder) ++ stackRight fs
              = (stackLeft fs ++ pl.inorder) ++ pv :: (pr.inorder ++ stackRight fs) := by simp
          rw [e1, e2]
          exact List.perm_middle.symm

theorem Avl.clear_inv {α : Type} (compare : α → α → Bool) (s : Avl α)
    (hinv : s.Inv compare) : s.clear.Inv compare := by
  unfold Avl.clear
  split
  · exact hinv
  · simp [Avl.Inv]

theorem Avl.empty_inv {α : Type} (compare : α → α → Bool) :
    (Avl.empty : Avl α).Inv compare := by
  simp [Avl.Inv, Avl.empty]

theorem Reachable.inv {α : Type} (compare : α → α → Bool)
    (htrans : ∀ x y z, compare x y = true → compare y z = true → compare x z = true)
    (s : Avl α) (hr : Reachable compare s) : s.Inv compare := by
  induction hr with
  | empty => exact Avl.empty_inv compare
  | step s s2 op _ hstep ih =>
    cases op with
    | insert t =>
      simp only [Avl.apply] at hstep
      by_cases hx : ∃ x ∈ s.stored, AvlCompareEquals compare x t = true
      · rw [Avl.insert_present compare t htrans s ih hx] at hstep
        cases hstep
        exact ih
      · refine (Avl.insert_absent compare t htrans s s2 ih ?_ hstep).1
        intro x hxm
        by_contra hne
        exact hx ⟨x, hxm, by simpa using hne⟩
    | remove t =>
      simp only [Avl.apply] at hstep
      exact (Avl.remove_spec compare t htrans s s2 ih hstep).1
    | clear =>
      simp only [Avl.apply, Outcome.ok.injEq] at hstep
      subst hstep
      exact Avl.clear_inv compare s ih

/-! ## A traversal with `AvlIterator` lists the tree node first, then left, then right -/

theorem Outcome.ok_andThen {β γ : Type} (x : β) (k : β → Outcome γ) :
    (Outcome.ok x).andThen k = k x := rfl

theorem AvlIterator.yieldFirst_yieldFirst {α : Type} (xs ys : List α)
    (r : Outcome (List α × AvlIterator α)) :
    AvlIterator.yieldFirst xs (AvlIterator.yieldFirst ys r) = AvlIterator.yieldFirst (xs ++ ys) r := by
  cases r <;> simp [AvlIterator.yieldFirst, Outcome.andThen]

theorem AvlIterator.yieldFirst_andThen {α β : Type} (xs : List α) (x : Outcome β)
    (f : β → Outcome (List α × AvlIterator α)) :
    AvlIterator.yieldFirst xs (x.andThen f) = x.andThen fun u => AvlIterator.yieldFirst xs (f u) := by
  cases x <;> simp [AvlIterator.yieldFirst, Outcome.andThen]

theorem AvlIterator.run_node {α : Type} (n : Nat) (st : List (AvlNode α)) (v : α) (b : Int)
    (l r : AvlNode α) (ti : Int) :
    AvlIterator.run (n + 1) ⟨st, .node v b l r, ti⟩
      = (AvlIterator.next ⟨st, .node v b l r, ti⟩).andThen fun it2 =>
          AvlIterator.yieldFirst [v] (AvlIterator.run n it2) := by
  simp only [AvlIterator.run, AvlIterator.yieldFirst]
  rfl

theorem AvlNode.count_pos {α : Type} (v : α) (b : Int) (l r : AvlNode α) :
    (AvlNode.node v b l r).count ≠ 0 := by
  simp [AvlNode.count]

theorem AvlNode.stackNeed_lt_height {α : Type} (n : AvlNode α) :
    n.stackNeed ≤ n.height - 1 := by
  induction n with
  | nil => simp [AvlNode.stackNeed]
  | node v b l r ihl ihr =>
    simp only [AvlNode.stackNeed, AvlNode.height]
    cases l with
    | nil =>
      simp only [AvlNode.count, true_or, if_true, AvlNode.stackNeed, AvlNode.height] at *
      omega
    | node lv lb ll lr =>
      cases r with
      | nil =>
        simp only [AvlNode.count, or_true, if_true, AvlNode.stackNeed, AvlNode.height] at *
        omega
      | node rv rb rl rr =>
        have h1 := AvlNode.count_pos lv lb ll lr
        have h2 := AvlNode.count_pos rv rb rl rr
        simp only [h1, h2, or_self, if_false]
        simp only [AvlNode.height] at ihl ihr ⊢
        omega

theorem AvlIterator.yieldFirst_outOfBounds {α : Type} (xs : List α) :
    AvlIterator.yieldFirst xs (Outcome.outOfBounds : Outcome (List α × AvlIterator α))
      = .outOfBounds := rfl

theorem AvlIterator.run_subtree {α : Type} (c : AvlNode α) :
    c.count ≠ 0 → ∀ (st : List (AvlNode α)) (ti : Nat), st.length = MAX_AVL_DEPTH →
      (MAX_AVL_DEPTH < ti + c.stackNeed ∧
        ∀ m, AvlIterator.run (m + c.count) ⟨st, c, (ti : Int)⟩ = .outOfBounds) ∨
      ∃ st2 : List (AvlNode α), st2.length = MAX_AVL_DEPTH ∧
        (∀ i, i < ti → st2.get? i = st.get? i) ∧
        ∀ m, AvlIterator.run (m + c.count) ⟨st, c, (ti : Int)⟩
          = (AvlIterator.leafExit st2 (ti : Int)).andThen fun it =>
              AvlIterator.yieldFirst c.preorder (AvlIterator.run m it) := by
  induction c with
  | nil => intro h; simp [AvlNode.count] at h
  | node v b l r ihl ihr =>
    intro _ st ti hlen
    cases l with
    | nil =>
      cases r with
      | nil =>
        refine Or.inr ⟨st, hlen, fun _ _ => rfl, ?_⟩
        intro m
        show AvlIterator.run (m + 1) _ = _
        rw [AvlIterator.run_node]
        simp only [AvlIterator.next, AvlIterator.leafExit, AvlNode.preorder, List.append_nil]
      | node rv rb rl rr =>
        have hcount : ∀ m, m + (AvlNode.node v b .nil (.node rv rb rl rr)).count
            = (m + (AvlNode.node rv rb rl rr).count) + 1 := by
          intro m; simp only [AvlNode.count]; omega
        have hnext : AvlIterator.next ⟨st, .node v b .nil (.node rv rb rl rr), (ti : Int)⟩
            = .ok ⟨st, .node rv rb rl rr, (ti : Int)⟩ := rfl
        have hsn : (AvlNode.node v b .nil (.node rv rb rl rr)).stackNeed
            = (AvlNode.node rv rb rl rr).stackNeed := by
          rw [AvlNode.stackNeed]; simp [AvlNode.count, AvlNode.stackNeed]
        rcases ihr (AvlNode.count_pos rv rb rl rr) st ti hlen with ⟨hbig, hrun⟩ | ⟨st2, hlen2, hagree, hrun⟩
        · refine Or.inl ⟨by rw [hsn]; exact hbig, ?_⟩
          intro m
          rw [hcount, AvlIterator.run_node, hnext, Outcome.ok_andThen, hrun m]
          rfl
        · refine Or.inr ⟨st2, hlen2, hagree, ?_⟩
          intro m
          rw [hcount, AvlIterator.run_node, hnext, Outcome.ok_andThen, hrun m,
            AvlIterator.yieldFirst_andThen]
          congr 1
          funext u
          rw [AvlIterator.yieldFirst_yieldFirst]
          simp [AvlNode.preorder]
    | node lv lb ll lr =>
      cases r with
      | nil =>
        have hcount : ∀ m, m + (AvlNode.node v b (.node lv lb ll lr) .nil).count
            = (m + (AvlNode.node lv lb ll lr).count) + 1 := by
          intro m; simp only [AvlNode.count]; omega
        have hnext : AvlIterator.next ⟨st, .node v b (.node lv lb ll lr) .nil, (ti : Int)⟩
            = .ok ⟨st, .node lv lb ll lr, (ti : Int)⟩ := rfl
        have hsn : (AvlNode.node v b (.node lv lb ll lr) .nil).stackNeed
            = (AvlNode.node lv lb ll lr).stackNeed := by
          rw [AvlNode.stackNeed]; simp [AvlNode.count, AvlNode.stackNeed]
        rcases ihl (AvlNode.count_pos lv lb ll lr) st ti hlen with ⟨hbig, hrun⟩ | ⟨st2, hlen2, hagree, hrun⟩
        · refine Or.inl ⟨by rw [hsn]; exact hbig, ?_⟩
          intro m
          rw [hcount, AvlIterator.run_node, hnext, Outcome.ok_andThen, hrun m]
          rfl
        · refine Or.inr ⟨st2, hlen2, hagree, ?_⟩
          intro m
          rw [hcount, AvlIterator.run_node, hnext, Outcome.ok_andThen, hrun m,
            AvlIterator.yieldFirst_andThen]
          congr 1
          funext u
          rw [AvlIterator.yieldFirst_yieldFirst]
          simp [AvlNode.preorder]
      | node rv rb rl rr =>
        have h1 := AvlNode.count_pos lv lb ll lr
        have h2 := AvlNode.count_pos rv rb rl rr
        have hsn : (AvlNode.node v b (.node lv lb ll lr) (.node rv rb rl rr)).stackNeed
            = max ((AvlNode.node lv lb ll lr).stackNeed + 1) (AvlNode.node rv rb rl rr).stackNeed := by
          rw [AvlNode.stackNeed]
          simp only [h1, h2, or_self, if_false]
        have hcount : ∀ m, m + (AvlNode.node v b (.node lv lb ll lr) (.node rv rb rl rr)).count
            = ((m + (AvlNode.node rv rb rl rr).count) + (AvlNode.node lv lb ll lr).count) + 1 := by
          intro m; simp only [AvlNode.count]; omega
        by_cases hti : ti < MAX_AVL_DEPTH
        · have hnext : AvlIterator.next ⟨st, .node v b (.node lv lb ll lr) (.node rv rb rl rr), (ti : Int)⟩
              = .ok ⟨st.set ti (.node v b (.node lv lb ll lr) (.node rv rb rl rr)),
                  .node lv lb ll lr, ((ti + 1 : Nat) : Int)⟩ := by
            simp only [AvlIterator.next]
            have hnot : ¬ ((ti : Int) < 0 ∨ (MAX_AVL_DEPTH : Int) ≤ (ti : Int)) := by omega
            simp only [hnot, if_false, Int.toNat_ofNat]
            rfl
          rcases ihl h1 (st.set ti (.node v b (.node lv lb ll lr) (.node rv rb rl rr))) (ti + 1)
              (by simpa using hlen) with ⟨hbig, hrun2⟩ | ⟨st2, hlen2, hagree2, hrun2⟩
          · refine Or.inl ⟨by rw [hsn]; omega, ?_⟩
            intro m
            rw [hcount, AvlIterator.run_node, hnext, Outcome.ok_andThen, hrun2]
            rfl
          · have hexit : AvlIterator.leafExit st2 ((ti + 1 : Nat) : Int)
                = .ok ⟨st2, .node rv rb rl rr, (ti : Int)⟩ := by
              have hget : st2.get? ti
                  = some (.node v b (.node lv lb ll lr) (.node rv rb rl rr)) := by
                rw [hagree2 ti (by omega)]
                simp only [List.get?_eq_getElem?]
                rw [List.getElem?_set_self (by omega)]
              have hlt : ¬ (((ti + 1 : Nat) : Int) < 1) := by omega
              have hsub : ((ti + 1 : Nat) : Int) - 1 = (ti : Int) := by omega
              simp only [AvlIterator.leafExit, hlt, if_false, hsub, AvlIterator.stackedRight]
              have hneg : ¬ ((ti : Int) < 0) := by omega
              simp only [hneg, if_false, Int.toNat_ofNat, hget, Outcome.andThen]
            rcases ihr h2 st2 ti hlen2 with ⟨hbig, hrun3⟩ | ⟨st3, hlen3, hagree3, hrun3⟩
            · refine Or.inl ⟨by rw [hsn]; omega, ?_⟩
              intro m
              rw [hcount, AvlIterator.run_node, hnext, Outcome.ok_andThen, hrun2, hexit,
                Outcome.ok_andThen, hrun3 m]
              rfl
            · refine Or.inr ⟨st3, hlen3, ?_, ?_⟩
              · intro i hi
                rw [hagree3 i hi, hagree2 i (by omega)]
                simp only [List.get?_eq_getElem?]
                rw [List.getElem?_set_ne (by omega)]
              · intro m
                rw [hcount, AvlIterator.run_node, hnext, Outcome.ok_andThen, hrun2, hexit,
                  Outcome.ok_andThen, hrun3 m, AvlIterator.yieldFirst_andThen,
                  AvlIterator.yieldFirst_andThen]
                congr 1
                funext u
                rw [AvlIterator.yieldFirst_yieldFirst, AvlIterator.yieldFirst_yieldFirst]
                simp [AvlNode.preorder]
        · refine Or.inl ⟨by rw [hsn]; omega, ?_⟩
          intro m
          rw [hcount, AvlIterator.run_node]
          have hnext : AvlIterator.next ⟨st, .node v b (.node lv lb ll lr) (.node rv rb rl rr), (ti : Int)⟩
              = .outOfBounds := by
            simp only [AvlIterator.next]
            have hyes : ((ti : Int) < 0 ∨ (MAX_AVL_DEPTH : Int) ≤ (ti : Int)) := by omega
            simp only [hyes, if_true]
          rw [hnext]
          rfl

theorem AvlIterator.run_more_fuel {α : Type} (n k : Nat) (it it2 : AvlIterator α) (xs : List α)
    (h : AvlIterator.run n it = .ok (xs, it2)) (hlast : it2.isLast = true) :
    AvlIterator.run (n + k) it = .ok (xs, it2) := by
  induction n generalizing it xs with
  | zero =>
    simp only [AvlIterator.run, Outcome.ok.injEq, Prod.mk.injEq] at h
    obtain ⟨rfl, rfl⟩ := h
    obtain ⟨st, c, ti⟩ := it
    cases c with
    | nil => cases k <;> simp [AvlIterator.run]
    | node v b l r => simp [AvlIterator.isLast] at hlast
  | succ n ih =>
    obtain ⟨st, c, ti⟩ := it
    cases c with
    | nil =>
      simp only [AvlIterator.run, Outcome.ok.injEq, Prod.mk.injEq] at h
      obtain ⟨rfl, rfl⟩ := h
      rw [show n + 1 + k = (n + k) + 1 by omega]
      simp [AvlIterator.run]
    | node v b l r =>
      rw [show n + 1 + k = (n + k) + 1 by omega, AvlIterator.run_node]
      rw [AvlIterator.run_node, Outcome.andThen_eq_ok] at h
      obtain ⟨it3, hnext, h⟩ := h
      simp only [AvlIterator.yieldFirst, Outcome.andThen_eq_ok] at h
      obtain ⟨⟨ys, it4⟩, hres, h⟩ := h
      simp only [Outcome.ok.injEq, Prod.mk.injEq] at h
      obtain ⟨rfl, rfl⟩ := h
      rw [hnext, Outcome.ok_andThen, ih it3 ys hres]
      rfl

theorem AvlIterator.run_begin {α : Type} (s : Avl α)
    (hd : s.head.height ≤ MAX_AVL_DEPTH) (fuel : Nat) (hfuel : s.head.count ≤ fuel) :
    ∃ it, AvlIterator.run fuel s.begin = .ok (s.head.preorder, it) ∧ it.isLast = true := by
  by_cases hc : s.head.count = 0
  · have hnil : s.head = .nil := by
      cases hh : s.head with
      | nil => rfl
      | node v b l r => rw [hh] at hc; exact absurd hc (AvlNode.count_pos v b l r)
    refine ⟨s.begin, ?_, ?_⟩
    · cases fuel <;> simp [AvlIterator.run, Avl.begin, AvlIterator.mk1, hnil, AvlNode.preorder]
    · simp [AvlIterator.isLast, Avl.begin, AvlIterator.mk1, hnil]
  · have hneed := AvlNode.stackNeed_lt_height s.head
    rcases AvlIterator.run_subtree s.head hc (List.replicate MAX_AVL_DEPTH .nil) 0 (by simp)
      with ⟨hbig, -⟩ | ⟨st2, -, -, hrun⟩
    · omega
    · obtain ⟨m, rfl⟩ : ∃ m, fuel = m + s.head.count := ⟨fuel - s.head.count, by omega⟩
      refine ⟨⟨st2, .nil, 0⟩, ?_, rfl⟩
      have := hrun m
      simp only [Avl.begin, AvlIterator.mk1]
      rw [show ((0 : Nat) : Int) = 0 from rfl] at this
      rw [this]
      cases m <;>
        simp [AvlIterator.leafExit, Outcome.andThen, AvlIterator.run, AvlIterator.yieldFirst]

theorem AvlIterator.run_begin_sound {α : Type} (s : Avl α) (fuel : Nat) (xs : List α)
    (it : AvlIterator α) (h : AvlIterator.run fuel s.begin = .ok (xs, it))
    (hlast : it.isLast = true) : xs = s.head.preorder := by
  by_cases hc : s.head.count = 0
  · have hnil : s.head = .nil := by
      cases hh : s.head with
      | nil => rfl
      | node v b l r => rw [hh] at hc; exact absurd hc (AvlNode.count_pos v b l r)
    simp only [Avl.begin, AvlIterator.mk1, hnil] at h
    cases fuel <;> simp [AvlIterator.run] at h <;> simp [h.1.symm, hnil, AvlNode.preorder]
  · have hmore := AvlIterator.run_more_fuel fuel s.head.count _ _ _ h hlast
    rcases AvlIterator.run_subtree s.head hc (List.replicate MAX_AVL_DEPTH .nil) 0 (by simp)
      with ⟨-, hrun⟩ | ⟨st2, -, -, hrun⟩
    · have := hrun fuel
      simp only [Avl.begin, AvlIterator.mk1] at hmore
      rw [show ((0 : Nat) : Int) = 0 from rfl] at this
      rw [this] at hmore
      cases hmore
    · have := hrun fuel
      simp only [Avl.begin, AvlIterator.mk1] at hmore
      rw [show ((0 : Nat) : Int) = 0 from rfl] at this
      rw [this] at hmore
      cases fuel <;>
        simp [AvlIterator.leafExit, Outcome.andThen, AvlIterator.run, AvlIterator.yieldFirst]
          at hmore <;> exact hmore.1.symm

/-! ## Concrete comparator and reachability of concrete states -/

theorem natLess_strictWeak : StrictWeak natLess := by
  refine ⟨?_, ?_, ?_⟩
  · intro x; simp [natLess]
  · intro x y z hxy hyz
    simp only [natLess, decide_eq_true_eq] at *
    omega
  · intro x y z hxy hyz
    simp only [AvlCompareEquals, natLess, Bool.and_eq_true, Bool.not_eq_true',
      decide_eq_false_iff_not] at *
    omega

theorem Reachable.applyAll {α : Type} (compare : α → α → Bool) (ops : List (Op α))
    (s s2 : Avl α) (hr : Reachable compare s) (h : Avl.applyAll compare s ops = .ok s2) :
    Reachable compare s2 := by
  induction ops generalizing s with
  | nil =>
    simp only [Avl.applyAll, Outcome.ok.injEq] at h
    exact h ▸ hr
  | cons op ops ih =>
    simp only [Avl.applyAll, Outcome.andThen_eq_ok] at h
    obtain ⟨s1, h1, h2⟩ := h
    exact ih s1 (Reachable.step s s1 op hr h1) h2

theorem Reachable.of_ops {α : Type} (compare : α → α → Bool) (ops : List (Op α))
    (s : Avl α) (h : Avl.applyAll compare Avl.empty ops = .ok s) : Reachable compare s :=
  Reachable.applyAll compare ops Avl.empty s Reachable.empty h

theorem AvlNode.preorder_length {α : Type} (n : AvlNode α) : n.preorder.length = n.count := by
  rw [AvlNode.count_eq_length]
  exact n.preorder_perm_inorder.length_eq

theorem Avl.count_of_inv {α : Type} (compare : α → α → Bool) (s : Avl α)
    (hinv : s.Inv compare) : s.mySize = (s.head.count : Int) := by
  unfold Avl.Inv at hinv
  split at hinv
  · rename_i heq; rw [hinv, heq]; rfl
  · rename_i hv hb hl root heq
    obtain ⟨rfl, -, -, hsize⟩ := hinv
    rw [hsize, heq]
    simp [AvlNode.count, AvlNode.count_eq_length]

theorem Avl.preorder_perm_stored {α : Type} (compare : α → α → Bool) (s : Avl α)
    (hinv : s.Inv compare) : s.head.preorder.Perm s.stored := by
  unfold Avl.Inv at hinv
  unfold Avl.stored
  split at hinv
  · rename_i heq; rw [heq]; simp [AvlNode.preorder]
  · rename_i hv hb hl root heq
    obtain ⟨rfl, -, -, -⟩ := hinv
    rw [heq]
    simp only [AvlNode.preorder, List.nil_append]
    exact List.Perm.cons hv root.preorder_perm_inorder

theorem Avl.root_sorted {α : Type} (compare : α → α → Bool) (s : Avl α)
    (hinv : s.Inv compare) : Sorted compare s.root.inorder := by
  unfold Avl.Inv at hinv
  unfold Avl.root
  split at hinv
  · simp [AvlNode.inorder, Sorted]
  · exact hinv.2.1

/-! ## The claims -/

/-- C1 (fails on the code): after `insert(1)`, `insert(2)`, `insert(3)`,
`remove(1)`, which all complete, the node at `head->right` holds 3, has no
children and has balance `-1`; `check()` reaches `AVL_INTERNAL_ERROR` on it. -/
theorem c1_head_removal_breaks_balance :
    Avl.applyAll natLess Avl.empty [.insert 1, .insert 2, .insert 3, .remove 1]
        = .ok ⟨.node 2 1 .nil (.node 3 (-1) .nil .nil), 2⟩ ∧
      (AvlNode.node 3 (-1) .nil .nil : AvlNode Nat).balanced = false ∧
      Avl.check (⟨.node 2 1 .nil (.node 3 (-1) .nil .nil), 2⟩ : Avl Nat) = .internalError := by
  decide

/-- C2: in every state reached from the empty `Avl` by completed calls, the
tree at `head->right` is a binary search tree under the comparator. -/
theorem c2_reachable_root_is_bst {α : Type} (compare : α → α → Bool)
    (hc : StrictWeak compare) (s : Avl α) (hr : Reachable compare s) :
    s.root.isBST compare = true :=
  (sorted_iff_isBST compare hc.trans s.root).2
    (Avl.root_sorted compare s (Reachable.inv compare hc.trans s hr))

/-- C2 at the state reached by inserting 2, 1, 3, 4. -/
theorem c2_witness :
    StrictWeak natLess ∧
      Reachable natLess
        ⟨.node 2 0 .nil (.node 3 0 (.node 1 0 .nil .nil) (.node 4 0 .nil .nil)), 4⟩ ∧
      (AvlNode.node 3 0 (.node 1 0 .nil .nil) (.node 4 0 .nil .nil)).isBST natLess = true :=
  ⟨natLess_strictWeak,
    Reachable.of_ops natLess [.insert 2, .insert 1, .insert 3, .insert 4] _ (by decide),
    c2_reachable_root_is_bst natLess natLess_strictWeak
      ⟨.node 2 0 .nil (.node 3 0 (.node 1 0 .nil .nil) (.node 4 0 .nil .nil)), 4⟩
      (Reachable.of_ops natLess [.insert 2, .insert 1, .insert 3, .insert 4] _ (by decide))⟩

/-- C3: in every reachable state and for every probe `t`, `get(t)` is `nullptr`
exactly when no stored value is equal to `t` in the comparator sense, and it
designates `v` exactly when `v` is a stored value equal to `t` in that sense. -/
theorem c3_get_finds_the_equal_stored_value {α : Type} (compare : α → α → Bool)
    (hc : StrictWeak compare) (s : Avl α) (hr : Reachable compare s) (t : α) :
    (s.get compare t = none ↔ ∀ v ∈ s.stored, AvlCompareEquals compare v t = false) ∧
    (∀ v, s.get compare t = some v ↔
      (v ∈ s.stored ∧ AvlCompareEquals compare v t = true)) := by
  have hinv := Reachable.inv compare hc.trans s hr
  refine ⟨Avl.get_eq_none_iff compare t hc.trans s hinv, fun v => ⟨?_, ?_⟩⟩
  · exact Avl.get_some compare t s v
  · rintro ⟨hv, he⟩
    exact Avl.get_of_mem compare hc t s hinv v hv he

/-- C3 at the state reached by inserting 2, 1, 3, for the probe 3. -/
theorem c3_witness :
    (Avl.get natLess 3 ⟨.node 2 0 .nil (.node 1 1 .nil (.node 3 0 .nil .nil)), 3⟩ = none ↔
      ∀ v ∈ Avl.stored (⟨.node 2 0 .nil (.node 1 1 .nil (.node 3 0 .nil .nil)), 3⟩ : Avl Nat),
        AvlCompareEquals natLess v 3 = false) ∧
    (∀ v, Avl.get natLess 3 ⟨.node 2 0 .nil (.node 1 1 .nil (.node 3 0 .nil .nil)), 3⟩ = some v ↔
      (v ∈ Avl.stored (⟨.node 2 0 .nil (.node 1 1 .nil (.node 3 0 .nil .nil)), 3⟩ : Avl Nat) ∧
        AvlCompareEquals natLess v 3 = true)) :=
  c3_get_finds_the_equal_stored_value natLess natLess_strictWeak
    ⟨.node 2 0 .nil (.node 1 1 .nil (.node 3 0 .nil .nil)), 3⟩
    (Reachable.of_ops natLess [.insert 2, .insert 1, .insert 3] _ (by decide)) 3

/-- C4: in a reachable state, inserting a value `t` that is not equal (in the
comparator sense) to any stored value, if it completes, increases `size()` by
one, makes `get(t)` designate `t`, leaves `get(x)` as it was for every probe
`x` not equal to `t`, and makes the stored values the old ones plus `t`. -/
theorem c4_insert_new_value {α : Type} (compare : α → α → Bool)
    (hc : StrictWeak compare) (s s2 : Avl α) (hr : Reachable compare s) (t : α)
    (hnew : ∀ v ∈ s.stored, AvlCompareEquals compare v t = false)
    (hins : s.insert compare t = .ok s2) :
    s2.size = s.size + 1 ∧ s2.get compare t = some t ∧
      (∀ x, AvlCompareEquals compare x t = false → s2.get compare x = s.get compare x) ∧
      s2.stored.Perm (t :: s.stored) := by
  have hinv := Reachable.inv compare hc.trans s hr
  obtain ⟨hinv2, hsize, hperm⟩ := Avl.insert_absent compare t hc.trans s s2 hinv hnew hins
  refine ⟨hsize, ?_, ?_, hperm⟩
  · exact Avl.get_of_mem compare hc t s2 hinv2 t (hperm.mem_iff.2 (by simp)) (hc.refl_equals t)
  · intro x hxt
    cases hg : s.get compare x with
    | none =>
      rw [Avl.get_eq_none_iff compare x hc.trans s2 hinv2]
      intro v hv
      rcases List.mem_cons.1 (hperm.mem_iff.1 hv) with rfl | hvs
      · rw [AvlCompareEquals_comm]; exact hxt
      · exact (Avl.get_eq_none_iff compare x hc.trans s hinv).1 hg v hvs
    | some v =>
      obtain ⟨hv, he⟩ := Avl.get_some compare x s v hg
      exact Avl.get_of_mem compare hc x s2 hinv2 v (hperm.mem_iff.2 (by simp [hv])) he

/-- C4 at the state reached by inserting 2, 1, for the new value 3. -/
theorem c4_witness :
    (∀ v ∈ Avl.stored (⟨.node 2 0 .nil (.node 1 0 .nil .nil), 2⟩ : Avl Nat),
        AvlCompareEquals natLess v 3 = false) ∧
      Avl.insert natLess 3 ⟨.node 2 0 .nil (.node 1 0 .nil .nil), 2⟩
        = .ok ⟨.node 2 0 .nil (.node 1 1 .nil (.node 3 0 .nil .nil)), 3⟩ ∧
      (Avl.size (⟨.node 2 0 .nil (.node 1 1 .nil (.node 3 0 .nil .nil)), 3⟩ : Avl Nat)
          = Avl.size (⟨.node 2 0 .nil (.node 1 0 .nil .nil), 2⟩ : Avl Nat) + 1 ∧
        Avl.get natLess 3 ⟨.node 2 0 .nil (.node 1 1 .nil (.node 3 0 .nil .nil)), 3⟩ = some 3 ∧
        (∀ x, AvlCompareEquals natLess x 3 = false →
          Avl.get natLess x ⟨.node 2 0 .nil (.node 1 1 .nil (.node 3 0 .nil .nil)), 3⟩
            = Avl.get natLess x ⟨.node 2 0 .nil (.node 1 0 .nil .nil), 2⟩) ∧
        (Avl.stored (⟨.node 2 0 .nil (.node 1 1 .nil (.node 3 0 .nil .nil)), 3⟩ : Avl Nat)).Perm
          (3 :: Avl.stored (⟨.node 2 0 .nil (.node 1 0 .nil .nil), 2⟩ : Avl Nat))) :=
  ⟨by decide, by decide,
    c4_insert_new_value natLess natLess_strictWeak
      ⟨.node 2 0 .nil (.node 1 0 .nil .nil), 2⟩
      ⟨.node 2 0 .nil (.node 1 1 .nil (.node 3 0 .nil .nil)), 3⟩
      (Reachable.of_ops natLess [.insert 2, .insert 1] _ (by decide)) 3 (by decide) (by decide)⟩

/-- C5: in a reachable state, removing a value `t` equal (in the comparator
sense) to a stored value, if it completes, decreases `size()` by one, makes
`get(t)` absent, keeps every other stored value returned by `get`, and makes
the stored values the old ones minus the one equal to `t`; the value of `head`
is not a special case. -/
theorem c5_remove_stored_value {α : Type} (compare : α → α → Bool)
    (hc : StrictWeak compare) (s s2 : Avl α) (hr : Reachable compare s) (t : α)
    (hin : ∃ v ∈ s.stored, AvlCompareEquals compare v t = true)
    (hrem : s.remove compare t = .ok s2) :
    s2.size = s.size - 1 ∧ s2.get compare t = none ∧
      (∀ u ∈ s.stored, AvlCompareEquals compare u t = false → s2.get compare u = some u) ∧
      (∃ v, AvlCompareEquals compare v t = true ∧ (v :: s2.stored).Perm s.stored) := by
  have hinv := Reachable.inv compare hc.trans s hr
  obtain ⟨hinv2, hcase⟩ := Avl.remove_spec compare t hc.trans s s2 hinv hrem
  rcases hcase with ⟨-, hnone⟩ | ⟨pv, hpv, hperm, hsize⟩
  · obtain ⟨v, hv, hve⟩ := hin
    rw [hnone v hv] at hve
    cases hve
  · have hnodup : (pv :: s2.stored).Nodup :=
      hperm.nodup_iff.2 (Avl.stored_nodup compare hc.irrefl s hinv)
    have hpvs : pv ∈ s.stored := hperm.mem_iff.1 (by simp)
    refine ⟨hsize, ?_, ?_, ⟨pv, hpv, hperm⟩⟩
    · rw [Avl.get_eq_none_iff compare t hc.trans s2 hinv2]
      intro x hx
      by_contra hne
      have hxt : AvlCompareEquals compare x t = true := by simpa using hne
      have hxs : x ∈ s.stored := hperm.mem_iff.1 (by simp [hx])
      have hxp : AvlCompareEquals compare x pv = true :=
        hc.equiv_trans _ _ _ hxt (by rw [AvlCompareEquals_comm]; exact hpv)
      have := Avl.stored_unique compare s hinv hxs hpvs hxp
      subst this
      exact (List.nodup_cons.1 hnodup).1 hx
    · intro u hu hut
      have hne : u ≠ pv := by
        rintro rfl
        rw [hut] at hpv
        cases hpv
      have hu2 : u ∈ s2.stored := by
        rcases List.mem_cons.1 (hperm.mem_iff.2 hu) with h | h
        · exact absurd h hne
        · exact h
      exact Avl.get_of_mem compare hc u s2 hinv2 u hu2 (hc.refl_equals u)

/-- C5 at the state reached by inserting 1, 2, 3, for the value 1 held by `head`. -/
theorem c5_witness :
    (∃ v ∈ Avl.stored (⟨.node 1 0 .nil (.node 2 1 .nil (.node 3 0 .nil .nil)), 3⟩ : Avl Nat),
        AvlCompareEquals natLess v 1 = true) ∧
      Avl.remove natLess 1 ⟨.node 1 0 .nil (.node 2 1 .nil (.node 3 0 .nil .nil)), 3⟩
        = .ok ⟨.node 2 1 .nil (.node 3 (-1) .nil .nil), 2⟩ ∧
      (Avl.size (⟨.node 2 1 .nil (.node 3 (-1) .nil .nil), 2⟩ : Avl Nat)
          = Avl.size (⟨.node 1 0 .nil (.node 2 1 .nil (.node 3 0 .nil .nil)), 3⟩ : Avl Nat) - 1 ∧
        Avl.get natLess 1 ⟨.node 2 1 .nil (.node 3 (-1) .nil .nil), 2⟩ = none ∧
        (∀ u ∈ Avl.stored (⟨.node 1 0 .nil (.node 2 1 .nil (.node 3 0 .nil .nil)), 3⟩ : Avl Nat),
          AvlCompareEquals natLess u 1 = false →
            Avl.get natLess u ⟨.node 2 1 .nil (.node 3 (-1) .nil .nil), 2⟩ = some u) ∧
        (∃ v, AvlCompareEquals natLess v 1 = true ∧
          (v :: Avl.stored (⟨.node 2 1 .nil (.node 3 (-1) .nil .nil), 2⟩ : Avl Nat)).Perm
            (Avl.stored (⟨.node 1 0 .nil (.node 2 1 .nil (.node 3 0 .nil .nil)), 3⟩ : Avl Nat)))) :=
  ⟨by decide, by decide,
    c5_remove_stored_value natLess natLess_strictWeak
      ⟨.node 1 0 .nil (.node 2 1 .nil (.node 3 0 .nil .nil)), 3⟩
      ⟨.node 2 1 .nil (.node 3 (-1) .nil .nil), 2⟩
      (Reachable.of_ops natLess [.insert 1, .insert 2, .insert 3] _ (by decide)) 1
      (by decide) (by decide)⟩

/-- C6: in a reachable state, `insert(t)` for a value `t` equal (in the
comparator sense) to a stored value completes and leaves the whole state as it
was: same nodes, values, balances and `mySize`. -/
theorem c6_insert_existing_is_noop {α : Type} (compare : α → α → Bool)
    (hc : StrictWeak compare) (s : Avl α) (hr : Reachable compare s) (t : α)
    (hin : ∃ v ∈ s.stored, AvlCompareEquals compare v t = true) :
    s.insert compare t = .ok s :=
  Avl.insert_present compare t hc.trans s (Reachable.inv compare hc.trans s hr) hin

/-- C6 at the state reached by inserting 2, 1, 3, for the stored value 3. -/
theorem c6_witness :
    (∃ v ∈ Avl.stored (⟨.node 2 0 .nil (.node 1 1 .nil (.node 3 0 .nil .nil)), 3⟩ : Avl Nat),
        AvlCompareEquals natLess v 3 = true) ∧
      Avl.insert natLess 3 ⟨.node 2 0 .nil (.node 1 1 .nil (.node 3 0 .nil .nil)), 3⟩
        = .ok ⟨.node 2 0 .nil (.node 1 1 .nil (.node 3 0 .nil .nil)), 3⟩ :=
  ⟨by decide,
    c6_insert_existing_is_noop natLess natLess_strictWeak
      ⟨.node 2 0 .nil (.node 1 1 .nil (.node 3 0 .nil .nil)), 3⟩
      (Reachable.of_ops natLess [.insert 2, .insert 1, .insert 3] _ (by decide)) 3 (by decide)⟩

/-- C7: in a state whose tree, counted in nodes from `head`, is less than
`MAX_AVL_DEPTH` deep (in particular in every such reachable state), `remove(t)`
for a value `t` not equal (in the comparator sense) to any stored value
completes and leaves the whole state as it was. -/
theorem c7_remove_absent_is_noop {α : Type} (compare : α → α → Bool) (s : Avl α) (t : α)
    (hnot : ∀ v ∈ s.stored, AvlCompareEquals compare v t = false)
    (hdepth : s.head.height < MAX_AVL_DEPTH) :
    s.remove compare t = .ok s :=
  Avl.remove_absent compare t s hnot hdepth

/-- C7 at the state reached by inserting 2, 1, 3, for the value 5. -/
theorem c7_witness :
    (∀ v ∈ Avl.stored (⟨.node 2 0 .nil (.node 1 1 .nil (.node 3 0 .nil .nil)), 3⟩ : Avl Nat),
        AvlCompareEquals natLess v 5 = false) ∧
      (AvlNode.node 2 0 .nil (.node 1 1 .nil (.node 3 0 .nil .nil)) : AvlNode Nat).height
        < MAX_AVL_DEPTH ∧
      Avl.remove natLess 5 ⟨.node 2 0 .nil (.node 1 1 .nil (.node 3 0 .nil .nil)), 3⟩
        = .ok ⟨.node 2 0 .nil (.node 1 1 .nil (.node 3 0 .nil .nil)), 3⟩ :=
  ⟨by decide, by decide,
    c7_remove_absent_is_noop natLess
      ⟨.node 2 0 .nil (.node 1 1 .nil (.node 3 0 .nil .nil)), 3⟩ 5 (by decide) (by decide)⟩

/-- C8 (fails on the code): after inserting 0, 1, 3, 4, 2 the removals of 0 and
of 3 complete, and the removal of 4 reads `R->balance` through a null `R`. -/
theorem c8_round_trip_null_dereference :
    Avl.applyAll natLess Avl.empty
        [.insert 0, .insert 1, .insert 3, .insert 4, .insert 2, .remove 0, .remove 3]
        = .ok ⟨.node 4 (-1) .nil (.node 1 0 .nil (.node 2 0 .nil .nil)), 3⟩ ∧
      Avl.remove natLess 4 ⟨.node 4 (-1) .nil (.node 1 0 .nil (.node 2 0 .nil .nil)), 3⟩
        = .nullDeref := by
  decide

/-- In every state reached by completed `insert`, `remove` and `clear` calls,
`size()` is the number of nodes; and when the tree is at most `MAX_AVL_DEPTH`
nodes high from `head`, the traversal from `begin()` runs to `isLast()` and
yields that many values. -/
theorem Avl.size_counts_nodes {α : Type} (compare : α → α → Bool)
    (hc : StrictWeak compare) (s : Avl α) (hr : Reachable compare s) :
    s.size = (s.head.count : Int) ∧
      (s.head.height ≤ MAX_AVL_DEPTH → ∀ fuel, s.head.count ≤ fuel →
        ∃ xs it, AvlIterator.run fuel s.begin = .ok (xs, it) ∧ it.isLast = true ∧
          (xs.length : Int) = s.size) := by
  have hinv := Reachable.inv compare hc.trans s hr
  have hsize : s.size = (s.head.count : Int) := Avl.count_of_inv compare s hinv
  refine ⟨hsize, ?_⟩
  intro hd fuel hfuel
  obtain ⟨it, hrun, hlast⟩ := AvlIterator.run_begin s hd fuel hfuel
  exact ⟨_, it, hrun, hlast, by rw [AvlNode.preorder_length, hsize]⟩

/-- C9 (fails on the code): the 1492 calls of `deepOps` (78 calls, then 101
rounds of 14 calls, on an `Avl<int>` ordered by `<`) all complete.  The state
they reach has `size()` 218 and 218 nodes, and is 116 nodes high from `head`.
In the traversal from `begin()`, after 105 increments `tableIndex` is 100 and
`current` is a node with two children, where `operator++` writes `st[100]`,
outside the `MAX_AVL_DEPTH` entries of `st`: the traversal has then yielded 106
values, and it does not yield the 218 values that `size()` counts. -/
theorem c9_deep_state_overruns_the_stack :
    deepOps.length = 1492 ∧
    ∃ s : Avl Nat, Avl.applyAll natLess Avl.empty deepOps = .ok s ∧ Reachable natLess s ∧
      s.size = 218 ∧ s.head.count = 218 ∧ s.head.height = 116 ∧
      (∃ it, AvlIterator.nextTimes 105 s.begin = .ok it ∧ it.tableIndex = 100 ∧
        it.accessed = some 100 ∧ it.next = .outOfBounds) ∧
      AvlIterator.run 218 s.begin = .outOfBounds := by
  have h : deepOps.length = 1492 ∧
      (Avl.applyAll natLess Avl.empty deepOps).andThen
          (fun s => .ok (s.size, s.head.count, s.head.height)) = .ok (218, 218, 116) ∧
      (Avl.applyAll natLess Avl.empty deepOps).andThen
          (fun s => (AvlIterator.nextTimes 105 s.begin).andThen
            fun it => .ok (it.tableIndex, it.accessed, it.next))
        = .ok (100, some 100, .outOfBounds) ∧
      (Avl.applyAll natLess Avl.empty deepOps).andThen
          (fun s => AvlIterator.run 218 s.begin) = .outOfBounds := by
    decide!
  obtain ⟨hlen, h1, h2, h3⟩ := h
  refine ⟨hlen, ?_⟩
  rw [Outcome.andThen_eq_ok] at h1 h2
  obtain ⟨s, hs, h1⟩ := h1
  obtain ⟨s2, hs2, h2⟩ := h2
  rw [hs] at hs2 h3
  simp only [Outcome.ok.injEq] at hs2
  subst hs2
  rw [Outcome.andThen_eq_ok] at h2
  obtain ⟨it, hit, h2⟩ := h2
  simp only [Outcome.ok.injEq, Prod.mk.injEq] at h1 h2
  exact ⟨s, hs, Reachable.of_ops natLess deepOps s hs, h1.1, h1.2.1, h1.2.2,
    ⟨it, hit, h2.1, h2.2.1, h2.2.2⟩, h3⟩

/-- C10 as stated fails: the state reached by `insert(2)`, `insert(1)` is
traversed as 2, 1, and 2 does not compare before 1. -/
theorem c10_traversal_not_ascending :
    ¬ (∀ s : Avl Nat, Reachable natLess s →
        ∀ fuel xs it, AvlIterator.run fuel s.begin = .ok (xs, it) → it.isLast = true →
          Sorted natLess xs) := by
  intro h
  have h2 := h ⟨.node 2 0 .nil (.node 1 0 .nil .nil), 2⟩
    (Reachable.of_ops natLess [.insert 2, .insert 1] _ (by decide)) 2 [2, 1]
    ⟨List.replicate MAX_AVL_DEPTH .nil, .nil, 0⟩ (by decide) (by decide)
  revert h2
  simp [Sorted, natLess]

/-- C10 as amended: in every reachable state whose tree is at most
`MAX_AVL_DEPTH` nodes high from `head`, the traversal from `begin()` runs to
`isLast()` and yields the values node first, then left subtree, then right
subtree, starting at `head`, and a traversal that has run to `isLast()` has
yielded exactly this; that sequence is a rearrangement of the stored values, of
which those below `head->right`, read left to right, are strictly ascending by
the comparator. -/
theorem c10_traversal_is_node_left_right {α : Type} (compare : α → α → Bool)
    (hc : StrictWeak compare) (s : Avl α) (hr : Reachable compare s)
    (hd : s.head.height ≤ MAX_AVL_DEPTH) :
    (∀ fuel, s.head.count ≤ fuel →
        ∃ it, AvlIterator.run fuel s.begin = .ok (s.head.preorder, it) ∧ it.isLast = true) ∧
      (∀ fuel xs it, AvlIterator.run fuel s.begin = .ok (xs, it) → it.isLast = true →
        xs = s.head.preorder) ∧
      s.head.preorder.Perm s.stored ∧ Sorted compare s.root.inorder := by
  have hinv := Reachable.inv compare hc.trans s hr
  exact ⟨fun fuel hfuel => AvlIterator.run_begin s hd fuel hfuel,
    fun fuel xs it hrun hlast => AvlIterator.run_begin_sound s fuel xs it hrun hlast,
    Avl.preorder_perm_stored compare s hinv, Avl.root_sorted compare s hinv⟩

/-- C10 as amended, at the state reached by inserting 2, 1. -/
theorem c10_witness :
    Reachable natLess ⟨.node 2 0 .nil (.node 1 0 .nil .nil), 2⟩ ∧
      (AvlNode.node 2 0 .nil (.node 1 0 .nil .nil) : AvlNode Nat).height ≤ MAX_AVL_DEPTH ∧
      (∃ it, AvlIterator.run 2 (Avl.begin (⟨.node 2 0 .nil (.node 1 0 .nil .nil), 2⟩ : Avl Nat))
          = .ok ((AvlNode.node 2 0 .nil (.node 1 0 .nil .nil) : AvlNode Nat).preorder, it) ∧
        it.isLast = true) ∧
      (AvlNode.node 2 0 .nil (.node 1 0 .nil .nil) : AvlNode Nat).preorder = [2, 1] :=
  ⟨Reachable.of_ops natLess [.insert 2, .insert 1] _ (by decide), by decide,
    (c10_traversal_is_node_left_right natLess natLess_strictWeak
      ⟨.node 2 0 .nil (.node 1 0 .nil .nil), 2⟩
      (Reachable.of_ops natLess [.insert 2, .insert 1] _ (by decide)) (by decide)).1 2
      (by decide),
    by decide⟩

/-! ## More facts on reachable states -/

theorem Avl.stored_pairwise_ne {α : Type} (compare : α → α → Bool) (s : Avl α)
    (hinv : s.Inv compare) :
    s.stored.Pairwise (fun x y => AvlCompareEquals compare x y = false) := by
  unfold Avl.Inv at hinv
  unfold Avl.stored
  split at hinv
  · simp
  · rename_i hv hb hl root heq
    refine List.pairwise_cons.2 ⟨hinv.2.2.1, ?_⟩
    exact List.Pairwise.imp (fun h => AvlCompareEquals_of_lt _ _ _ h) hinv.2.1

theorem pairwise_ne_of_perm {α : Type} (compare : α → α → Bool) {xs ys : List α}
    (hp : xs.Perm ys)
    (h : ys.Pairwise (fun x y => AvlCompareEquals compare x y = false)) :
    xs.Pairwise (fun x y => AvlCompareEquals compare x y = false) := by
  refine (List.Perm.pairwise_iff ?_ hp).2 h
  intro x y hxy
  rw [AvlCompareEquals_comm]
  exact hxy

/-! ## The claims C11 to C13, C19, C20 -/

/-- C11: in every reachable state no two stored values (the value of `head`
included) are equal in the comparator sense, so no two values yielded by a
traversal from `begin()` to `isLast()` are; the traversal reaches `isLast()`
when the tree is at most `MAX_AVL_DEPTH` nodes deep. -/
theorem c11_no_two_yielded_values_equal {α : Type} (compare : α → α → Bool)
    (hc : StrictWeak compare) (s : Avl α) (hr : Reachable compare s) :
    s.stored.Pairwise (fun x y => AvlCompareEquals compare x y = false) ∧
      (∀ fuel xs it, AvlIterator.run fuel s.begin = .ok (xs, it) → it.isLast = true →
        xs.Pairwise (fun x y => AvlCompareEquals compare x y = false)) ∧
      (s.head.height ≤ MAX_AVL_DEPTH → ∀ fuel, s.head.count ≤ fuel →
        ∃ xs it, AvlIterator.run fuel s.begin = .ok (xs, it) ∧ it.isLast = true ∧
          xs.Pairwise (fun x y => AvlCompareEquals compare x y = false)) := by
  have hinv := Reachable.inv compare hc.trans s hr
  have hst := Avl.stored_pairwise_ne compare s hinv
  have hpre := pairwise_ne_of_perm compare (Avl.preorder_perm_stored compare s hinv) hst
  refine ⟨hst, ?_, ?_⟩
  · intro fuel xs it hrun hlast
    rw [AvlIterator.run_begin_sound s fuel xs it hrun hlast]
    exact hpre
  · intro hd fuel hfuel
    obtain ⟨it, hrun, hlast⟩ := AvlIterator.run_begin s hd fuel hfuel
    exact ⟨_, it, hrun, hlast, hpre⟩

/-- C11 at the state reached by inserting 2, 1, 3, 4, 2 (the second 2 is
equal to the value of `head`). -/
theorem c11_witness :
    Reachable natLess
        ⟨.node 2 0 .nil (.node 3 0 (.node 1 0 .nil .nil) (.node 4 0 .nil .nil)), 4⟩ ∧
      ([2, 1, 3, 4] : List Nat).Pairwise (fun x y => AvlCompareEquals natLess x y = false) :=
  ⟨Reachable.of_ops natLess [.insert 2, .insert 1, .insert 3, .insert 4, .insert 2] _ (by decide),
    (c11_no_two_yielded_values_equal natLess natLess_strictWeak
      ⟨.node 2 0 .nil (.node 3 0 (.node 1 0 .nil .nil) (.node 4 0 .nil .nil)), 4⟩
      (Reachable.of_ops natLess [.insert 2, .insert 1, .insert 3, .insert 4, .insert 2] _
        (by decide))).1⟩

/-- C12 as stated fails: after inserting 1, 2, 3, 4, 5 the traversal from
`begin()` does not yield 1, 2, 3, 4, 5, and the longest path from `head` has
more than 3 nodes. -/
theorem c12_not_ascending_and_deeper :
    ¬ (∀ s : Avl Nat,
        Avl.applyAll natLess Avl.empty [.insert 1, .insert 2, .insert 3, .insert 4, .insert 5]
          = .ok s →
        (∃ it, AvlIterator.run 5 s.begin = .ok ([1, 2, 3, 4, 5], it)) ∨ s.head.height ≤ 3) := by
  intro h
  have h2 := h ⟨.node 1 0 .nil
    (.node 3 1 (.node 2 0 .nil .nil) (.node 4 1 .nil (.node 5 0 .nil .nil))), 5⟩ (by decide)
  rcases h2 with ⟨it, hit⟩ | hdeep
  · have hrun : AvlIterator.run 5 (Avl.begin (⟨.node 1 0 .nil
          (.node 3 1 (.node 2 0 .nil .nil) (.node 4 1 .nil (.node 5 0 .nil .nil))), 5⟩ : Avl Nat))
        = .ok ([1, 3, 2, 4, 5],
            ⟨(List.replicate MAX_AVL_DEPTH .nil).set 0
              (.node 3 1 (.node 2 0 .nil .nil) (.node 4 1 .nil (.node 5 0 .nil .nil))),
              .nil, 0⟩) := by decide
    rw [hrun] at hit
    simp at hit
  · revert hdeep
    decide

/-- C12 as amended: inserting 1, 2, 3, 4, 5 into an empty `Avl` completes; the
traversal from `begin()` yields 1, 3, 2, 4, 5 and then is at `isLast()`; the
values below `head->right` read left to right are 2, 3, 4, 5; the tree at
`head->right` is 3 nodes deep and the longest path from `head` has 4 nodes. -/
theorem c12_insert_one_to_five :
    Avl.applyAll natLess Avl.empty [.insert 1, .insert 2, .insert 3, .insert 4, .insert 5]
        = .ok ⟨.node 1 0 .nil
            (.node 3 1 (.node 2 0 .nil .nil) (.node 4 1 .nil (.node 5 0 .nil .nil))), 5⟩ ∧
      AvlIterator.run 5 (Avl.begin (⟨.node 1 0 .nil
            (.node 3 1 (.node 2 0 .nil .nil) (.node 4 1 .nil (.node 5 0 .nil .nil))), 5⟩ : Avl Nat))
        = .ok ([1, 3, 2, 4, 5],
            ⟨(List.replicate MAX_AVL_DEPTH .nil).set 0
              (.node 3 1 (.node 2 0 .nil .nil) (.node 4 1 .nil (.node 5 0 .nil .nil))),
              .nil, 0⟩) ∧
      (AvlNode.node 3 1 (.node 2 0 .nil .nil) (.node 4 1 .nil (.node 5 0 .nil .nil)) :
          AvlNode Nat).inorder = [2, 3, 4, 5] ∧
      (AvlNode.node 3 1 (.node 2 0 .nil .nil) (.node 4 1 .nil (.node 5 0 .nil .nil)) :
          AvlNode Nat).height = 3 ∧
      (AvlNode.node 1 0 .nil
          (.node 3 1 (.node 2 0 .nil .nil) (.node 4 1 .nil (.node 5 0 .nil .nil))) :
          AvlNode Nat).height = 4 := by
  decide

/-- C13 (fails on the code): `insert(0)`, `insert(1)`, `insert(2)`, `remove(0)`
complete and the following `insert(0)` reaches `AVL_INTERNAL_ERROR`;
`insert(0)`, `insert(2)`, `insert(1)`, `remove(0)`, `insert(3)` complete and the
following `remove(2)` reads a member through a null pointer. -/
theorem c13_internal_error_reached :
    Avl.applyAll natLess Avl.empty [.insert 0, .insert 1, .insert 2, .remove 0]
        = .ok ⟨.node 1 1 .nil (.node 2 (-1) .nil .nil), 2⟩ ∧
      Avl.insert natLess 0 ⟨.node 1 1 .nil (.node 2 (-1) .nil .nil), 2⟩ = .internalError ∧
      Avl.applyAll natLess Avl.empty
          [.insert 0, .insert 2, .insert 1, .remove 0, .insert 3]
        = .ok ⟨.node 2 (-1) .nil (.node 1 1 .nil (.node 3 0 .nil .nil)), 3⟩ ∧
      Avl.remove natLess 2 ⟨.node 2 (-1) .nil (.node 1 1 .nil (.node 3 0 .nil .nil)), 3⟩
        = .nullDeref := by
  decide

/-- C19: `getValue()` throws `MapException` on a pair built by `MapPair()` or
`MapPair(k)` and returns `v` on one built by `MapPair(k, v)`; `getKey()` throws
`MapException` on a pair built by `MapPair()` and returns `k` on one built by
`MapPair(k)` or `MapPair(k, v)`; a copy answers as its original.  In general
each throws exactly when its flag `noValue`, `noKey` is set. -/
theorem c19_pair_accessors {K V : Type} [Inhabited K] [Inhabited V] (k : K) (v : V)
    (p : MapPair K V) :
    (MapPair.mk0 : MapPair K V).getValue = .mapException ∧
      (MapPair.mk1 k : MapPair K V).getValue = .mapException ∧
      (MapPair.mk2 k v).getValue = .returns v ∧
      (MapPair.mk0 : MapPair K V).getKey = .mapException ∧
      (MapPair.mk1 k : MapPair K V).getKey = .returns k ∧
      (MapPair.mk2 k v).getKey = .returns k ∧
      p.copy.getValue = p.getValue ∧ p.copy.getKey = p.getKey ∧
      (p.getValue = .mapException ↔ p.noValue = true) ∧
      (p.getValue = .returns p.value ↔ p.noValue = false) ∧
      (p.getKey = .mapException ↔ p.noKey = true) ∧
      (p.getKey = .returns p.key ↔ p.noKey = false) := by
  refine ⟨rfl, rfl, rfl, rfl, rfl, rfl, rfl, rfl, ?_, ?_, ?_, ?_⟩ <;>
    cases hv : p.noValue <;> cases hk : p.noKey <;>
    simp [MapPair.getValue, MapPair.getKey, hv, hk]

/-- C20: on an iterator with `isLast()` true, `operator++` returns the iterator
as it is (`current`, `st` and `tableIndex` all unchanged), and so does any
number of further increments. -/
theorem c20_increment_at_end {α : Type} (it : AvlIterator α) (hlast : it.isLast = true) :
    it.next = .ok it ∧ ∀ n, AvlIterator.nextTimes n it = .ok it := by
  have hcur : it.current = .nil := by
    unfold AvlIterator.isLast at hlast
    split at hlast
    · assumption
    · cases hlast
  have hnext : it.next = .ok it := by
    unfold AvlIterator.next
    rw [hcur]
  refine ⟨hnext, ?_⟩
  intro n
  induction n with
  | zero => rfl
  | succ n ih => rw [AvlIterator.nextTimes, hnext, Outcome.ok_andThen, ih]

/-- C20 at the iterator left by the traversal of the state reached by
inserting 2, 1, 3, 4, whose `st[0]` still holds a node. -/
theorem c20_witness :
    AvlIterator.isLast (⟨(List.replicate MAX_AVL_DEPTH .nil).set 0
        (.node 3 0 (.node 1 0 .nil .nil) (.node 4 0 .nil .nil)), .nil, 0⟩ : AvlIterator Nat)
      = true ∧
    AvlIterator.nextTimes 3 (⟨(List.replicate MAX_AVL_DEPTH .nil).set 0
        (.node 3 0 (.node 1 0 .nil .nil) (.node 4 0 .nil .nil)), .nil, 0⟩ : AvlIterator Nat)
      = .ok ⟨(List.replicate MAX_AVL_DEPTH .nil).set 0
        (.node 3 0 (.node 1 0 .nil .nil) (.node 4 0 .nil .nil)), .nil, 0⟩ :=
  ⟨by decide,
    (c20_increment_at_end (⟨(List.replicate MAX_AVL_DEPTH .nil).set 0
        (.node 3 0 (.node 1 0 .nil .nil) (.node 4 0 .nil .nil)), .nil, 0⟩ : AvlIterator Nat)
      (by decide)).2 3⟩

/-! ## Facts on `Map` -/

theorem PairCompare_equals {K V : Type} (cmp : K → K → Bool) (p q : MapPair K V) :
    AvlCompareEquals (PairCompare cmp) p q = AvlCompareEquals cmp p.key q.key := rfl

theorem PairCompare_strictWeak {K V : Type} (cmp : K → K → Bool) (hc : StrictWeak cmp) :
    StrictWeak (PairCompare cmp : MapPair K V → MapPair K V → Bool) :=
  ⟨fun x => hc.irrefl x.key, fun x y z => hc.trans x.key y.key z.key,
    fun x y z => hc.equiv_trans x.key y.key z.key⟩

theorem AvlNode.inorder_map {α β : Type} (g : α → β) (P : AvlNode α) :
    (P.map g).inorder = P.inorder.map g := by
  induction P with
  | nil => rfl
  | node v b l r ihl ihr => simp [AvlNode.map, AvlNode.inorder, ihl, ihr]

theorem AvlNode.map_id_of {α : Type} (g : α → α) (P : AvlNode α)
    (h : ∀ x ∈ P.inorder, g x = x) : P.map g = P := by
  induction P with
  | nil => rfl
  | node v b l r ihl ihr =>
    simp only [AvlNode.map]
    rw [ihl (fun x hx => h x (AvlNode.mem_inorder_node.2 (Or.inl hx))),
      ihr (fun x hx => h x (AvlNode.mem_inorder_node.2 (Or.inr (Or.inr hx)))),
      h v (AvlNode.mem_inorder_node.2 (Or.inr (Or.inl rfl)))]

theorem writeImage_of_ne {α : Type} (compare : α → α → Bool) (t : α) (f : α → α) (x : α)
    (h : AvlCompareEquals compare x t = false) : writeImage compare t f x = x := by
  simp [writeImage, h]

theorem writeImage_of_eq {α : Type} (compare : α → α → Bool) (t : α) (f : α → α) (x : α)
    (h : AvlCompareEquals compare x t = true) : writeImage compare t f x = f x := by
  simp [writeImage, h]

theorem getLoopWrite_eq_map {α : Type} (compare : α → α → Bool) (hc : StrictWeak compare)
    (t : α) (f : α → α) (P : AvlNode α) (hs : Sorted compare P.inorder) :
    getLoopWrite compare t f P = P.map (writeImage compare t f) := by
  induction P with
  | nil => rfl
  | node v b l r ihl ihr =>
    simp only [AvlNode.inorder] at hs
    obtain ⟨hsl, hsr, hlv, hvr⟩ := Sorted.node hs
    unfold getLoopWrite
    simp only [AvlNode.map]
    by_cases he : AvlCompareEquals compare t v = true
    · have hev : AvlCompareEquals compare v t = true := by rw [AvlCompareEquals_comm]; exact he
      simp only [he, if_true]
      rw [writeImage_of_eq compare t f v hev]
      have hl : l.map (writeImage compare t f) = l := by
        apply AvlNode.map_id_of
        intro x hx
        apply writeImage_of_ne
        by_contra hne
        have hxt : AvlCompareEquals compare x t = true := by simpa using hne
        have := hc.equiv_trans _ _ _ hxt he
        rw [AvlCompareEquals_of_lt _ _ _ (hlv x hx)] at this
        cases this
      have hr : r.map (writeImage compare t f) = r := by
        apply AvlNode.map_id_of
        intro x hx
        apply writeImage_of_ne
        by_contra hne
        have hxt : AvlCompareEquals compare x t = true := by simpa using hne
        have := hc.equiv_trans _ _ _ hxt he
        rw [AvlCompareEquals_of_gt _ _ _ (hvr x hx)] at this
        cases this
      rw [hl, hr]
    · have hev : AvlCompareEquals compare v t = false := by
        rw [AvlCompareEquals_comm]; simpa using he
      simp only [he, Bool.false_eq_true, if_false]
      rw [writeImage_of_ne compare t f v hev]
      by_cases hvt : compare v t = true
      · simp only [hvt, if_true]
        have hl : l.map (writeImage compare t f) = l := by
          apply AvlNode.map_id_of
          intro x hx
          exact writeImage_of_ne _ _ _ _
            (AvlCompareEquals_of_lt _ _ _ (hc.trans _ _ _ (hlv x hx) hvt))
        rw [hl, ihr hsr]
      · have htv : compare t v = true := compare_of_not_equals he hvt
        simp only [hvt, Bool.false_eq_true, if_false, htv, if_true]
        have hr : r.map (writeImage compare t f) = r := by
          apply AvlNode.map_id_of
          intro x hx
          exact writeImage_of_ne _ _ _ _
            (AvlCompareEquals_of_gt _ _ _ (hc.trans _ _ _ htv (hvr x hx)))
        rw [hr, ihl hsl]

theorem Avl.getWrite_eq_map {α : Type} (compare : α → α → Bool) (hc : StrictWeak compare)
    (t : α) (f : α → α) (s : Avl α) (hinv : s.Inv compare) :
    s.getWrite compare t f = ⟨s.head.map (writeImage compare t f), s.mySize⟩ := by
  obtain ⟨head, n⟩ := s
  unfold Avl.getWrite
  cases head with
  | nil => rfl
  | node hv hb hl hr =>
    simp only [Avl.Inv] at hinv
    obtain ⟨rfl, hsort, hhead, -⟩ := hinv
    simp only [AvlNode.map]
    by_cases he : AvlCompareEquals compare hv t = true
    · simp only [he, if_true]
      rw [writeImage_of_eq compare t f hv he]
      have hr : hr.map (writeImage compare t f) = hr := by
        apply AvlNode.map_id_of
        intro x hx
        apply writeImage_of_ne
        by_contra hne
        have hxt : AvlCompareEquals compare x t = true := by simpa using hne
        have := hc.equiv_trans _ _ _ he (by rw [AvlCompareEquals_comm]; exact hxt)
        rw [hhead x hx] at this
        cases this
      rw [hr]
    · simp only [he, Bool.false_eq_true, if_false]
      rw [writeImage_of_ne compare t f hv (by simpa using he),
        getLoopWrite_eq_map compare hc t f hr hsort]

theorem Avl.stored_map {α : Type} (g : α → α) (s : Avl α) :
    Avl.stored (⟨s.head.map g, s.mySize⟩ : Avl α) = s.stored.map g := by
  obtain ⟨head, n⟩ := s
  cases head with
  | nil => rfl
  | node hv hb hl hr => simp [Avl.stored, AvlNode.map, AvlNode.inorder_map]

theorem Avl.inv_map {α : Type} (compare : α → α → Bool) (g : α → α)
    (hg : ∀ x y, compare (g x) y = compare x y ∧ compare y (g x) = compare y x)
    (s : Avl α) (hinv : s.Inv compare) :
    Avl.Inv compare (⟨s.head.map g, s.mySize⟩ : Avl α) := by
  obtain ⟨head, n⟩ := s
  cases head with
  | nil => exact hinv
  | node hv hb hl hr =>
    simp only [Avl.Inv] at hinv
    obtain ⟨rfl, hsort, hhead, hsize⟩ := hinv
    simp only [Avl.Inv, AvlNode.map, AvlNode.inorder_map, List.length_map]
    refine ⟨by trivial, ?_, ?_, hsize⟩
    · unfold Sorted at *
      rw [List.pairwise_map]
      refine List.Pairwise.imp ?_ hsort
      intro a b hab
      rw [(hg a (g b)).1, (hg b a).2]
      exact hab
    · intro x hx
      obtain ⟨y, hy, rfl⟩ := List.mem_map.1 hx
      have := hhead y hy
      simp only [AvlCompareEquals] at this ⊢
      rw [(hg hv (g y)).1, (hg y hv).2, (hg y (g hv)).1, (hg hv y).2]
      exact this

theorem setValue_image {K V : Type} (cmp : K → K → Bool) (k : K) (v : V) (x : MapPair K V) :
    (writeImage (PairCompare cmp) (MapPair.mk2 k v) (fun p => p.setValue v) x).key = x.key ∧
      (writeImage (PairCompare cmp) (MapPair.mk2 k v) (fun p => p.setValue v) x).noKey
        = x.noKey ∧
      (writeImage (PairCompare cmp) (MapPair.mk2 k v) (fun p => p.setValue v) x).noValue
        = x.noValue := by
  unfold writeImage
  split <;> simp [MapPair.setValue]

theorem setValue_image_compare {K V : Type} (cmp : K → K → Bool) (k : K) (v : V)
    (x y : MapPair K V) :
    PairCompare cmp (writeImage (PairCompare cmp) (MapPair.mk2 k v) (fun p => p.setValue v) x) y
        = PairCompare cmp x y ∧
      PairCompare cmp y (writeImage (PairCompare cmp) (MapPair.mk2 k v) (fun p => p.setValue v) x)
        = PairCompare cmp y x := by
  simp only [PairCompare, (setValue_image cmp k v x).1, and_self]

theorem Map.insert_stored_key {K V : Type} (cmp : K → K → Bool) (hc : StrictWeak cmp)
    (k : K) (v : V) (m : Map K V) (hinv : m.mapAvl.Inv (PairCompare cmp))
    (hin : ∃ p ∈ m.mapAvl.stored, AvlCompareEquals cmp p.key k = true) :
    m.insert cmp k v = .ok ⟨⟨m.mapAvl.head.map
      (writeImage (PairCompare cmp) (MapPair.mk2 k v) (fun p => p.setValue v)),
      m.mapAvl.mySize⟩⟩ := by
  obtain ⟨p, hp, hpe⟩ := hin
  have hget := Avl.get_of_mem (PairCompare cmp) (PairCompare_strictWeak cmp hc)
    (MapPair.mk2 k v) m.mapAvl hinv p hp hpe
  unfold Map.insert
  rw [hget]
  simp only
  rw [Avl.getWrite_eq_map (PairCompare cmp) (PairCompare_strictWeak cmp hc) _ _ _ hinv]

theorem Map.insert_new_key {K V : Type} (cmp : K → K → Bool) (hc : StrictWeak cmp)
    (k : K) (v : V) (m m2 : Map K V) (hinv : m.mapAvl.Inv (PairCompare cmp))
    (hnot : ∀ p ∈ m.mapAvl.stored, AvlCompareEquals cmp p.key k = false)
    (h : m.insert cmp k v = .ok m2) :
    m.mapAvl.insert (PairCompare cmp) (MapPair.mk2 k v) = .ok m2.mapAvl := by
  have hget : m.mapAvl.get (PairCompare cmp) (MapPair.mk2 k v) = none :=
    (Avl.get_eq_none_iff (PairCompare cmp) _ (PairCompare_strictWeak cmp hc).trans _ hinv).2 hnot
  unfold Map.insert at h
  rw [hget] at h
  simp only [Outcome.andThen_eq_ok] at h
  obtain ⟨a, ha, h⟩ := h
  cases h
  exact ha

theorem Avl.insert_keeps {α : Type} (compare : α → α → Bool)
    (htrans : ∀ x y z, compare x y = true → compare y z = true → compare x z = true)
    (Q : α → Prop) (t : α) (s s2 : Avl α) (hinv : s.Inv compare)
    (hs : ∀ x ∈ s.stored, Q x) (ht : Q t) (h : s.insert compare t = .ok s2) :
    s2.Inv compare ∧ ∀ x ∈ s2.stored, Q x := by
  by_cases hx : ∃ x ∈ s.stored, AvlCompareEquals compare x t = true
  · rw [Avl.insert_present compare t htrans s hinv hx] at h
    cases h
    exact ⟨hinv, hs⟩
  · have hnot : ∀ x ∈ s.stored, AvlCompareEquals compare x t = false := by
      intro x hxm
      by_contra hne
      exact hx ⟨x, hxm, by simpa using hne⟩
    obtain ⟨hinv2, -, hperm⟩ := Avl.insert_absent compare t htrans s s2 hinv hnot h
    refine ⟨hinv2, ?_⟩
    intro x hx2
    rcases List.mem_cons.1 (hperm.mem_iff.1 hx2) with rfl | hxs
    · exact ht
    · exact hs x hxs

theorem Avl.insertAll_keeps {α : Type} (compare : α → α → Bool)
    (htrans : ∀ x y z, compare x y = true → compare y z = true → compare x z = true)
    (Q : α → Prop) (xs : List α) (s s2 : Avl α) (hinv : s.Inv compare)
    (hs : ∀ x ∈ s.stored, Q x) (hxs : ∀ x ∈ xs, Q x)
    (h : Avl.insertAll compare s xs = .ok s2) :
    s2.Inv compare ∧ ∀ x ∈ s2.stored, Q x := by
  induction xs generalizing s with
  | nil =>
    simp only [Avl.insertAll, Outcome.ok.injEq] at h
    subst h
    exact ⟨hinv, hs⟩
  | cons y ys ih =>
    simp only [Avl.insertAll, Outcome.andThen_eq_ok] at h
    obtain ⟨s1, h1, h2⟩ := h
    obtain ⟨hinv1, hs1⟩ :=
      Avl.insert_keeps compare htrans Q y s s1 hinv hs (hxs y (by simp)) h1
    exact ih s1 hinv1 hs1 (fun x hx => hxs x (by simp [hx])) h2

theorem Map.assignLoop_eq {K V : Type} (cmp : K → K → Bool) (n : Nat)
    (mi : MapIterator K V) (a a2 : Avl (MapPair K V))
    (h : Map.assignLoop cmp n mi a = .ok a2) :
    ∃ xs it2, AvlIterator.run n mi.avlIter = .ok (xs, it2) ∧
      Avl.insertAll (PairCompare cmp) a xs = .ok a2 := by
  induction n generalizing mi a with
  | zero =>
    simp only [Map.assignLoop, Outcome.ok.injEq] at h
    exact ⟨[], mi.avlIter, rfl, by simp [Avl.insertAll, h]⟩
  | succ n ih =>
    obtain ⟨⟨st, c, ti⟩⟩ := mi
    cases c with
    | nil =>
      simp only [Map.assignLoop, Outcome.ok.injEq] at h
      exact ⟨[], ⟨st, .nil, ti⟩, by simp [AvlIterator.run], by simp [Avl.insertAll, h]⟩
    | node p b l r =>
      simp only [Map.assignLoop, Outcome.andThen_eq_ok, MapIterator.next] at h
      obtain ⟨a1, ha1, mi2, ⟨it1, hit1, hmi2⟩, hrec⟩ := h
      cases hmi2
      obtain ⟨xs, it2, hrun, hall⟩ := ih ⟨it1⟩ a1 hrec
      refine ⟨p :: xs, it2, ?_, ?_⟩
      · rw [AvlIterator.run_node, hit1, Outcome.ok_andThen, hrun]
        rfl
      · simp only [Avl.insertAll, ha1, Outcome.ok_andThen]
        exact hall

theorem AvlIterator.run_count {α : Type} (s : Avl α) (xs : List α) (it : AvlIterator α)
    (h : AvlIterator.run s.head.count s.begin = .ok (xs, it)) :
    xs = s.head.preorder ∧ it.isLast = true := by
  by_cases hc : s.head.count = 0
  · have hnil : s.head = .nil := by
      cases hh : s.head with
      | nil => rfl
      | node v b l r => rw [hh] at hc; exact absurd hc (AvlNode.count_pos v b l r)
    rw [hc] at h
    simp only [AvlIterator.run, Outcome.ok.injEq, Prod.mk.injEq] at h
    obtain ⟨rfl, rfl⟩ := h
    simp [hnil, AvlNode.preorder, Avl.begin, AvlIterator.mk1, AvlIterator.isLast]
  · rcases AvlIterator.run_subtree s.head hc (List.replicate MAX_AVL_DEPTH .nil) 0 (by simp)
      with ⟨-, hrun⟩ | ⟨st2, -, -, hrun⟩
    · have := hrun 0
      simp only [Avl.begin, AvlIterator.mk1] at h
      rw [Nat.zero_add, show ((0 : Nat) : Int) = 0 from rfl] at this
      rw [this] at h
      cases h
    · have := hrun 0
      simp only [Avl.begin, AvlIterator.mk1] at h
      rw [Nat.zero_add, show ((0 : Nat) : Int) = 0 from rfl] at this
      rw [this] at h
      simp [AvlIterator.leafExit, Outcome.andThen, AvlIterator.run, AvlIterator.yieldFirst] at h
      obtain ⟨rfl, rfl⟩ := h
      exact ⟨rfl, rfl⟩

theorem Map.assignLoop_runs {K V : Type} (m : Map K V) (xs : List (MapPair K V))
    (it : AvlIterator (MapPair K V))
    (h : AvlIterator.run m.mapAvl.head.count m.begin.avlIter = .ok (xs, it)) :
    it.isLast = true ∧ ∀ p ∈ xs, p ∈ m.mapAvl.head.preorder := by
  unfold Map.begin at h
  split at h
  · simp only [AvlIterator.mk1] at h
    cases hn : m.mapAvl.head.count with
    | zero =>
      rw [hn] at h
      simp only [AvlIterator.run, Outcome.ok.injEq, Prod.mk.injEq] at h
      obtain ⟨rfl, rfl⟩ := h
      exact ⟨rfl, by simp⟩
    | succ n =>
      rw [hn] at h
      simp only [AvlIterator.run, Outcome.ok.injEq, Prod.mk.injEq] at h
      obtain ⟨rfl, rfl⟩ := h
      exact ⟨rfl, by simp⟩
  · obtain ⟨rfl, hlast⟩ := AvlIterator.run_count m.mapAvl xs it h
    exact ⟨hlast, fun p hp => hp⟩

theorem Map.Reachable.full {K V : Type} [Inhabited V] (cmp : K → K → Bool)
    (hc : StrictWeak cmp) (m : Map K V) (hr : Map.Reachable cmp m) :
    m.mapAvl.Inv (PairCompare cmp) ∧ m.Full := by
  have hcp := PairCompare_strictWeak (V := V) cmp hc
  induction hr with
  | empty => exact ⟨Avl.empty_inv _, by simp [Map.Full, Map.empty, Avl.empty, Avl.stored]⟩
  | insert m m2 k v _ hstep ih =>
    obtain ⟨hinv, hfull⟩ := ih
    by_cases hin : ∃ p ∈ m.mapAvl.stored, AvlCompareEquals cmp p.key k = true
    · rw [Map.insert_stored_key cmp hc k v m hinv hin] at hstep
      cases hstep
      refine ⟨Avl.inv_map _ _ (setValue_image_compare cmp k v) _ hinv, ?_⟩
      intro p hp
      simp only [Avl.stored_map] at hp
      obtain ⟨q, hq, rfl⟩ := List.mem_map.1 hp
      obtain ⟨-, h2, h3⟩ := setValue_image cmp k v q
      rw [h2, h3]
      exact hfull q hq
    · have hnot : ∀ p ∈ m.mapAvl.stored, AvlCompareEquals cmp p.key k = false := by
        intro p hp
        by_contra hne
        exact hin ⟨p, hp, by simpa using hne⟩
      have hins := Map.insert_new_key cmp hc k v m m2 hinv hnot hstep
      exact Avl.insert_keeps (PairCompare cmp) hcp.trans
        (fun p => p.noKey = false ∧ p.noValue = false) _ _ _ hinv hfull ⟨rfl, rfl⟩ hins
  | remove m m2 k _ hstep ih =>
    obtain ⟨hinv, hfull⟩ := ih
    simp only [Map.remove, Outcome.andThen_eq_ok] at hstep
    obtain ⟨a, ha, hstep⟩ := hstep
    cases hstep
    obtain ⟨hinv2, hcase⟩ := Avl.remove_spec (PairCompare cmp) _ hcp.trans _ _ hinv ha
    refine ⟨hinv2, ?_⟩
    rcases hcase with ⟨rfl, -⟩ | ⟨pv, -, hperm, -⟩
    · exact hfull
    · intro p hp
      exact hfull p (hperm.mem_iff.1 (by simp [hp]))
  | clear m _ ih =>
    unfold Map.clear
    split
    · refine ⟨Avl.clear_inv _ _ ih.1, ?_⟩
      intro p hp
      unfold Avl.clear at hp
      split at hp
      · exact ih.2 p hp
      · simp [Avl.stored] at hp
    · exact ih
  | assign self m m2 _ _ hstep ihself ihm =>
    simp only [Map.assign, Outcome.andThen_eq_ok] at hstep
    obtain ⟨a, ha, hstep⟩ := hstep
    cases hstep
    obtain ⟨xs, it2, hrun, hall⟩ := Map.assignLoop_eq cmp _ _ _ _ ha
    obtain ⟨-, hxs⟩ := Map.assignLoop_runs m xs it2 hrun
    have hclear : ∀ p ∈ self.mapAvl.clear.stored, p.noKey = false ∧ p.noValue = false := by
      intro p hp
      unfold Avl.clear at hp
      split at hp
      · exact ihself.2 p hp
      · simp [Avl.stored] at hp
    refine Avl.insertAll_keeps (PairCompare cmp) hcp.trans
      (fun p => p.noKey = false ∧ p.noValue = false) xs _ _
      (Avl.clear_inv _ _ ihself.1) hclear ?_ hall
    intro p hp
    exact ihm.2 p ((Avl.preorder_perm_stored _ _ ihm.1).mem_iff.1 (hxs p hp))

theorem Map.lookup_cases {K V : Type} [Inhabited V] (cmp : K → K → Bool)
    (hc : StrictWeak cmp) (m : Map K V) (hinv : m.mapAvl.Inv (PairCompare cmp))
    (hfull : m.Full) (k : K) :
    ((∀ p ∈ m.mapAvl.stored, AvlCompareEquals cmp p.key k = false) ∧
        m.mapAvl.get (PairCompare cmp) (MapPair.mk1 k) = none) ∨
      (∃ p ∈ m.mapAvl.stored, AvlCompareEquals cmp p.key k = true ∧ p.noValue = false ∧
        m.mapAvl.get (PairCompare cmp) (MapPair.mk1 k) = some p ∧
        ∀ q ∈ m.mapAvl.stored, AvlCompareEquals cmp q.key k = true → q = p) := by
  have hcp := PairCompare_strictWeak (V := V) cmp hc
  cases hget : m.mapAvl.get (PairCompare cmp) (MapPair.mk1 k) with
  | none =>
    exact Or.inl ⟨(Avl.get_eq_none_iff (PairCompare cmp) _ hcp.trans _ hinv).1 hget, rfl⟩
  | some p =>
    obtain ⟨hp, hpe⟩ := Avl.get_some _ _ _ _ hget
    refine Or.inr ⟨p, hp, hpe, (hfull p hp).2, rfl, ?_⟩
    intro q hq hqe
    have hqp : AvlCompareEquals (PairCompare cmp) q p = true :=
      hcp.equiv_trans q (MapPair.mk1 k) p hqe (by rw [AvlCompareEquals_comm]; exact hpe)
    exact Avl.stored_unique _ _ hinv hq hp hqp

theorem Map.get_eq_some_iff {K V : Type} [Inhabited V] (cmp : K → K → Bool)
    (hc : StrictWeak cmp) (m : Map K V) (hinv : m.mapAvl.Inv (PairCompare cmp))
    (hfull : m.Full) (k : K) (v : V) :
    m.get cmp k = some v ↔
      ∃ p ∈ m.mapAvl.stored, AvlCompareEquals cmp p.key k = true ∧ p.value = v := by
  unfold Map.get
  rcases Map.lookup_cases cmp hc m hinv hfull k with ⟨hnot, hget⟩ | ⟨p, hp, hpe, hpv, hget, huniq⟩
  · rw [hget]
    constructor
    · intro h; cases h
    · rintro ⟨q, hq, hqe, -⟩
      rw [hnot q hq] at hqe
      cases hqe
  · rw [hget]
    simp only [MapPair.hasValue, hpv, Bool.not_false, Bool.not_true, Bool.false_eq_true,
      if_false, Option.some.injEq]
    constructor
    · intro h; exact ⟨p, hp, hpe, h⟩
    · rintro ⟨q, hq, hqe, rfl⟩
      rw [huniq q hq hqe]

theorem Map.get_none_iff_no_key {K V : Type} [Inhabited V] (cmp : K → K → Bool)
    (hc : StrictWeak cmp) (m : Map K V) (hinv : m.mapAvl.Inv (PairCompare cmp))
    (hfull : m.Full) (k : K) :
    m.get cmp k = none ↔ ∀ p ∈ m.mapAvl.stored, AvlCompareEquals cmp p.key k = false := by
  unfold Map.get
  rcases Map.lookup_cases cmp hc m hinv hfull k with ⟨hnot, hget⟩ | ⟨p, hp, hpe, hpv, hget, -⟩
  · rw [hget]; simp only [true_iff]; exact hnot
  · rw [hget]
    simp only [MapPair.hasValue, hpv, Bool.not_false, Bool.not_true, Bool.false_eq_true,
      if_false]
    constructor
    · intro h; cases h
    · intro h
      rw [h p hp] at hpe
      cases hpe

theorem Map.has_eq_true_iff {K V : Type} [Inhabited V] (cmp : K → K → Bool)
    (hc : StrictWeak cmp) (m : Map K V) (hinv : m.mapAvl.Inv (PairCompare cmp))
    (hfull : m.Full) (k : K) :
    m.has cmp k = true ↔ ∃ p ∈ m.mapAvl.stored, AvlCompareEquals cmp p.key k = true := by
  unfold Map.has
  rcases Map.lookup_cases cmp hc m hinv hfull k with ⟨hnot, hget⟩ | ⟨p, hp, hpe, -, hget, -⟩
  · rw [hget]
    simp only [Bool.false_eq_true, false_iff, not_exists, not_and]
    intro q hq hqe
    rw [hnot q hq] at hqe
    cases hqe
  · rw [hget]
    simp only [true_iff]
    exact ⟨p, hp, hpe⟩

theorem Map.get_congr {K V : Type} [Inhabited V] (cmp : K → K → Bool)
    (hc : StrictWeak cmp) (m m2 : Map K V) (hinv : m.mapAvl.Inv (PairCompare cmp))
    (hfull : m.Full) (hinv2 : m2.mapAvl.Inv (PairCompare cmp)) (hfull2 : m2.Full) (k : K)
    (h : ∀ p, AvlCompareEquals cmp p.key k = true →
      (p ∈ m2.mapAvl.stored ↔ p ∈ m.mapAvl.stored)) :
    m2.get cmp k = m.get cmp k := by
  apply Option.ext
  intro v
  simp only [Option.mem_def]
  rw [Map.get_eq_some_iff cmp hc m hinv hfull, Map.get_eq_some_iff cmp hc m2 hinv2 hfull2]
  constructor
  · rintro ⟨p, hp, hpe, hv⟩
    exact ⟨p, (h p hpe).1 hp, hpe, hv⟩
  · rintro ⟨p, hp, hpe, hv⟩
    exact ⟨p, (h p hpe).2 hp, hpe, hv⟩

theorem AvlNode.map_key_image {K V : Type} (g : MapPair K V → MapPair K V)
    (hg : ∀ p, (g p).key = p.key) (P : AvlNode (MapPair K V)) :
    (P.map g).map MapPair.key = P.map MapPair.key := by
  induction P with
  | nil => rfl
  | node v b l r ihl ihr => simp only [AvlNode.map, ihl, ihr, hg]

theorem equals_other_key {K : Type} (cmp : K → K → Bool) (hc : StrictWeak cmp)
    (k k2 x : K) (hk : AvlCompareEquals cmp k2 k = false)
    (hx : AvlCompareEquals cmp x k2 = true) : AvlCompareEquals cmp x k = false := by
  by_contra hne
  have hxk : AvlCompareEquals cmp x k = true := by simpa using hne
  have := hc.equiv_trans k2 x k (by rw [AvlCompareEquals_comm]; exact hx) hxk
  rw [hk] at this
  cases this

/-! ## Strings under `std::less` -/

theorem charsLess_irrefl (a : List Char) : charsLess a a = false := by
  induction a with
  | nil => rfl
  | cons x xs ih => simp [charsLess, ih]

theorem charsLess_trans (a b c : List Char) (hab : charsLess a b = true)
    (hbc : charsLess b c = true) : charsLess a c = true := by
  induction a generalizing b c with
  | nil =>
    cases b with
    | nil => simp [charsLess] at hab
    | cons y ys =>
      cases c with
      | nil => simp [charsLess] at hbc
      | cons z zs => simp [charsLess]
  | cons x xs ih =>
    cases b with
    | nil => simp [charsLess] at hab
    | cons y ys =>
      cases c with
      | nil => simp [charsLess] at hbc
      | cons z zs =>
        simp only [charsLess] at hab hbc ⊢
        by_cases h1 : x.toNat < y.toNat
        · by_cases h2 : y.toNat < z.toNat
          · have : x.toNat < z.toNat := by omega
            simp [this]
          · simp only [h2, if_false] at hbc
            by_cases h3 : z.toNat < y.toNat
            · simp [h3] at hbc
            · have : x.toNat < z.toNat := by omega
              simp [this]
        · simp only [h1, if_false] at hab
          by_cases h1b : y.toNat < x.toNat
          · simp [h1b] at hab
          · simp only [h1b, if_false] at hab
            by_cases h2 : y.toNat < z.toNat
            · have : x.toNat < z.toNat := by omega
              simp [this]
            · simp only [h2, if_false] at hbc
              by_cases h3 : z.toNat < y.toNat
              · simp [h3] at hbc
              · simp only [h3, if_false] at hbc
                have h4 : ¬ x.toNat < z.toNat := by omega
                have h5 : ¬ z.toNat < x.toNat := by omega
                simp only [h4, h5, if_false]
                exact ih ys zs hab hbc

theorem charsLess_equiv (a b : List Char) :
    (charsLess a b = false ∧ charsLess b a = false) ↔
      a.map Char.toNat = b.map Char.toNat := by
  induction a generalizing b with
  | nil =>
    cases b with
    | nil => simp [charsLess]
    | cons y ys => simp [charsLess]
  | cons x xs ih =>
    cases b with
    | nil => simp [charsLess]
    | cons y ys =>
      simp only [charsLess, List.map_cons, List.cons.injEq]
      by_cases h1 : x.toNat < y.toNat
      · have h2 : ¬ y.toNat < x.toNat := by omega
        have h3 : x.toNat ≠ y.toNat := by omega
        simp [h1, h3]
      · by_cases h2 : y.toNat < x.toNat
        · have h3 : x.toNat ≠ y.toNat := by omega
          simp [h1, h2, h3]
        · have h3 : x.toNat = y.toNat := by omega
          simp only [h3, lt_self_iff_false, if_false, true_and]
          exact ih ys

theorem stringLess_strictWeak : StrictWeak stringLess := by
  refine ⟨fun x => charsLess_irrefl x.data,
    fun x y z => charsLess_trans x.data y.data z.data, ?_⟩
  intro x y z hxy hyz
  rw [AvlCompareEquals_eq_true] at *
  simp only [stringLess] at *
  rw [charsLess_equiv] at *
  exact hxy.trans hyz

/-! ## Concrete maps -/

theorem mapA1_reachable : Map.Reachable stringLess mapA1 :=
  Map.Reachable.insert Map.empty mapA1 "a" 1 Map.Reachable.empty (by decide)

theorem map12_reachable : Map.Reachable natLess map12 :=
  Map.Reachable.insert map1 map12 2 20
    (Map.Reachable.insert Map.empty map1 1 10 Map.Reachable.empty (by decide)) (by decide)

theorem map123_reachable : Map.Reachable natLess map123 :=
  Map.Reachable.insert map12 map123 3 30 map12_reachable (by decide)

/-! ## The claims C14 to C18 -/

/-- C14: in a reachable `Map`, `insert(k, v)` for a key `k` equal (in the
comparator sense) to a stored key completes, and the tree it leaves is the old
one with the value of the one pair whose key is equal to `k` set to `v`: same
shape, same balances, same keys, same `size()`; `get(k)` then refers to `v`. -/
theorem c14_reinsert_overwrites_value {K V : Type} [Inhabited V] (cmp : K → K → Bool)
    (hc : StrictWeak cmp) (m : Map K V) (hr : Map.Reachable cmp m) (k : K) (v : V)
    (hin : ∃ p ∈ m.mapAvl.stored, AvlCompareEquals cmp p.key k = true) :
    ∃ m2, m.insert cmp k v = .ok m2 ∧
      m2.mapAvl.head = m.mapAvl.head.map
        (fun p => if AvlCompareEquals cmp p.key k then p.setValue v else p) ∧
      m2.mapAvl.head.map MapPair.key = m.mapAvl.head.map MapPair.key ∧
      m2.size = m.size ∧ m2.get cmp k = some v ∧
      ∃ p0 ∈ m.mapAvl.stored, AvlCompareEquals cmp p0.key k = true ∧
        ∀ q ∈ m.mapAvl.stored, AvlCompareEquals cmp q.key k = true → q = p0 := by
  obtain ⟨hinv, hfull⟩ := Map.Reachable.full cmp hc m hr
  have hins := Map.insert_stored_key cmp hc k v m hinv hin
  have hr2 := Map.Reachable.insert m _ k v hr hins
  obtain ⟨hinv2, hfull2⟩ := Map.Reachable.full cmp hc _ hr2
  obtain ⟨p, hp, hpe⟩ := hin
  refine ⟨_, hins, rfl, ?_, rfl, ?_, ?_⟩
  · exact AvlNode.map_key_image _ (fun q => (setValue_image cmp k v q).1) _
  · rw [Map.get_eq_some_iff cmp hc _ hinv2 hfull2]
    refine ⟨p.setValue v, ?_, hpe, rfl⟩
    simp only [Avl.stored_map]
    refine List.mem_map.2 ⟨p, hp, ?_⟩
    exact writeImage_of_eq (PairCompare cmp) (MapPair.mk2 k v) _ p hpe
  · rcases Map.lookup_cases cmp hc m hinv hfull k with ⟨hnot, -⟩ | ⟨p0, hp0, hp0e, -, -, huniq⟩
    · rw [hnot p hp] at hpe
      cases hpe
    · exact ⟨p0, hp0, hp0e, huniq⟩

/-- C14 on `Map<string,int>`: `insert("a",1)` then `insert("a",2)` on the empty
map gives `get("a") == 2` and `size() == 1`. -/
theorem c14_witness :
    Map.insert stringLess "a" 1 Map.empty = .ok mapA1 ∧
      Map.insert stringLess "a" 2 mapA1 = .ok mapA2 ∧
      mapA2.get stringLess "a" = some 2 ∧ mapA2.size = 1 ∧
      ∃ m2, mapA1.insert stringLess "a" 2 = .ok m2 ∧
        m2.mapAvl.head = mapA1.mapAvl.head.map
          (fun p => if AvlCompareEquals stringLess p.key "a" then p.setValue 2 else p) ∧
        m2.mapAvl.head.map MapPair.key = mapA1.mapAvl.head.map MapPair.key ∧
        m2.size = mapA1.size ∧ m2.get stringLess "a" = some 2 ∧
        ∃ p0 ∈ mapA1.mapAvl.stored, AvlCompareEquals stringLess p0.key "a" = true ∧
          ∀ q ∈ mapA1.mapAvl.stored, AvlCompareEquals stringLess q.key "a" = true → q = p0 :=
  ⟨by decide, by decide, by decide, by decide,
    c14_reinsert_overwrites_value stringLess stringLess_strictWeak mapA1 mapA1_reachable "a" 2
      ⟨MapPair.mk2 "a" 1, by simp [mapA1, Avl.stored], by decide⟩⟩

/-- C15: in a reachable `Map`, if `insert(k, v)` completes then `get(k)` refers
to `v`, `has(k)` is true, `size()` has grown by one when no stored key was
equal to `k` and is unchanged otherwise, and `get(k2)` is what it was for every
key `k2` not equal to `k`. -/
theorem c15_map_insert {K V : Type} [Inhabited V] (cmp : K → K → Bool)
    (hc : StrictWeak cmp) (m m2 : Map K V) (hr : Map.Reachable cmp m) (k : K) (v : V)
    (hins : m.insert cmp k v = .ok m2) :
    m2.get cmp k = some v ∧ m2.has cmp k = true ∧
      ((∀ p ∈ m.mapAvl.stored, AvlCompareEquals cmp p.key k = false) →
        m2.size = m.size + 1) ∧
      ((∃ p ∈ m.mapAvl.stored, AvlCompareEquals cmp p.key k = true) → m2.size = m.size) ∧
      (∀ k2, AvlCompareEquals cmp k2 k = false → m2.get cmp k2 = m.get cmp k2) := by
  obtain ⟨hinv, hfull⟩ := Map.Reachable.full cmp hc m hr
  obtain ⟨hinv2, hfull2⟩ := Map.Reachable.full cmp hc m2 (Map.Reachable.insert m m2 k v hr hins)
  have hcp := PairCompare_strictWeak (V := V) cmp hc
  by_cases hin : ∃ p ∈ m.mapAvl.stored, AvlCompareEquals cmp p.key k = true
  · have hpres := Map.insert_stored_key cmp hc k v m hinv hin
    rw [hpres] at hins
    cases hins
    obtain ⟨p, hp, hpe⟩ := hin
    have hmem : p.setValue v ∈ Avl.stored (⟨m.mapAvl.head.map
        (writeImage (PairCompare cmp) (MapPair.mk2 k v) (fun p => p.setValue v)),
        m.mapAvl.mySize⟩ : Avl (MapPair K V)) := by
      simp only [Avl.stored_map]
      exact List.mem_map.2 ⟨p, hp, writeImage_of_eq (PairCompare cmp) (MapPair.mk2 k v) _ p hpe⟩
    refine ⟨?_, ?_, ?_, fun _ => rfl, ?_⟩
    · rw [Map.get_eq_some_iff cmp hc _ hinv2 hfull2]
      exact ⟨p.setValue v, hmem, hpe, rfl⟩
    · rw [Map.has_eq_true_iff cmp hc _ hinv2 hfull2]
      exact ⟨p.setValue v, hmem, hpe⟩
    · intro hnot
      rw [hnot p hp] at hpe
      cases hpe
    · intro k2 hk2
      apply Map.get_congr cmp hc m _ hinv hfull hinv2 hfull2 k2
      intro q hq
      have hqk : AvlCompareEquals cmp q.key k = false := equals_other_key cmp hc k k2 q.key hk2 hq
      simp only [Avl.stored_map]
      constructor
      · intro hmem2
        obtain ⟨q0, hq0, hq0e⟩ := List.mem_map.1 hmem2
        have hkey : q.key = q0.key := by rw [← hq0e]; exact (setValue_image cmp k v q0).1
        have : writeImage (PairCompare cmp) (MapPair.mk2 k v) (fun p => p.setValue v) q0 = q0 :=
          writeImage_of_ne _ _ _ _ (by rw [PairCompare_equals, ← hkey]; exact hqk)
        rw [this] at hq0e
        exact hq0e ▸ hq0
      · intro hmem2
        exact List.mem_map.2 ⟨q, hmem2, writeImage_of_ne _ _ _ _ hqk⟩
  · have hnot : ∀ p ∈ m.mapAvl.stored, AvlCompareEquals cmp p.key k = false := by
      intro p hp
      by_contra hne
      exact hin ⟨p, hp, by simpa using hne⟩
    have havl := Map.insert_new_key cmp hc k v m m2 hinv hnot hins
    obtain ⟨-, hsize, hperm⟩ :=
      Avl.insert_absent (PairCompare cmp) (MapPair.mk2 k v) hcp.trans _ _ hinv hnot havl
    have hmem : MapPair.mk2 k v ∈ m2.mapAvl.stored := hperm.mem_iff.2 (by simp)
    refine ⟨?_, ?_, fun _ => hsize, fun h => absurd h hin, ?_⟩
    · rw [Map.get_eq_some_iff cmp hc _ hinv2 hfull2]
      exact ⟨MapPair.mk2 k v, hmem, hc.refl_equals k, rfl⟩
    · rw [Map.has_eq_true_iff cmp hc _ hinv2 hfull2]
      exact ⟨MapPair.mk2 k v, hmem, hc.refl_equals k⟩
    · intro k2 hk2
      apply Map.get_congr cmp hc m _ hinv hfull hinv2 hfull2 k2
      intro q hq
      have hqk : AvlCompareEquals cmp q.key k = false := equals_other_key cmp hc k k2 q.key hk2 hq
      constructor
      · intro hmem2
        rcases List.mem_cons.1 (hperm.mem_iff.1 hmem2) with rfl | h
        · rw [show (MapPair.mk2 k v : MapPair K V).key = k from rfl, hc.refl_equals k] at hqk
          cases hqk
        · exact h
      · intro hmem2
        exact hperm.mem_iff.2 (by simp [hmem2])

/-- C15 at the map holding 1 and 2, for the new key 3. -/
theorem c15_witness :
    map12.insert natLess 3 30 = .ok map123 ∧
      (map123.get natLess 3 = some 30 ∧ map123.has natLess 3 = true ∧
        ((∀ p ∈ map12.mapAvl.stored, AvlCompareEquals natLess p.key 3 = false) →
          map123.size = map12.size + 1) ∧
        ((∃ p ∈ map12.mapAvl.stored, AvlCompareEquals natLess p.key 3 = true) →
          map123.size = map12.size) ∧
        (∀ k2, AvlCompareEquals natLess k2 3 = false →
          map123.get natLess k2 = map12.get natLess k2)) :=
  ⟨by decide,
    c15_map_insert natLess natLess_strictWeak map12 map123 map12_reachable 3 30 (by decide)⟩

/-- C16: in a reachable `Map`, if `remove(k)` completes then `has(k)` is false
and `get(k)` is absent, `get(k2)` is what it was for every key `k2` not equal
to `k`, `size()` has decreased by one when a stored key was equal to `k`, and
the map is what it was when none was. -/
theorem c16_map_remove {K V : Type} [Inhabited V] (cmp : K → K → Bool)
    (hc : StrictWeak cmp) (m m2 : Map K V) (hr : Map.Reachable cmp m) (k : K)
    (hrem : m.remove cmp k = .ok m2) :
    m2.has cmp k = false ∧ m2.get cmp k = none ∧
      (∀ k2, AvlCompareEquals cmp k2 k = false → m2.get cmp k2 = m.get cmp k2) ∧
      ((∃ p ∈ m.mapAvl.stored, AvlCompareEquals cmp p.key k = true) →
        m2.size = m.size - 1) ∧
      ((∀ p ∈ m.mapAvl.stored, AvlCompareEquals cmp p.key k = false) → m2 = m) := by
  obtain ⟨hinv, hfull⟩ := Map.Reachable.full cmp hc m hr
  obtain ⟨hinv2, hfull2⟩ := Map.Reachable.full cmp hc m2 (Map.Reachable.remove m m2 k hr hrem)
  have hcp := PairCompare_strictWeak (V := V) cmp hc
  have hnone : (∀ q ∈ m2.mapAvl.stored, AvlCompareEquals cmp q.key k = false) →
      m2.has cmp k = false ∧ m2.get cmp k = none := by
    intro hno
    refine ⟨?_, (Map.get_none_iff_no_key cmp hc m2 hinv2 hfull2 k).2 hno⟩
    cases hh : m2.has cmp k with
    | false => rfl
    | true =>
      obtain ⟨q, hq, hqe⟩ := (Map.has_eq_true_iff cmp hc m2 hinv2 hfull2 k).1 hh
      rw [hno q hq] at hqe
      cases hqe
  simp only [Map.remove, Outcome.andThen_eq_ok] at hrem
  obtain ⟨a, ha, hrem⟩ := hrem
  cases hrem
  obtain ⟨-, hcase⟩ := Avl.remove_spec (PairCompare cmp) (MapPair.mk1 k) hcp.trans _ _ hinv ha
  rcases hcase with ⟨rfl, hnot⟩ | ⟨pv, hpve, hperm, hsize⟩
  · refine ⟨(hnone hnot).1, (hnone hnot).2, fun _ _ => rfl, ?_, fun _ => rfl⟩
    rintro ⟨p, hp, hpe⟩
    have := hnot p hp
    rw [PairCompare_equals] at this
    rw [show (MapPair.mk1 k : MapPair K V).key = k from rfl, hpe] at this
    cases this
  · have hpvs : pv ∈ m.mapAvl.stored := hperm.mem_iff.1 (by simp)
    have hnodup : (pv :: a.stored).Nodup :=
      hperm.nodup_iff.2 (Avl.stored_nodup (PairCompare cmp) hcp.irrefl _ hinv)
    have hno : ∀ q ∈ a.stored, AvlCompareEquals cmp q.key k = false := by
      intro q hq
      by_contra hne
      have hqe : AvlCompareEquals (PairCompare cmp) q (MapPair.mk1 k) = true := by
        simpa using hne
      have hqs : q ∈ m.mapAvl.stored := hperm.mem_iff.1 (by simp [hq])
      have hqp : AvlCompareEquals (PairCompare cmp) q pv = true :=
        hcp.equiv_trans q (MapPair.mk1 k) pv hqe (by rw [AvlCompareEquals_comm]; exact hpve)
      have := Avl.stored_unique _ _ hinv hqs hpvs hqp
      subst this
      exact (List.nodup_cons.1 hnodup).1 hq
    refine ⟨(hnone hno).1, (hnone hno).2, ?_, fun _ => hsize, ?_⟩
    · intro k2 hk2
      apply Map.get_congr cmp hc m _ hinv hfull hinv2 hfull2 k2
      intro q hq
      have hqk : AvlCompareEquals cmp q.key k = false := equals_other_key cmp hc k k2 q.key hk2 hq
      constructor
      · intro hmem
        exact hperm.mem_iff.1 (by simp [hmem])
      · intro hmem
        rcases List.mem_cons.1 (hperm.mem_iff.2 hmem) with rfl | h
        · rw [PairCompare_equals] at hpve
          rw [show (MapPair.mk1 k : MapPair K V).key = k from rfl, hqk] at hpve
          cases hpve
        · exact h
    · intro hnot
      have := hnot pv hpvs
      rw [PairCompare_equals] at hpve
      rw [show (MapPair.mk1 k : MapPair K V).key = k from rfl, this] at hpve
      cases hpve

/-- C16 at the map holding 1, 2 and 3, for the stored key 2. -/
theorem c16_witness :
    map123.remove natLess 2 = .ok map13 ∧
      (map13.has natLess 2 = false ∧ map13.get natLess 2 = none ∧
        (∀ k2, AvlCompareEquals natLess k2 2 = false →
          map13.get natLess k2 = map123.get natLess k2) ∧
        ((∃ p ∈ map123.mapAvl.stored, AvlCompareEquals natLess p.key 2 = true) →
          map13.size = map123.size - 1) ∧
        ((∀ p ∈ map123.mapAvl.stored, AvlCompareEquals natLess p.key 2 = false) →
          map13 = map123)) :=
  ⟨by decide,
    c16_map_remove natLess natLess_strictWeak map123 map13 map123_reachable 2 (by decide)⟩

/-- C17: in a reachable `Map`, `operator[](k)` throws (`AvlException`) exactly
when no stored key is equal to `k`, which is exactly when `has(k)` is false
and exactly when `get(k)` is absent; otherwise it returns the stored value
that `get(k)` refers to.  It never throws `MapException`. -/
theorem c17_index_throws_iff_absent {K V : Type} [Inhabited V] (cmp : K → K → Bool)
    (hc : StrictWeak cmp) (m : Map K V) (hr : Map.Reachable cmp m) (k : K) :
    (m.index cmp k = .avlException ↔
        ∀ p ∈ m.mapAvl.stored, AvlCompareEquals cmp p.key k = false) ∧
      (m.index cmp k = .avlException ↔ m.has cmp k = false) ∧
      (m.index cmp k = .avlException ↔ m.get cmp k = none) ∧
      (∀ v, m.index cmp k = .returns v ↔ m.get cmp k = some v) ∧
      m.index cmp k ≠ .mapException := by
  obtain ⟨hinv, hfull⟩ := Map.Reachable.full cmp hc m hr
  unfold Map.index Map.has Map.get
  rcases Map.lookup_cases cmp hc m hinv hfull k with ⟨hnot, hget⟩ | ⟨p, hp, hpe, hpv, hget, -⟩
  · rw [hget]
    dsimp only
    refine ⟨⟨fun _ => hnot, fun _ => rfl⟩, ⟨fun _ => rfl, fun _ => rfl⟩,
      ⟨fun _ => rfl, fun _ => rfl⟩, ?_, ?_⟩
    · intro v
      constructor <;> intro h <;> cases h
    · intro h; cases h
  · rw [hget]
    simp only [MapPair.hasValue, MapPair.getValue, hpv, Bool.not_false, Bool.not_true,
      Bool.false_eq_true, if_false]
    refine ⟨?_, ?_, ?_, ?_, ?_⟩
    · constructor
      · intro h; cases h
      · intro h
        rw [h p hp] at hpe
        cases hpe
    · constructor <;> intro h <;> cases h
    · constructor <;> intro h <;> cases h
    · intro v
      constructor
      · intro h; cases h; rfl
      · intro h; cases h; rfl
    · intro h; cases h

/-- C17 at the map holding 1 and 2, for the stored key 2. -/
theorem c17_witness :
    map12.index natLess 2 = .returns 20 ∧
      ((map12.index natLess 2 = .avlException ↔
          ∀ p ∈ map12.mapAvl.stored, AvlCompareEquals natLess p.key 2 = false) ∧
        (map12.index natLess 2 = .avlException ↔ map12.has natLess 2 = false) ∧
        (map12.index natLess 2 = .avlException ↔ map12.get natLess 2 = none) ∧
        (∀ v, map12.index natLess 2 = .returns v ↔ map12.get natLess 2 = some v) ∧
        map12.index natLess 2 ≠ .mapException) :=
  ⟨by decide, c17_index_throws_iff_absent natLess natLess_strictWeak map12 map12_reachable 2⟩

/-- C18: in every `Map` state reached from the empty map by completed
`insert`, `remove`, `clear` and `operator=` calls, every stored pair has its key
and its value (`hasKey()` and `hasValue()` true), hence so has every pair
yielded by a traversal from `begin()` to `isLast()`; no key-only pair
`MapPair(k)` is stored. -/
theorem c18_stored_pairs_are_full {K V : Type} [Inhabited V] (cmp : K → K → Bool)
    (hc : StrictWeak cmp) (m : Map K V) (hr : Map.Reachable cmp m) :
    (∀ p ∈ m.mapAvl.stored, p.hasKey = true ∧ p.hasValue = true) ∧
      (∀ fuel xs it, AvlIterator.run fuel m.begin.avlIter = .ok (xs, it) → it.isLast = true →
        ∀ p ∈ xs, p.hasKey = true ∧ p.hasValue = true) ∧
      (∀ k : K, (MapPair.mk1 k : MapPair K V) ∉ m.mapAvl.stored) := by
  obtain ⟨hinv, hfull⟩ := Map.Reachable.full cmp hc m hr
  have hst : ∀ p ∈ m.mapAvl.stored, p.hasKey = true ∧ p.hasValue = true := by
    intro p hp
    obtain ⟨h1, h2⟩ := hfull p hp
    simp [MapPair.hasKey, MapPair.hasValue, h1, h2]
  refine ⟨hst, ?_, ?_⟩
  · intro fuel xs it hrun hlast p hp
    unfold Map.begin at hrun
    split at hrun
    · have hxs : xs = [] := by
        cases fuel <;> simp [AvlIterator.run, AvlIterator.mk1] at hrun <;> exact hrun.1
      rw [hxs] at hp
      cases hp
    · rw [AvlIterator.run_begin_sound m.mapAvl fuel xs it hrun hlast] at hp
      exact hst p ((Avl.preorder_perm_stored _ _ hinv).mem_iff.1 hp)
  · intro k hk
    have := (hfull _ hk).2
    simp [MapPair.mk1] at this

/-- C18 at the map obtained by assigning the map holding 1 and 2 to an empty
map. -/
theorem c18_witness :
    Map.assign natLess map12 Map.empty = .ok map12 ∧
      ((∀ p ∈ map12.mapAvl.stored, p.hasKey = true ∧ p.hasValue = true) ∧
        (∀ fuel xs it, AvlIterator.run fuel map12.begin.avlIter = .ok (xs, it) →
          it.isLast = true → ∀ p ∈ xs, p.hasKey = true ∧ p.hasValue = true) ∧
        (∀ k : Nat, (MapPair.mk1 k : MapPair Nat Nat) ∉ map12.mapAvl.stored)) :=
  ⟨by decide,
    c18_stored_pairs_are_full natLess natLess_strictWeak map12
      (Map.Reachable.assign Map.empty map12 map12 Map.Reachable.empty map12_reachable
        (by decide))⟩

/-! ## The balance condition along a stack of frames, and `insert` -/

theorem AvlNode.balanced_node {α : Type} (v : α) (b : Int) (l r : AvlNode α) :
    (AvlNode.node v b l r).balanced = true ↔
      b = (r.height : Int) - (l.height : Int) ∧ -1 ≤ b ∧ b ≤ 1 ∧
        l.balanced = true ∧ r.balanced = true := by
  simp [AvlNode.balanced, and_assoc]

theorem AvlNode.height_node {α : Type} (v : α) (b : Int) (l r : AvlNode α) :
    (AvlNode.node v b l r).height = max l.height r.height + 1 := rfl

theorem Frame.height_attach {α : Type} (f : Frame α) (c : AvlNode α) :
    (f.attach c).height = max c.height f.other.height + 1 := by
  unfold Frame.attach
  split <;> simp [AvlNode.height, max_comm]

theorem Frame.balanced_attach {α : Type} (f : Frame α) (c : AvlNode α)
    (hf : f.fits c.height) (hc : c.balanced = true) : (f.attach c).balanced = true := by
  obtain ⟨ho, h1, h2, h3⟩ := hf
  unfold Frame.attach
  rcases h3 with ⟨ha, hb⟩ | ⟨ha, hb⟩
  · rw [if_pos ha, AvlNode.balanced_node]
    exact ⟨hb, h1, h2, ho, hc⟩
  · have hne : ¬ f.a = 1 := by omega
    rw [if_neg hne, AvlNode.balanced_node]
    exact ⟨hb, h1, h2, hc, ho⟩

theorem rebuild_height {α : Type} (fs : List (Frame α)) (c : AvlNode α) :
    (rebuild c fs).height = chainHeight fs c.height := by
  induction fs generalizing c with
  | nil => rfl
  | cons f fs ih => simp only [rebuild, chainHeight, ih, Frame.height_attach]

theorem rebuild_balanced {α : Type} (fs : List (Frame α)) (c : AvlNode α)
    (hc : c.balanced = true) (hfit : chainFits fs c.height) :
    (rebuild c fs).balanced = true := by
  induction fs generalizing c with
  | nil => exact hc
  | cons f fs ih =>
    obtain ⟨h1, h2⟩ := hfit
    simp only [rebuild]
    apply ih _ (Frame.balanced_attach f c h1 hc)
    rw [Frame.height_attach]
    exact h2

theorem chainHeight_append {α : Type} (fs gs : List (Frame α)) (h : Nat) :
    chainHeight (fs ++ gs) h = chainHeight gs (chainHeight fs h) := by
  induction fs generalizing h with
  | nil => rfl
  | cons f fs ih => exact ih _

theorem chainFits_append {α : Type} (fs gs : List (Frame α)) (h : Nat) :
    chainFits (fs ++ gs) h ↔ chainFits fs h ∧ chainFits gs (chainHeight fs h) := by
  induction fs generalizing h with
  | nil => simp [chainFits, chainHeight]
  | cons f fs ih =>
    show f.fits h ∧ chainFits (fs ++ gs) _ ↔ (f.fits h ∧ chainFits fs _) ∧ chainFits gs (chainHeight fs _)
    rw [ih, and_assoc]

theorem AvlNode.height_eq_zero {α : Type} (c : AvlNode α) (h : c.height = 0) : c = .nil := by
  cases c with
  | nil => rfl
  | node v b l r => simp [AvlNode.height] at h

theorem insertA7_balanced_left {α : Type} (compare : α → α → Bool) (t : α)
    (sv : α) (sb : Int) (so c0 c : AvlNode α)
    (hcmp : compare t sv = true)
    (hfit : (Frame.goLeft sv sb so).fits c0.height) (hc : c.balanced = true)
    (hh : c.height = c0.height + 1) (hnz : c.bal ≠ 0 ∨ c0.height = 0) :
    ∃ p, insertA7 compare t (.node sv sb c so) = .ok p ∧ p.balanced = true ∧
      p.height = (max c0.height so.height + 1) + (if sb = 0 then 1 else 0) := by
  obtain ⟨ho, h1, h2, h3⟩ := hfit
  simp only [Frame.goLeft] at ho h1 h2 h3
  have hb : sb = (so.height : Int) - (c0.height : Int) := by
    rcases h3 with ⟨ha, _⟩ | ⟨_, hb⟩
    · omega
    · exact hb
  simp only [insertA7, hcmp, if_true]
  by_cases hs0 : sb = 0
  · refine ⟨_, by rw [if_pos hs0], ?_, ?_⟩
    · rw [AvlNode.balanced_node]; exact ⟨by omega, by omega, by omega, hc, ho⟩
    · rw [AvlNode.height_node, if_pos hs0]; omega
  by_cases hs1 : sb = 1
  · refine ⟨_, by rw [if_neg hs0, if_pos (by omega)], ?_, ?_⟩
    · rw [AvlNode.balanced_node]; exact ⟨by omega, by omega, by omega, hc, ho⟩
    · rw [AvlNode.height_node, if_neg hs0]; omega
  have hsm : sb = -1 := by omega
  rw [if_neg hs0, if_neg (by omega), if_neg (by omega)]
  cases c with
  | nil => simp [AvlNode.height] at hh
  | node rv rb rl rr =>
    rw [AvlNode.balanced_node] at hc
    obtain ⟨hrb, hr1, hr2, hrl, hrr⟩ := hc
    rw [AvlNode.height_node] at hh
    have hrb0 : rb ≠ 0 := by
      rcases hnz with h | h
      · exact h
      · omega
    by_cases hrm : rb = -1
    · refine ⟨.node rv 0 rl (.node sv 0 rr so), by simp [hrm], ?_, ?_⟩
      · simp only [AvlNode.balanced_node, AvlNode.height_node]
        exact ⟨by omega, by omega, by omega, hrl, by omega, by omega, by omega, hrr, ho⟩
      · simp only [AvlNode.height_node, if_neg hs0]; omega
    have hrp : rb = 1 := by omega
    cases rr with
    | nil => simp [AvlNode.height] at hrb; omega
    | node pv pb pl pr =>
      rw [AvlNode.balanced_node] at hrr
      obtain ⟨hpb, hp1, hp2, hpl, hpr⟩ := hrr
      rw [AvlNode.height_node] at hrb hh
      by_cases hpm : pb = -1
      · refine ⟨.node pv 0 (.node rv 0 rl pl) (.node sv 1 pr so), by
          simp [hrp, hpm, insertA9Balances, Outcome.andThen], ?_, ?_⟩
        · simp only [AvlNode.balanced_node, AvlNode.height_node]
          exact ⟨by omega, by omega, by omega, ⟨by omega, by omega, by omega, hrl, hpl⟩,
            by omega, by omega, by omega, hpr, ho⟩
        · simp only [AvlNode.height_node, if_neg hs0]; omega
      by_cases hp0 : pb = 0
      · refine ⟨.node pv 0 (.node rv 0 rl pl) (.node sv 0 pr so), by
          simp [hrp, hp0, insertA9Balances, Outcome.andThen], ?_, ?_⟩
        · simp only [AvlNode.balanced_node, AvlNode.height_node]
          exact ⟨by omega, by omega, by omega, ⟨by omega, by omega, by omega, hrl, hpl⟩,
            by omega, by omega, by omega, hpr, ho⟩
        · simp only [AvlNode.height_node, if_neg hs0]; omega
      have hpp : pb = 1 := by omega
      refine ⟨.node pv 0 (.node rv (-1) rl pl) (.node sv 0 pr so), by
        simp [hrp, hpp, insertA9Balances, Outcome.andThen], ?_, ?_⟩
      · simp only [AvlNode.balanced_node, AvlNode.height_node]
        exact ⟨by omega, by omega, by omega, ⟨by omega, by omega, by omega, hrl, hpl⟩,
          by omega, by omega, by omega, hpr, ho⟩
      · simp only [AvlNode.height_node, if_neg hs0]; omega

theorem insertA7_balanced_right {α : Type} (compare : α → α → Bool) (t : α)
    (sv : α) (sb : Int) (so c0 c : AvlNode α)
    (hcmp : compare t sv = false)
    (hfit : (Frame.goRight sv sb so).fits c0.height) (hc : c.balanced = true)
    (hh : c.height = c0.height + 1) (hnz : c.bal ≠ 0 ∨ c0.height = 0) :
    ∃ p, insertA7 compare t (.node sv sb so c) = .ok p ∧ p.balanced = true ∧
      p.height = (max c0.height so.height + 1) + (if sb = 0 then 1 else 0) := by
  obtain ⟨ho, h1, h2, h3⟩ := hfit
  simp only [Frame.goRight] at ho h1 h2 h3
  have hb : sb = (c0.height : Int) - (so.height : Int) := by
    rcases h3 with ⟨_, hb⟩ | ⟨ha, _⟩
    · exact hb
    · omega
  simp only [insertA7, hcmp, Bool.false_eq_true, if_false]
  by_cases hs0 : sb = 0
  · refine ⟨_, by rw [if_pos hs0], ?_, ?_⟩
    · rw [AvlNode.balanced_node]; exact ⟨by omega, by omega, by omega, ho, hc⟩
    · rw [AvlNode.height_node, if_pos hs0]; omega
  by_cases hs1 : sb = -1
  · refine ⟨_, by rw [if_neg hs0, if_pos hs1], ?_, ?_⟩
    · rw [AvlNode.balanced_node]; exact ⟨by omega, by omega, by omega, ho, hc⟩
    · rw [AvlNode.height_node, if_neg hs0]; omega
  have hsm : sb = 1 := by omega
  rw [if_neg hs0, if_neg hs1, if_neg (by omega)]
  cases c with
  | nil => simp [AvlNode.height] at hh
  | node rv rb rl rr =>
    rw [AvlNode.balanced_node] at hc
    obtain ⟨hrb, hr1, hr2, hrl, hrr⟩ := hc
    rw [AvlNode.height_node] at hh
    have hrb0 : rb ≠ 0 := by
      rcases hnz with h | h
      · exact h
      · omega
    by_cases hrp : rb = 1
    · refine ⟨.node rv 0 (.node sv 0 so rl) rr, by simp [hrp], ?_, ?_⟩
      · simp only [AvlNode.balanced_node, AvlNode.height_node]
        exact ⟨by omega, by omega, by omega, ⟨by omega, by omega, by omega, ho, hrl⟩, hrr⟩
      · simp only [AvlNode.height_node, if_neg hs0]; omega
    have hrm : rb = -1 := by omega
    cases rl with
    | nil => simp [AvlNode.height] at hrb; omega
    | node pv pb pl pr =>
      rw [AvlNode.balanced_node] at hrl
      obtain ⟨hpb, hp1, hp2, hpl, hpr⟩ := hrl
      rw [AvlNode.height_node] at hrb hh
      by_cases hpp : pb = 1
      · refine ⟨.node pv 0 (.node sv (-1) so pl) (.node rv 0 pr rr), by
          simp [hrm, hpp, insertA9Balances, Outcome.andThen], ?_, ?_⟩
        · simp only [AvlNode.balanced_node, AvlNode.height_node]
          exact ⟨by omega, by omega, by omega, ⟨by omega, by omega, by omega, ho, hpl⟩,
            by omega, by omega, by omega, hpr, hrr⟩
        · simp only [AvlNode.height_node, if_neg hs0]; omega
      by_cases hp0 : pb = 0
      · refine ⟨.node pv 0 (.node sv 0 so pl) (.node rv 0 pr rr), by
          simp [hrm, hp0, insertA9Balances, Outcome.andThen], ?_, ?_⟩
        · simp only [AvlNode.balanced_node, AvlNode.height_node]
          exact ⟨by omega, by omega, by omega, ⟨by omega, by omega, by omega, ho, hpl⟩,
            by omega, by omega, by omega, hpr, hrr⟩
        · simp only [AvlNode.height_node, if_neg hs0]; omega
      have hpm : pb = -1 := by omega
      refine ⟨.node pv 0 (.node sv 0 so pl) (.node rv 1 pr rr), by
        simp [hrm, hpm, insertA9Balances, Outcome.andThen], ?_, ?_⟩
      · simp only [AvlNode.balanced_node, AvlNode.height_node]
        exact ⟨by omega, by omega, by omega, ⟨by omega, by omega, by omega, ho, hpl⟩,
          by omega, by omega, by omega, hpr, hrr⟩
      · simp only [AvlNode.height_node, if_neg hs0]; omega

theorem insertA7_balanced {α : Type} (compare : α → α → Bool) (t : α) (s : Frame α)
    (c0 c : AvlNode α) (hfol : s.follows compare t) (hfit : s.fits c0.height)
    (hc : c.balanced = true) (hh : c.height = c0.height + 1)
    (hnz : c.bal ≠ 0 ∨ c0.height = 0) :
    ∃ p, insertA7 compare t (s.attach c) = .ok p ∧ p.balanced = true ∧
      p.height = chainHeight [s] c0.height + (if s.balance = 0 then 1 else 0) := by
  obtain ⟨sa, sv, sb, so⟩ := s
  rcases hfol with ⟨ha, hcmp⟩ | ⟨ha, hcmp, _⟩
  · simp only at ha hcmp
    subst ha
    exact insertA7_balanced_left compare t sv sb so c0 c hcmp hfit hc hh hnz
  · simp only at ha hcmp
    subst ha
    exact insertA7_balanced_right compare t sv sb so c0 c hcmp hfit hc hh hnz

theorem insertA6_balanced {α : Type} (compare : α → α → Bool) (t : α) (f : Frame α)
    (c0 c : AvlNode α) (hfol : f.follows compare t) (hfit : f.fits c0.height)
    (hz : f.balance = 0) (hc : c.balanced = true) (hh : c.height = c0.height + 1) :
    ∃ n, insertA6 compare t f c = .ok n ∧ n.balanced = true ∧
      n.height = (f.attach c0).height + 1 ∧ n.bal ≠ 0 := by
  obtain ⟨sa, sv, sb, so⟩ := f
  obtain ⟨ho, h1, h2, h3⟩ := hfit
  simp only at hz ho h1 h2 h3
  subst hz
  rcases hfol with ⟨ha, hcmp⟩ | ⟨ha, hcmp, hcmp2⟩
  · simp only at ha hcmp
    subst ha
    refine ⟨.node sv (-1) c so, by simp [insertA6, hcmp, Frame.attach], ?_, ?_, ?_⟩
    · rw [AvlNode.balanced_node]; exact ⟨by omega, by omega, by omega, hc, ho⟩
    · simp only [Frame.attach, AvlNode.height_node]
      rw [if_neg (by decide)]
      simp only [AvlNode.height_node]; omega
    · simp [AvlNode.bal]
  · simp only at ha hcmp hcmp2
    subst ha
    refine ⟨.node sv 1 so c, by simp [insertA6, hcmp, hcmp2, Frame.attach], ?_, ?_, ?_⟩
    · rw [AvlNode.balanced_node]; exact ⟨by omega, by omega, by omega, ho, hc⟩
    · simp only [Frame.attach, AvlNode.height_node, if_true]
      omega
    · simp [AvlNode.bal]

theorem insertAdjust_balanced {α : Type} (compare : α → α → Bool) (t : α)
    (below : List (Frame α)) :
    ∀ (c0 c : AvlNode α) (sb : Int), below ≠ [] → pathBalance 0 below = some sb →
      (∀ f ∈ below, f.follows compare t) → chainFits below c0.height →
      c.balanced = true → c.height = c0.height + 1 → (c.bal ≠ 0 ∨ c0.height = 0) →
      ∃ p, insertAdjust compare t c below = .ok p ∧ p.balanced = true ∧
        p.height = chainHeight below c0.height + (if sb = 0 then 1 else 0) := by
  induction below with
  | nil => intro _ _ _ h; exact absurd rfl h
  | cons f rest ih =>
    intro c0 c sb _ hpb hfol hfit hc hh hnz
    cases rest with
    | nil =>
      simp only [pathBalance, if_true, Option.some.injEq] at hpb
      subst hpb
      exact insertA7_balanced compare t f c0 c (hfol f (List.mem_cons_self _ _)) hfit.1 hc hh hnz
    | cons g fs =>
      simp only [pathBalance, if_true] at hpb
      by_cases hz : f.balance = 0
      · rw [if_pos hz] at hpb
        obtain ⟨n, hn, hnb, hnh, hnbal⟩ :=
          insertA6_balanced compare t f c0 c (hfol f (List.mem_cons_self _ _)) hfit.1 hz hc hh
        have hfit2 : chainFits (g :: fs) (f.attach c0).height := by
          rw [Frame.height_attach]; exact hfit.2
        have hpb2 : pathBalance 0 (g :: fs) = some sb := by
          simp only [pathBalance, if_true]; exact hpb
        obtain ⟨p, hp, hpbal, hph⟩ := ih (f.attach c0) n sb (List.cons_ne_nil _ _) hpb2
          (fun x hx => hfol x (List.mem_cons_of_mem _ hx)) hfit2 hnb hnh (Or.inl hnbal)
        refine ⟨p, ?_, hpbal, ?_⟩
        · show (insertA6 compare t f c).andThen _ = _
          rw [hn]; exact hp
        · rw [hph, Frame.height_attach]; rfl
      · rw [if_neg hz] at hpb
        cases hpb

theorem insertLoop_eq_walk {α : Type} (compare : α → α → Bool) (t : α) (P : AvlNode α) :
    ∀ below above : List (Frame α),
      insertLoop compare t P below above =
        (insertWalk compare t P below above).andThen fun w =>
          match w with
          | none => .ok none
          | some (fb, fa) => insertFinish compare t fb fa := by
  induction P with
  | nil => intro below above; rfl
  | node v b l r ihl ihr =>
    intro below above
    unfold insertLoop insertWalk
    by_cases he : AvlCompareEquals compare v t = true
    · simp only [he, if_true]; rfl
    · simp only [he, Bool.false_eq_true, if_false]
      by_cases hc : compare t v = true
      · simp only [hc, if_true]
        cases l with
        | nil => rfl
        | node qv qb ql qr =>
          by_cases hq : qb = 0
          · subst hq
            simp only [ne_eq, not_true_eq_false, if_false]
            exact ihl _ _
          · simp only [hq, ne_eq, not_false_eq_true, if_true]
            exact ihl _ _
      · simp only [hc, Bool.false_eq_true, if_false]
        cases r with
        | nil => rfl
        | node qv qb ql qr =>
          by_cases hq : qb = 0
          · subst hq
            simp only [ne_eq, not_true_eq_false, if_false]
            exact ihr _ _
          · simp only [hq, ne_eq, not_false_eq_true, if_true]
            exact ihr _ _

theorem insertWalk_spec {α : Type} (compare : α → α → Bool) (t : α) (P : AvlNode α) :
    ∀ (below above : List (Frame α)) (hf : Frame α) (sb : Int),
      P.balanced = true → chainFits (below ++ above) P.height →
      (∀ f ∈ below, f.follows compare t) →
      pathBalance P.bal below = some sb → (sb ≠ 0 ∨ above = []) → P ≠ .nil →
      insertWalk compare t P below (above ++ [hf]) = .ok none ∨
      ∃ fb fa sb2, insertWalk compare t P below (above ++ [hf]) = .ok (some (fb, fa ++ [hf])) ∧
        fb ≠ [] ∧ pathBalance 0 fb = some sb2 ∧ (sb2 ≠ 0 ∨ fa = []) ∧
        (∀ f ∈ fb, f.follows compare t) ∧ chainFits (fb ++ fa) 0 ∧
        rebuild .nil (fb ++ fa) = rebuild P (below ++ above) := by
  induction P with
  | nil => intro _ _ _ _ _ _ _ _ _ h; exact absurd rfl h
  | node v b l r ihl ihr =>
    intro below above hf sb hbal hfit hfol hpb hsb _
    rw [AvlNode.balanced_node] at hbal
    obtain ⟨hb, hb1, hb2, hlb, hrb⟩ := hbal
    rw [AvlNode.height_node] at hfit
    simp only [AvlNode.bal] at hpb
    unfold insertWalk
    by_cases he : AvlCompareEquals compare v t = true
    · left; simp only [he, if_true]
    · simp only [he, Bool.false_eq_true, if_false]
      by_cases hc : compare t v = true
      · simp only [hc, if_true]
        have hfolF : ∀ f ∈ Frame.goLeft v b r :: below, f.follows compare t := by
          intro f hfm
          rcases List.mem_cons.1 hfm with h | h
          · subst h; exact Or.inl ⟨rfl, hc⟩
          · exact hfol f h
        have hpbF : pathBalance 0 (Frame.goLeft v b r :: below) = some sb := by
          simp only [pathBalance, if_true, Frame.goLeft]; exact hpb
        have hfitF : chainFits (Frame.goLeft v b r :: below ++ above) l.height :=
          ⟨⟨hrb, hb1, hb2, Or.inr ⟨rfl, hb⟩⟩, hfit⟩
        cases l with
        | nil =>
          right
          exact ⟨Frame.goLeft v b r :: below, above, sb, rfl, List.cons_ne_nil _ _, hpbF, hsb,
            hfolF, hfitF, rfl⟩
        | node qv qb ql qr =>
          by_cases hq : qb = 0
          · subst hq
            simp only [ne_eq, not_true_eq_false, if_false]
            exact ihl (Frame.goLeft v b r :: below) above hf sb hlb hfitF hfolF hpbF hsb
              (by simp)
          · simp only [ne_eq, hq, not_false_eq_true, if_true]
            have := ihl [] (Frame.goLeft v b r :: below ++ above) hf qb hlb hfitF
              (by simp) rfl (Or.inl hq) (by simp)
            simp only [List.cons_append, List.append_assoc, List.nil_append] at this ⊢
            exact this
      · simp only [hc, Bool.false_eq_true, if_false]
        have hc2 : compare v t = true := by
          simp only [AvlCompareEquals, Bool.and_eq_true, Bool.not_eq_true'] at he
          cases h1 : compare v t with
          | true => rfl
          | false => exact absurd ⟨h1, by simpa using hc⟩ he
        have hfolF : ∀ f ∈ Frame.goRight v b l :: below, f.follows compare t := by
          intro f hfm
          rcases List.mem_cons.1 hfm with h | h
          · subst h; exact Or.inr ⟨rfl, by simpa using hc, hc2⟩
          · exact hfol f h
        have hpbF : pathBalance 0 (Frame.goRight v b l :: below) = some sb := by
          simp only [pathBalance, if_true, Frame.goRight]; exact hpb
        have hfitF : chainFits (Frame.goRight v b l :: below ++ above) r.height := by
          refine ⟨⟨hlb, hb1, hb2, Or.inl ⟨rfl, hb⟩⟩, ?_⟩
          rw [max_comm]; exact hfit
        cases r with
        | nil =>
          right
          exact ⟨Frame.goRight v b l :: below, above, sb, rfl, List.cons_ne_nil _ _, hpbF, hsb,
            hfolF, hfitF, rfl⟩
        | node qv qb ql qr =>
          by_cases hq : qb = 0
          · subst hq
            simp only [ne_eq, not_true_eq_false, if_false]
            exact ihr (Frame.goRight v b l :: below) above hf sb hrb hfitF hfolF hpbF hsb
              (by simp)
          · simp only [ne_eq, hq, not_false_eq_true, if_true]
            have := ihr [] (Frame.goRight v b l :: below ++ above) hf qb hrb hfitF
              (by simp) rfl (Or.inl hq) (by simp)
            simp only [List.cons_append, List.append_assoc, List.nil_append] at this ⊢
            exact this

theorem insertFinish_balanced {α : Type} (compare : α → α → Bool) (t : α)
    (fb fa : List (Frame α)) (sb : Int) (hne : fb ≠ [])
    (hpb : pathBalance 0 fb = some sb) (hsb : sb ≠ 0 ∨ fa = [])
    (hfol : ∀ f ∈ fb, f.follows compare t) (hfit : chainFits (fb ++ fa) 0) :
    ∃ p, insertAdjust compare t (AvlNode.mk1 t) fb = .ok p ∧ p.balanced = true ∧
      p.height = (rebuild .nil fb).height + (if sb = 0 then 1 else 0) ∧
      (rebuild p fa).balanced = true ∧
      (sb ≠ 0 → (rebuild p fa).height = (rebuild .nil (fb ++ fa)).height) := by
  rw [chainFits_append] at hfit
  obtain ⟨p, hp, hpbal, hph⟩ := insertAdjust_balanced compare t fb .nil (AvlNode.mk1 t) sb hne
    hpb hfol hfit.1 (by simp [AvlNode.mk1, AvlNode.balanced, AvlNode.height]) rfl (Or.inr rfl)
  have hnil : (AvlNode.nil : AvlNode α).height = 0 := rfl
  rw [hnil] at hph
  refine ⟨p, hp, hpbal, by rw [rebuild_height]; exact hph, ?_, ?_⟩
  · rcases hsb with h | h
    · apply rebuild_balanced fa p hpbal
      rw [hph, if_neg h, Nat.add_zero]
      exact hfit.2
    · subst h; exact hpbal
  · intro h
    rw [rebuild_height, rebuild_height, chainHeight_append, hph, if_neg h, Nat.add_zero]
    rfl

theorem Avl.insert_balanced {α : Type} (compare : α → α → Bool) (t : α)
    (htrans : ∀ x y z, compare x y = true → compare y z = true → compare x z = true)
    (s : Avl α) (hs : Sorted compare s.root.inorder) (hbal : s.root.balanced = true) :
    ∃ s2, s.insert compare t = .ok s2 ∧ Sorted compare s2.root.inorder ∧
      s2.root.balanced = true := by
  obtain ⟨head, n⟩ := s
  unfold Avl.insert
  cases head with
  | nil => exact ⟨_, rfl, by simp [Avl.root, AvlNode.mk1, AvlNode.inorder, Sorted], rfl⟩
  | node hv hb hl root =>
    simp only [Avl.root] at hs hbal
    simp only
    by_cases he : AvlCompareEquals compare hv t = true
    · exact ⟨⟨.node hv hb hl root, n⟩, by rw [if_pos he], hs, hbal⟩
    rw [if_neg he]
    cases root with
    | nil =>
      exact ⟨_, rfl, by simp [Avl.root, AvlNode.mk1, AvlNode.inorder, Sorted],
        by simp [Avl.root, AvlNode.mk1, AvlNode.balanced, AvlNode.height]⟩
    | node rv rb rl rr =>
      simp only
      have hattach : ∀ p, (Frame.goRight hv hb hl).attach p = .node hv hb hl p := by
        intro p; simp [Frame.attach, Frame.goRight]
      rcases insertWalk_spec compare t (.node rv rb rl rr) [] [] (Frame.goRight hv hb hl) rb
        hbal trivial (by simp) rfl (Or.inr rfl) (by simp) with hw | ⟨fb, fa, sb, hw, hne, hpb, hsb, hfol, hfit, _⟩
      · rw [insertLoop_eq_walk]
        simp only [List.nil_append] at hw
        rw [hw]
        exact ⟨⟨.node hv hb hl (.node rv rb rl rr), n⟩, rfl, hs, hbal⟩
      · obtain ⟨p, hp, _, _, hpb2, _⟩ :=
          insertFinish_balanced compare t fb fa sb hne hpb hsb hfol hfit
        have hloop : insertLoop compare t (.node rv rb rl rr) [] [Frame.goRight hv hb hl]
            = .ok (some (.node hv hb hl (rebuild p fa))) := by
          rw [insertLoop_eq_walk]
          simp only [List.nil_append] at hw
          rw [hw]
          simp only [Outcome.andThen, insertFinish, hp]
          rw [rebuild_snoc, hattach]
        rw [hloop]
        refine ⟨_, rfl, ?_, hpb2⟩
        obtain ⟨q, L, R, hq, hLR, hL, hR, hqi⟩ :=
          insertLoop_some compare t htrans _ [] [] (Frame.goRight hv hb hl) _ hs hloop
        simp only [List.append_nil, stackLeft, stackRight, List.nil_append] at hqi
        rw [hattach] at hq
        simp only [AvlNode.node.injEq, true_and] at hq
        simp only [Avl.root]
        rw [hq, hqi]
        exact Sorted.insert_mid (hLR ▸ hs) hL hR

theorem Avl.insertAll_balanced {α : Type} (compare : α → α → Bool)
    (htrans : ∀ x y z, compare x y = true → compare y z = true → compare x z = true)
    (ts : List α) : ∀ s : Avl α, Sorted compare s.root.inorder → s.root.balanced = true →
      ∃ s2, Avl.insertAll compare s ts = .ok s2 ∧ Sorted compare s2.root.inorder ∧
        s2.root.balanced = true := by
  induction ts with
  | nil => intro s hs hb; exact ⟨s, rfl, hs, hb⟩
  | cons t ts ih =>
    intro s hs hb
    obtain ⟨s1, h1, hs1, hb1⟩ := Avl.insert_balanced compare t htrans s hs hb
    obtain ⟨s2, h2, hs2, hb2⟩ := ih s1 hs1 hb1
    exact ⟨s2, by simp only [Avl.insertAll, h1, Outcome.andThen]; exact h2, hs2, hb2⟩

theorem pathBalance_last {α : Type} (fb : List (Frame α)) :
    ∀ (b sb : Int) (S : Frame α), pathBalance b fb = some sb → fb.getLast? = some S →
      sb = S.balance := by
  induction fb with
  | nil => intro _ _ _ _ h; simp at h
  | cons f fs ih =>
    intro b sb S hpb hlast
    simp only [pathBalance] at hpb
    split at hpb
    · cases fs with
      | nil =>
        simp only [pathBalance, Option.some.injEq] at hpb
        simp only [List.getLast?_singleton, Option.some.injEq] at hlast
        rw [← hpb, hlast]
      | cons g gs =>
        rw [List.getLast?_cons_cons] at hlast
        exact ih f.balance sb S hpb hlast
    · cases hpb

/-! ## The claims C23 and C24 -/

/-- C23: `insert` preserves the AVL invariants.  For every state in which the
tree at `head->right` is a binary search tree whose every node has `balance`
equal to the height of its right subtree minus that of its left one, within
`-1 .. 1`, and for every `t`, `insert(t)` runs to its end (no
`AVL_INTERNAL_ERROR`, no other fault) and the tree at `head->right` is again
such a tree.  In particular any sequence of inserts into the empty tree runs
to its end and leaves such a tree. -/
theorem c23_insert_keeps_avl_invariants {α : Type} (compare : α → α → Bool)
    (hc : StrictWeak compare) :
    (∀ (s : Avl α) (t : α), s.root.isBST compare = true → s.root.balanced = true →
      ∃ s2, s.insert compare t = .ok s2 ∧ s2.root.isBST compare = true ∧
        s2.root.balanced = true) ∧
    (∀ ts : List α, ∃ s, Avl.insertAll compare Avl.empty ts = .ok s ∧
      s.root.isBST compare = true ∧ s.root.balanced = true) := by
  constructor
  · intro s t hbst hbal
    obtain ⟨s2, h, hs2, hb2⟩ := Avl.insert_balanced compare t hc.trans s
      ((sorted_iff_isBST compare hc.trans _).1 hbst) hbal
    exact ⟨s2, h, (sorted_iff_isBST compare hc.trans _).2 hs2, hb2⟩
  · intro ts
    obtain ⟨s2, h, hs2, hb2⟩ := Avl.insertAll_balanced compare hc.trans ts Avl.empty
      (by simp [Avl.root, Avl.empty, AvlNode.inorder, Sorted]) rfl
    exact ⟨s2, h, (sorted_iff_isBST compare hc.trans _).2 hs2, hb2⟩

/-- C23 at the tree holding 0, 1, 2 (built by inserts) and `insert(3)`, which
rotates at the node 1. -/
theorem c23_witness :
    StrictWeak natLess ∧
      (Avl.root (⟨.node 0 0 .nil (.node 1 1 .nil (.node 2 0 .nil .nil)), 3⟩ : Avl Nat)).isBST natLess
        = true ∧
      (Avl.root (⟨.node 0 0 .nil (.node 1 1 .nil (.node 2 0 .nil .nil)), 3⟩ : Avl Nat)).balanced
        = true ∧
      ∃ s2, Avl.insert natLess 3 ⟨.node 0 0 .nil (.node 1 1 .nil (.node 2 0 .nil .nil)), 3⟩
          = .ok s2 ∧ s2.root.isBST natLess = true ∧ s2.root.balanced = true :=
  ⟨natLess_strictWeak, by decide, by decide,
    (c23_insert_keeps_avl_invariants natLess natLess_strictWeak).1
      ⟨.node 0 0 .nil (.node 1 1 .nil (.node 2 0 .nil .nil)), 3⟩ 3 (by decide) (by decide)⟩

/-- C24: when `insert(t)` of a value that is not stored, into a tree whose
balance fields are right, comes to step a7 with the balance of `S` equal to the
direction `a` of `t` at `S` (the rotation branch), the subtree `p` that step
a10 links into `T` in place of `S` has the height the subtree at `S` had before
the call, and the tree at `head->right` has the height it had before.  Here
`fb` are the nodes from the parent of the new node up to `S` (its last entry)
and `fa` those from `T` up to `head`, as the walk a2 to a4 records them. -/
theorem c24_rotation_branch_keeps_height {α : Type} (compare : α → α → Bool) (t : α)
    (hv : α) (hb : Int) (hl root : AvlNode α) (n : Int) (fb fa : List (Frame α))
    (S : Frame α) (hhead : AvlCompareEquals compare hv t = false)
    (hbal : root.balanced = true)
    (hw : insertWalk compare t root [] [Frame.goRight hv hb hl] = .ok (some (fb, fa)))
    (hS : fb.getLast? = some S)
    (hrot : S.balance = if compare t S.value then -1 else 1) :
    ∃ p above, fa = above ++ [Frame.goRight hv hb hl] ∧
      root = rebuild (rebuild .nil fb) above ∧
      insertAdjust compare t (AvlNode.mk1 t) fb = .ok p ∧
      p.height = (rebuild .nil fb).height ∧
      Avl.insert compare t ⟨.node hv hb hl root, n⟩
        = .ok ⟨.node hv hb hl (rebuild p above), n + 1⟩ ∧
      (rebuild p above).height = root.height := by
  cases root with
  | nil => simp [insertWalk] at hw
  | node rv rb rl rr =>
    have hattach : ∀ p, (Frame.goRight hv hb hl).attach p = .node hv hb hl p := by
      intro p; simp [Frame.attach, Frame.goRight]
    rcases insertWalk_spec compare t (.node rv rb rl rr) [] [] (Frame.goRight hv hb hl) rb
      hbal trivial (by simp) rfl (Or.inr rfl) (by simp) with
      hw2 | ⟨fb2, fa2, sb, hw2, hne, hpb, hsb, hfol, hfit, hreb⟩
    · simp only [List.nil_append] at hw2
      rw [hw] at hw2
      cases hw2
    · simp only [List.nil_append] at hw2
      rw [hw] at hw2
      simp only [Outcome.ok.injEq, Option.some.injEq, Prod.mk.injEq] at hw2
      obtain ⟨h1, h2⟩ := hw2
      subst h1 h2
      have hsbS : sb = S.balance := pathBalance_last fb 0 sb S hpb hS
      have hnz : sb ≠ 0 := by
        rw [hsbS, hrot]
        split <;> decide
      obtain ⟨p, hp, _, hph, _, hheight⟩ :=
        insertFinish_balanced compare t fb fa2 sb hne hpb hsb hfol hfit
      rw [if_neg hnz, Nat.add_zero] at hph
      have hloop : insertLoop compare t (.node rv rb rl rr) [] [Frame.goRight hv hb hl]
          = .ok (some (.node hv hb hl (rebuild p fa2))) := by
        rw [insertLoop_eq_walk, hw]
        simp only [Outcome.andThen, insertFinish, hp]
        rw [rebuild_snoc, hattach]
      simp only [List.append_nil] at hreb
      refine ⟨p, fa2, rfl, ?_, hp, hph, ?_, ?_⟩
      · rw [← rebuild_append]; exact hreb.symm
      · simp only [Avl.insert, hhead, Bool.false_eq_true, if_false, hloop]
      · rw [hheight hnz, hreb]
        rfl

/-- C24 at the tree holding 0, 1, 2 and `insert(3)`: `S` is the node 1 with
balance 1, and `t` goes to its right. -/
theorem c24_witness :
    AvlCompareEquals natLess 0 3 = false ∧
      (AvlNode.node 1 1 .nil (.node 2 0 .nil .nil)).balanced = true ∧
      insertWalk natLess 3 (.node 1 1 .nil (.node 2 0 .nil .nil)) [] [Frame.goRight 0 0 .nil]
        = .ok (some ([Frame.goRight 2 0 .nil, Frame.goRight 1 1 .nil], [Frame.goRight 0 0 .nil])) ∧
      ∃ p above, [Frame.goRight 0 0 .nil] = above ++ [Frame.goRight 0 0 .nil] ∧
        AvlNode.node 1 1 .nil (.node 2 0 .nil .nil)
          = rebuild (rebuild .nil [Frame.goRight 2 0 .nil, Frame.goRight 1 1 .nil]) above ∧
        insertAdjust natLess 3 (AvlNode.mk1 3) [Frame.goRight 2 0 .nil, Frame.goRight 1 1 .nil]
          = .ok p ∧
        p.height = (rebuild .nil [Frame.goRight 2 0 .nil, Frame.goRight 1 1 .nil]).height ∧
        Avl.insert natLess 3 ⟨.node 0 0 .nil (.node 1 1 .nil (.node 2 0 .nil .nil)), 3⟩
          = .ok ⟨.node 0 0 .nil (rebuild p above), 3 + 1⟩ ∧
        (rebuild p above).height = (AvlNode.node 1 1 .nil (.node 2 0 .nil .nil)).height :=
  ⟨by decide, by decide, by decide,
    c24_rotation_branch_keeps_height natLess 3 0 0 .nil (.node 1 1 .nil (.node 2 0 .nil .nil)) 3
      [Frame.goRight 2 0 .nil, Frame.goRight 1 1 .nil] [Frame.goRight 0 0 .nil]
      (Frame.goRight 1 1 .nil) (by decide) (by decide) (by decide) (by decide) (by decide)⟩

/-! ## The balance condition and `remove` -/

theorem removeRotate_balanced_right {α : Type} (sv : α) (sb : Int) (so c : AvlNode α)
    (hfit : (Frame.goRight sv sb so).fits (c.height + 1)) (hsb : sb = -1)
    (hc : c.balanced = true) :
    ∃ n go, removeRotate 1 (.node sv sb so c) = .ok (n, go) ∧ n.balanced = true ∧
      n.height + (if go = true then 1 else 0) = max (c.height + 1) so.height + 1 := by
  obtain ⟨ho, h1, h2, h3⟩ := hfit
  simp only [Frame.goRight] at ho h1 h2 h3
  have hb : sb = ((c.height + 1 : Nat) : Int) - (so.height : Int) := by
    rcases h3 with ⟨_, hb⟩ | ⟨ha, _⟩
    · exact hb
    · omega
  subst hsb
  cases so with
  | nil => simp [AvlNode.height] at hb; omega
  | node rv rb rl rr =>
    rw [AvlNode.balanced_node] at ho
    obtain ⟨hrb, hr1, hr2, hrl, hrr⟩ := ho
    rw [AvlNode.height_node] at hb ⊢
    by_cases hr0 : rb = 0
    · refine ⟨.node rv 1 rl (.node sv (-1) rr c), false, by
        simp [removeRotate, link, Outcome.andThen, hr0], ?_, ?_⟩
      · simp only [AvlNode.balanced_node, AvlNode.height_node]
        exact ⟨by omega, by omega, by omega, hrl, by omega, by omega, by omega, hrr, hc⟩
      · simp only [AvlNode.height_node]; simp; omega
    by_cases hrm : rb = -1
    · refine ⟨.node rv 0 rl (.node sv 0 rr c), true, by
        simp [removeRotate, link, Outcome.andThen, hrm], ?_, ?_⟩
      · simp only [AvlNode.balanced_node, AvlNode.height_node]
        exact ⟨by omega, by omega, by omega, hrl, by omega, by omega, by omega, hrr, hc⟩
      · simp only [AvlNode.height_node]; simp; omega
    have hrp : rb = 1 := by omega
    cases rr with
    | nil => simp [AvlNode.height] at hrb; omega
    | node pv pb pl pr =>
      rw [AvlNode.balanced_node] at hrr
      obtain ⟨hpb, hp1, hp2, hpl, hpr⟩ := hrr
      rw [AvlNode.height_node] at hrb hb
      by_cases hpm : pb = -1
      · refine ⟨.node pv 0 (.node rv 0 rl pl) (.node sv 1 pr c), true, by
          simp [removeRotate, link, Outcome.andThen, hrp, hpm, removeD13Balances], ?_, ?_⟩
        · simp only [AvlNode.balanced_node, AvlNode.height_node]
          exact ⟨by omega, by omega, by omega, ⟨by omega, by omega, by omega, hrl, hpl⟩,
            by omega, by omega, by omega, hpr, hc⟩
        · simp only [AvlNode.height_node]; simp; omega
      by_cases hp0 : pb = 0
      · refine ⟨.node pv 0 (.node rv 0 rl pl) (.node sv 0 pr c), true, by
          simp [removeRotate, link, Outcome.andThen, hrp, hp0, removeD13Balances], ?_, ?_⟩
        · simp only [AvlNode.balanced_node, AvlNode.height_node]
          exact ⟨by omega, by omega, by omega, ⟨by omega, by omega, by omega, hrl, hpl⟩,
            by omega, by omega, by omega, hpr, hc⟩
        · simp only [AvlNode.height_node]; simp; omega
      have hpp : pb = 1 := by omega
      refine ⟨.node pv 0 (.node rv (-1) rl pl) (.node sv 0 pr c), true, by
        simp [removeRotate, link, Outcome.andThen, hrp, hpp, removeD13Balances], ?_, ?_⟩
      · simp only [AvlNode.balanced_node, AvlNode.height_node]
        exact ⟨by omega, by omega, by omega, ⟨by omega, by omega, by omega, hrl, hpl⟩,
          by omega, by omega, by omega, hpr, hc⟩
      · simp only [AvlNode.height_node]; simp; omega

theorem removeRotate_balanced_left {α : Type} (sv : α) (sb : Int) (so c : AvlNode α)
    (hfit : (Frame.goLeft sv sb so).fits (c.height + 1)) (hsb : sb = 1)
    (hc : c.balanced = true) :
    ∃ n go, removeRotate (-1) (.node sv sb c so) = .ok (n, go) ∧ n.balanced = true ∧
      n.height + (if go = true then 1 else 0) = max (c.height + 1) so.height + 1 := by
  obtain ⟨ho, h1, h2, h3⟩ := hfit
  simp only [Frame.goLeft] at ho h1 h2 h3
  have hb : sb = (so.height : Int) - ((c.height + 1 : Nat) : Int) := by
    rcases h3 with ⟨ha, _⟩ | ⟨_, hb⟩
    · omega
    · exact hb
  subst hsb
  cases so with
  | nil => simp [AvlNode.height] at hb; omega
  | node rv rb rl rr =>
    rw [AvlNode.balanced_node] at ho
    obtain ⟨hrb, hr1, hr2, hrl, hrr⟩ := ho
    rw [AvlNode.height_node] at hb ⊢
    by_cases hr0 : rb = 0
    · refine ⟨.node rv (-1) (.node sv 1 c rl) rr, false, by
        simp [removeRotate, link, Outcome.andThen, hr0], ?_, ?_⟩
      · simp only [AvlNode.balanced_node, AvlNode.height_node]
        exact ⟨by omega, by omega, by omega, ⟨by omega, by omega, by omega, hc, hrl⟩, hrr⟩
      · simp only [AvlNode.height_node]; simp; omega
    by_cases hrp : rb = 1
    · refine ⟨.node rv 0 (.node sv 0 c rl) rr, true, by
        simp [removeRotate, link, Outcome.andThen, hrp], ?_, ?_⟩
      · simp only [AvlNode.balanced_node, AvlNode.height_node]
        exact ⟨by omega, by omega, by omega, ⟨by omega, by omega, by omega, hc, hrl⟩, hrr⟩
      · simp only [AvlNode.height_node]; simp; omega
    have hrm : rb = -1 := by omega
    cases rl with
    | nil => simp [AvlNode.height] at hrb; omega
    | node pv pb pl pr =>
      rw [AvlNode.balanced_node] at hrl
      obtain ⟨hpb, hp1, hp2, hpl, hpr⟩ := hrl
      rw [AvlNode.height_node] at hrb hb
      by_cases hpp : pb = 1
      · refine ⟨.node pv 0 (.node sv (-1) c pl) (.node rv 0 pr rr), true, by
          simp [removeRotate, link, Outcome.andThen, hrm, hpp, removeD13Balances], ?_, ?_⟩
        · simp only [AvlNode.balanced_node, AvlNode.height_node]
          exact ⟨by omega, by omega, by omega, ⟨by omega, by omega, by omega, hc, hpl⟩,
            by omega, by omega, by omega, hpr, hrr⟩
        · simp only [AvlNode.height_node]; simp; omega
      by_cases hp0 : pb = 0
      · refine ⟨.node pv 0 (.node sv 0 c pl) (.node rv 0 pr rr), true, by
          simp [removeRotate, link, Outcome.andThen, hrm, hp0, removeD13Balances], ?_, ?_⟩
        · simp only [AvlNode.balanced_node, AvlNode.height_node]
          exact ⟨by omega, by omega, by omega, ⟨by omega, by omega, by omega, hc, hpl⟩,
            by omega, by omega, by omega, hpr, hrr⟩
        · simp only [AvlNode.height_node]; simp; omega
      have hpm : pb = -1 := by omega
      refine ⟨.node pv 0 (.node sv 0 c pl) (.node rv 1 pr rr), true, by
        simp [removeRotate, link, Outcome.andThen, hrm, hpm, removeD13Balances], ?_, ?_⟩
      · simp only [AvlNode.balanced_node, AvlNode.height_node]
        exact ⟨by omega, by omega, by omega, ⟨by omega, by omega, by omega, hc, hpl⟩,
          by omega, by omega, by omega, hpr, hrr⟩
      · simp only [AvlNode.height_node]; simp; omega

theorem removeBalance_cons {α : Type} (c : AvlNode α) (f : Frame α) (rest : List (Frame α))
    (h : rest ≠ []) :
    removeBalance c (f :: rest) =
      if f.balance = 0 then
        .ok (rebuild (Frame.attach ⟨f.a, f.value, -f.a, f.other⟩ c) rest)
      else if f.balance = f.a then
        removeBalance (Frame.attach ⟨f.a, f.value, 0, f.other⟩ c) rest
      else if f.balance = -f.a then
        match removeRotate f.a (f.attach c) with
        | .ok (n, true) => removeBalance n rest
        | .ok (n, false) => .ok (rebuild n rest)
        | .internalError => .internalError
        | .nullDeref => .nullDeref
        | .outOfBounds => .outOfBounds
      else .internalError := by
  cases rest with
  | nil => exact absurd rfl h
  | cons g st => rfl

theorem removeRotate_balanced {α : Type} (f : Frame α) (c : AvlNode α)
    (hfit : f.fits (c.height + 1)) (hb : f.balance = -f.a) (hc : c.balanced = true) :
    ∃ n go, removeRotate f.a (f.attach c) = .ok (n, go) ∧ n.balanced = true ∧
      n.height + (if go = true then 1 else 0) = max (c.height + 1) f.other.height + 1 := by
  obtain ⟨a, v, b, o⟩ := f
  simp only at hb
  have ha : a = 1 ∨ a = -1 := by
    rcases hfit.2.2.2 with ⟨h, _⟩ | ⟨h, _⟩
    · exact Or.inl h
    · exact Or.inr h
  rcases ha with ha | ha
  · subst ha
    exact removeRotate_balanced_right v b o c hfit hb hc
  · subst ha
    exact removeRotate_balanced_left v b o c hfit (by omega) hc

theorem removeBalance_balanced {α : Type} (fs : List (Frame α)) (hf : Frame α) :
    ∀ c : AvlNode α, c.balanced = true → chainFits fs (c.height + 1) →
      ∃ p, removeBalance c (fs ++ [hf]) = .ok (hf.attach p) ∧ p.balanced = true := by
  induction fs with
  | nil => intro c hc _; exact ⟨c, rfl, hc⟩
  | cons f fs ih =>
    intro c hc hfit
    obtain ⟨hf1, hf2⟩ := hfit
    rw [List.cons_append, removeBalance_cons c f (fs ++ [hf]) (by simp)]
    obtain ⟨ho, h1, h2, h3⟩ := hf1
    by_cases hz : f.balance = 0
    · rw [if_pos hz, rebuild_snoc]
      refine ⟨_, rfl, ?_⟩
      have hfit2 : (Frame.mk f.a f.value (-f.a) f.other).fits c.height := by
        refine ⟨ho, ?_, ?_, ?_⟩
        · simp only; omega
        · simp only; omega
        · simp only; omega
      apply rebuild_balanced fs _ (Frame.balanced_attach _ c hfit2 hc)
      rw [Frame.height_attach]
      have : max c.height f.other.height = max (c.height + 1) f.other.height := by omega
      simp only
      rw [this]
      exact hf2
    rw [if_neg hz]
    by_cases hsame : f.balance = f.a
    · rw [if_pos hsame]
      have hfit2 : (Frame.mk f.a f.value 0 f.other).fits c.height := by
        refine ⟨ho, ?_, ?_, ?_⟩
        · simp only; omega
        · simp only; omega
        · simp only; omega
      apply ih _ (Frame.balanced_attach _ c hfit2 hc)
      rw [Frame.height_attach]
      have : max c.height f.other.height + 1 = max (c.height + 1) f.other.height := by
        omega
      simp only
      rw [this]
      exact hf2
    rw [if_neg hsame]
    have hopp : f.balance = -f.a := by omega
    rw [if_pos hopp]
    obtain ⟨n, go, hrot, hnb, hnh⟩ := removeRotate_balanced f c ⟨ho, h1, h2, h3⟩ hopp hc
    rw [hrot]
    cases go with
    | true =>
      simp only
      apply ih n hnb
      simp only [if_true] at hnh
      rw [hnh]
      exact hf2
    | false =>
      simp only
      rw [rebuild_snoc]
      refine ⟨_, rfl, ?_⟩
      apply rebuild_balanced fs n hnb
      simp only [Bool.false_eq_true, if_false, Nat.add_zero] at hnh
      rw [hnh]
      exact hf2

theorem removeFind_chain {α : Type} (compare : α → α → Bool) (t : α) (P : AvlNode α) :
    ∀ (st : List (Frame α)) (P2 : AvlNode α) (st2 : List (Frame α)), P.balanced = true →
      removeFind compare t P st = .ok (some (P2, st2)) →
      ∃ fs, st2 = fs ++ st ∧ P2.balanced = true ∧ P2 ≠ .nil ∧ chainFits fs P2.height ∧
        chainHeight fs P2.height = P.height ∧ fs.length + P2.height ≤ P.height := by
  induction P with
  | nil => intro st P2 st2 _ h; simp [removeFind] at h
  | node v b l r ihl ihr =>
    intro st P2 st2 hbal h
    unfold removeFind at h
    have hbal0 := hbal
    rw [AvlNode.balanced_node] at hbal
    obtain ⟨hb, hb1, hb2, hlb, hrb⟩ := hbal
    by_cases he : AvlCompareEquals compare v t = true
    · simp only [he, if_true, Outcome.ok.injEq, Option.some.injEq, Prod.mk.injEq] at h
      obtain ⟨h1, h2⟩ := h
      subst h1 h2
      exact ⟨[], rfl, hbal0, by simp, trivial, rfl, by simp⟩
    · simp only [he, Bool.false_eq_true, if_false] at h
      by_cases hc : compare t v = true
      · simp only [hc, if_true] at h
        split at h
        · cases h
        · obtain ⟨fs, hst, hP2, hne, hfit, hh, hlen⟩ := ihl _ P2 st2 hlb h
          refine ⟨fs ++ [Frame.goLeft v b r], by simp [hst], hP2, hne, ?_, ?_, ?_⟩
          · rw [chainFits_append, hh]
            exact ⟨hfit, ⟨hrb, hb1, hb2, Or.inr ⟨rfl, hb⟩⟩, trivial⟩
          · rw [chainHeight_append, hh]; rfl
          · rw [AvlNode.height_node, List.length_append, List.length_singleton]; omega
      · simp only [hc, Bool.false_eq_true, if_false] at h
        split at h
        · cases h
        · obtain ⟨fs, hst, hP2, hne, hfit, hh, hlen⟩ := ihr _ P2 st2 hrb h
          refine ⟨fs ++ [Frame.goRight v b l], by simp [hst], hP2, hne, ?_, ?_, ?_⟩
          · rw [chainFits_append, hh]
            exact ⟨hfit, ⟨hlb, hb1, hb2, Or.inl ⟨rfl, hb⟩⟩, trivial⟩
          · rw [chainHeight_append, hh, AvlNode.height_node, max_comm]; rfl
          · rw [AvlNode.height_node, List.length_append, List.length_singleton]; omega

theorem removeD8_chain {α : Type} (S : AvlNode α) :
    ∀ (spine : List (Frame α)) (k : Nat) (sv : α) (sr : AvlNode α) (sp : List (Frame α)),
      S.balanced = true → removeD8 S spine k = .ok (sv, sr, sp) →
      ∃ fs, sp = fs ++ spine ∧ sr.balanced = true ∧ chainFits fs (sr.height + 1) ∧
        chainHeight fs (sr.height + 1) = S.height := by
  induction S with
  | nil => intro _ _ _ _ _ _ h; simp [removeD8] at h
  | node v b l r ihl _ =>
    intro spine k sv sr sp hbal h
    rw [AvlNode.balanced_node] at hbal
    obtain ⟨hb, hb1, hb2, hlb, hrb⟩ := hbal
    unfold removeD8 at h
    cases l with
    | nil =>
      simp only [Outcome.ok.injEq, Prod.mk.injEq] at h
      obtain ⟨_, h2, h3⟩ := h
      subst h2 h3
      refine ⟨[], rfl, hrb, trivial, ?_⟩
      simp [chainHeight, AvlNode.height]
    | node lv lb ll lr =>
      simp only at h
      split at h
      · cases h
      · obtain ⟨fs, hsp, hsr, hfit, hh⟩ := ihl _ _ sv sr sp hlb h
        refine ⟨fs ++ [Frame.goLeft v b r], by simp [hsp], hsr, ?_, ?_⟩
        · rw [chainFits_append, hh]
          exact ⟨hfit, ⟨hrb, hb1, hb2, Or.inr ⟨rfl, hb⟩⟩, trivial⟩
        · rw [chainHeight_append, hh]; rfl

theorem removeD8_completes {α : Type} (S : AvlNode α) :
    ∀ (spine : List (Frame α)) (k : Nat), S ≠ .nil → k + S.height ≤ MAX_AVL_DEPTH →
      ∃ res, removeD8 S spine k = .ok res := by
  induction S with
  | nil => intro _ _ h; exact absurd rfl h
  | node v b l r ihl _ =>
    intro spine k _ hk
    unfold removeD8
    cases l with
    | nil => exact ⟨_, rfl⟩
    | node lv lb ll lr =>
      simp only
      rw [AvlNode.height_node] at hk
      have h1 : 1 ≤ (AvlNode.node lv lb ll lr).height := by
        rw [AvlNode.height_node]; omega
      rw [if_neg (by omega)]
      exact ihl _ _ (by simp) (by omega)

theorem removeUnlink_chain {α : Type} (P : AvlNode α) (st : List (Frame α))
    (c : AvlNode α) (st2 : List (Frame α)) (hbal : P.balanced = true)
    (h : removeUnlink P st = .ok (c, st2)) :
    ∃ fs, st2 = fs ++ st ∧ c.balanced = true ∧ chainFits fs (c.height + 1) ∧
      chainHeight fs (c.height + 1) = P.height := by
  cases P with
  | nil => simp [removeUnlink] at h
  | node pv pb pl pr =>
    rw [AvlNode.balanced_node] at hbal
    obtain ⟨hb, hb1, hb2, hlb, hrb⟩ := hbal
    unfold removeUnlink at h
    cases pr with
    | nil =>
      cases pl with
      | nil =>
        simp only [Outcome.ok.injEq, Prod.mk.injEq] at h
        obtain ⟨h1, h2⟩ := h
        subst h1 h2
        exact ⟨[], rfl, rfl, trivial, rfl⟩
      | node lv lb ll lr =>
        simp only [Outcome.ok.injEq, Prod.mk.injEq] at h
        obtain ⟨h1, h2⟩ := h
        subst h1 h2
        rw [AvlNode.balanced_node] at hlb
        obtain ⟨hlb0, _, _, hll, hlr⟩ := hlb
        simp only [AvlNode.height] at hb
        refine ⟨[], rfl, ?_, trivial, ?_⟩
        · rw [AvlNode.balanced_node]
          exact ⟨by omega, by omega, by omega, hll, hlr⟩
        · simp only [chainHeight, AvlNode.height]; omega
    | node rv rb rl rr =>
      rw [AvlNode.balanced_node] at hrb
      obtain ⟨hrb0, hr1, hr2, hrlb, hrrb⟩ := hrb
      cases rl with
      | nil =>
        simp only at h
        split at h
        · cases h
        · simp only [Outcome.ok.injEq, Prod.mk.injEq] at h
          obtain ⟨h1, h2⟩ := h
          subst h1 h2
          refine ⟨[Frame.goRight rv pb pl], rfl, hrrb, ⟨⟨hlb, hb1, hb2, Or.inl ⟨rfl, ?_⟩⟩, trivial⟩, ?_⟩
          · simp only [AvlNode.height, Frame.goRight] at hb ⊢; omega
          · simp only [chainHeight, AvlNode.height, Frame.goRight]; omega
      | node lv lb ll lr =>
        simp only at h
        split at h
        · cases h
        split at h
        · cases h
        simp only [Outcome.andThen_eq_ok, Outcome.ok.injEq, Prod.mk.injEq] at h
        obtain ⟨⟨sv, sr, sp⟩, hd8, h1, h2⟩ := h
        simp only at h1 h2
        subst h1 h2
        obtain ⟨fs, hsp, hsr, hfit, hh⟩ := removeD8_chain _ _ _ sv sr sp hrlb hd8
        subst hsp
        refine ⟨fs ++ [Frame.goLeft rv rb rr] ++ [Frame.goRight sv pb pl], by simp, hsr, ?_, ?_⟩
        · rw [chainFits_append, chainFits_append, chainHeight_append, hh]
          refine ⟨⟨hfit, ⟨hrrb, hr1, hr2, Or.inr ⟨rfl, hrb0⟩⟩, trivial⟩,
            ⟨hlb, hb1, hb2, Or.inl ⟨rfl, ?_⟩⟩, trivial⟩
          simp only [chainHeight, Frame.goLeft, Frame.goRight, AvlNode.height_node] at hb ⊢
          omega
        · rw [chainHeight_append, chainHeight_append, hh]
          simp only [chainHeight, Frame.goLeft, Frame.goRight, AvlNode.height_node]
          omega

theorem removeFind_completes {α : Type} (compare : α → α → Bool) (t : α) (P : AvlNode α) :
    ∀ st : List (Frame α), st.length + P.height < MAX_AVL_DEPTH →
      ∃ res, removeFind compare t P st = .ok res := by
  induction P with
  | nil => intro st _; exact ⟨none, rfl⟩
  | node v b l r ihl ihr =>
    intro st hd
    rw [AvlNode.height_node] at hd
    unfold removeFind
    by_cases he : AvlCompareEquals compare v t = true
    · exact ⟨_, by rw [if_pos he]⟩
    rw [if_neg he]
    by_cases hc : compare t v = true
    · rw [if_pos hc, if_neg (by simp only [List.length_cons]; omega)]
      exact ihl _ (by simp only [List.length_cons]; omega)
    · rw [if_neg hc, if_neg (by simp only [List.length_cons]; omega)]
      exact ihr _ (by simp only [List.length_cons]; omega)

theorem removeUnlink_completes {α : Type} (P : AvlNode α) (st : List (Frame α))
    (hne : P ≠ .nil) (hd : st.length + P.height < MAX_AVL_DEPTH) :
    ∃ res, removeUnlink P st = .ok res := by
  cases P with
  | nil => exact absurd rfl hne
  | node pv pb pl pr =>
    unfold removeUnlink
    cases pr with
    | nil =>
      cases pl with
      | nil => exact ⟨_, rfl⟩
      | node lv lb ll lr => exact ⟨_, rfl⟩
    | node rv rb rl rr =>
      simp only [AvlNode.height_node] at hd
      cases rl with
      | nil =>
        simp only
        rw [if_neg (by simp only [List.length_cons]; omega)]
        exact ⟨_, rfl⟩
      | node lv lb ll lr =>
        simp only
        simp only [AvlNode.height_node] at hd
        rw [if_neg (by omega), if_neg (by omega)]
        obtain ⟨res, hres⟩ := removeD8_completes (.node lv lb ll lr) [Frame.goLeft rv rb rr]
          (st.length + 2) (by simp) (by simp only [AvlNode.height_node]; omega)
        rw [hres]
        exact ⟨_, rfl⟩

theorem fibSize_le_succ (n : Nat) : fibSize n ≤ fibSize (n + 1) := by
  cases n with
  | zero => decide
  | succ n => simp only [fibSize]; omega

theorem fibSize_mono {a b : Nat} (h : a ≤ b) : fibSize a ≤ fibSize b :=
  monotone_nat_of_le_succ fibSize_le_succ h

theorem fibSize_max (a b : Nat) (h1 : a ≤ b + 1) (h2 : b ≤ a + 1) :
    fibSize (max a b + 1) ≤ fibSize a + fibSize b + 1 := by
  rcases Nat.le_total a b with h | h
  · rw [max_eq_right h]
    cases b with
    | zero => simp [fibSize]
    | succ k =>
      have := fibSize_mono (show k ≤ a by omega)
      simp only [fibSize]; omega
  · rw [max_eq_left h]
    cases a with
    | zero => simp [fibSize]
    | succ k =>
      have := fibSize_mono (show k ≤ b by omega)
      simp only [fibSize]; omega

theorem AvlNode.fibSize_le_count {α : Type} (n : AvlNode α) (h : n.balanced = true) :
    fibSize n.height ≤ n.count := by
  induction n with
  | nil => simp [AvlNode.height, fibSize]
  | node v b l r ihl ihr =>
    rw [AvlNode.balanced_node] at h
    obtain ⟨hb, h1, h2, hl, hr⟩ := h
    have := fibSize_max l.height r.height (by omega) (by omega)
    have := ihl hl
    have := ihr hr
    simp only [AvlNode.height, AvlNode.count]
    omega

theorem fibSize_lower (k : Nat) : 2 ^ k ≤ fibSize (2 * k) + 1 := by
  induction k with
  | zero => simp [fibSize]
  | succ k ih =>
    have h1 : 2 * (k + 1) = 2 * k + 2 := by ring
    have h2 := fibSize_le_succ (2 * k)
    rw [h1, pow_succ]
    simp only [fibSize]
    omega

theorem AvlNode.height_lt_of_count {α : Type} (n : AvlNode α) (h : n.balanced = true)
    (hc : n.count < 2 ^ 31) : n.height < 64 := by
  by_contra hge
  have h1 := fibSize_mono (show 2 * 32 ≤ n.height by omega)
  have h2 := AvlNode.fibSize_le_count n h
  have h3 := fibSize_lower 32
  have h4 : (2 : Nat) ^ 32 = 2 * 2 ^ 31 := by norm_num
  omega

theorem removeMain_balanced {α : Type} (compare : α → α → Bool) (t : α)
    (hv : α) (hb : Int) (hl root : AvlNode α) (n : Int)
    (hs : Sorted compare root.inorder) (hbal : root.balanced = true)
    (hd : root.height + 1 < MAX_AVL_DEPTH) :
    ∃ s2, removeMain compare t ⟨.node hv hb hl root, n⟩ = .ok s2 ∧
      Sorted compare s2.root.inorder ∧ s2.root.balanced = true := by
  have hattach : ∀ p, (Frame.goRight hv hb hl).attach p = .node hv hb hl p := by
    intro p; simp [Frame.attach, Frame.goRight]
  have key : ∀ s2, removeMain compare t ⟨.node hv hb hl root, n⟩ = .ok s2 →
      Sorted compare s2.root.inorder := by
    intro s2 h
    rcases removeMain_spec compare t hv hb hl root n s2 h with ⟨h1, _⟩ |
      ⟨fs, pv, pb, pl, pr, root2, _, h1, _, hroot, hroot2⟩
    · subst h1; exact hs
    · subst h1
      simp only [Avl.root]
      apply hs.sublist
      rw [hroot, hroot2]
      refine List.Sublist.append (List.Sublist.append (List.Sublist.refl _) ?_)
        (List.Sublist.refl _)
      exact List.Sublist.append (List.Sublist.refl _) (List.sublist_cons_self _ _)
  cases root with
  | nil => exact ⟨⟨.node hv hb hl .nil, n⟩, rfl, hs, hbal⟩
  | node rv rb rl rr =>
    obtain ⟨res, hres⟩ := removeFind_completes compare t (.node rv rb rl rr)
      [Frame.goRight hv hb hl] (by simp only [List.length_singleton]; omega)
    cases res with
    | none =>
      exact ⟨⟨.node hv hb hl (.node rv rb rl rr), n⟩, by simp only [removeMain, hres], hs, hbal⟩
    | some found =>
      obtain ⟨P, st2⟩ := found
      obtain ⟨fs, hst, hPb, hPne, hfit, hh, hlen⟩ :=
        removeFind_chain compare t _ _ P st2 hbal hres
      subst hst
      obtain ⟨⟨c, st3⟩, hun⟩ := removeUnlink_completes P (fs ++ [Frame.goRight hv hb hl]) hPne
        (by simp only [List.length_append, List.length_singleton]; omega)
      obtain ⟨fs2, hst3, hcb, hfit2, hh2⟩ := removeUnlink_chain P _ c st3 hPb hun
      subst hst3
      have hfit3 : chainFits (fs2 ++ fs) (c.height + 1) := by
        rw [chainFits_append, hh2]; exact ⟨hfit2, hfit⟩
      obtain ⟨p, hp, hpb⟩ := removeBalance_balanced (fs2 ++ fs) (Frame.goRight hv hb hl) c
        hcb hfit3
      have hmain : removeMain compare t ⟨.node hv hb hl (.node rv rb rl rr), n⟩
          = .ok ⟨.node hv hb hl p, n - 1⟩ := by
        simp only [removeMain, hres, hun, Outcome.andThen]
        rw [← List.append_assoc, hp, hattach]
      exact ⟨_, hmain, key _ hmain, hpb⟩

/-! ## The claim C25 -/

/-- C25: `remove` of a value that `head` does not hold preserves the AVL
invariants.  For every state whose nodes can be counted in the `int` `mySize`
(fewer than `2^31`), in which the tree at `head->right` is a binary search tree
whose every node has `balance` equal to the height of its right subtree minus
that of its left one, within `-1 .. 1`, and for every `t` not equal to the value
of `head`, `remove(t)` runs to its end (no `AVL_INTERNAL_ERROR`, no other
fault) and the tree at `head->right` is again such a tree. -/
theorem c25_remove_keeps_avl_invariants {α : Type} (compare : α → α → Bool)
    (hc : StrictWeak compare) (s : Avl α) (t : α)
    (hsize : s.head.count < 2 ^ 31)
    (hhead : ∀ hv hb hl hr, s.head = .node hv hb hl hr →
      AvlCompareEquals compare hv t = false)
    (hbst : s.root.isBST compare = true) (hbal : s.root.balanced = true) :
    ∃ s2, s.remove compare t = .ok s2 ∧ s2.root.isBST compare = true ∧
      s2.root.balanced = true := by
  obtain ⟨head, n⟩ := s
  cases head with
  | nil => exact ⟨⟨.nil, n⟩, rfl, hbst, hbal⟩
  | node hv hb hl root =>
    simp only [Avl.root] at hbst hbal
    simp only [AvlNode.count] at hsize
    have hheight := AvlNode.height_lt_of_count root hbal (by omega)
    obtain ⟨s2, h, hs2, hb2⟩ := removeMain_balanced compare t hv hb hl root n
      ((sorted_iff_isBST compare hc.trans _).1 hbst) hbal
      (by simp only [MAX_AVL_DEPTH]; omega)
    refine ⟨s2, ?_, (sorted_iff_isBST compare hc.trans _).2 hs2, hb2⟩
    simp only [Avl.remove, hhead hv hb hl root rfl, Bool.false_eq_true, if_false]
    exact h

/-- C25 at the tree holding 0 and 1 to 4 below it, and `remove(1)`, which
rotates at the node 2. -/
theorem c25_witness :
    StrictWeak natLess ∧
      (Avl.root (⟨.node 0 0 .nil (.node 2 1 (.node 1 0 .nil .nil)
        (.node 3 1 .nil (.node 4 0 .nil .nil))), 5⟩ : Avl Nat)).isBST natLess = true ∧
      (Avl.root (⟨.node 0 0 .nil (.node 2 1 (.node 1 0 .nil .nil)
        (.node 3 1 .nil (.node 4 0 .nil .nil))), 5⟩ : Avl Nat)).balanced = true ∧
      ∃ s2, Avl.remove natLess 1 ⟨.node 0 0 .nil (.node 2 1 (.node 1 0 .nil .nil)
          (.node 3 1 .nil (.node 4 0 .nil .nil))), 5⟩ = .ok s2 ∧
        s2.root.isBST natLess = true ∧ s2.root.balanced = true :=
  ⟨natLess_strictWeak, by decide, by decide,
    c25_remove_keeps_avl_invariants natLess natLess_strictWeak
      ⟨.node 0 0 .nil (.node 2 1 (.node 1 0 .nil .nil)
        (.node 3 1 .nil (.node 4 0 .nil .nil))), 5⟩ 1
      (by simp [AvlNode.count])
      (by intro hv hb hl hr h; cases h; decide) (by decide) (by decide)⟩

/-! ## The claims C26 and C27 -/

/-- C26 fails as stated.  In the tree holding 0 with 2 (balance 1), 1, 3, 4
below it, `remove(1)` comes back to the node 2 from its left (`a[k] = -1`): the
height decreased on the left and the balance 1 of the node is the opposite
direction.  The code rotates there (3 takes the place of 2) instead of setting
the balance to 0 and going on: the result differs from what the walk gives when
the node 2 is kept with balance 0. -/
theorem c26_opposite_balance_is_rotated :
    Avl.remove natLess 1
        ⟨.node 0 0 .nil (.node 2 1 (.node 1 0 .nil .nil) (.node 3 1 .nil (.node 4 0 .nil .nil))), 5⟩
      = .ok ⟨.node 0 0 .nil (.node 3 0 (.node 2 0 .nil .nil) (.node 4 0 .nil .nil)), 4⟩ ∧
    removeBalance (.nil : AvlNode Nat)
        [Frame.goLeft 2 1 (.node 3 1 .nil (.node 4 0 .nil .nil)), Frame.goRight 0 0 .nil]
      ≠ removeBalance
          (Frame.attach ⟨-1, 2, 0, .node 3 1 .nil (.node 4 0 .nil .nil)⟩ (.nil : AvlNode Nat))
          [Frame.goRight 0 0 .nil] := by
  decide

/-- C26, amended: in the walk d10 an ancestor `S = st[k]` whose balance equals
`a[k]`, the direction of the side from which the height decreased, is set to
balance 0 without rotation and the walk goes on to the next ancestor; when the
balance fields were right before the call, `S` then satisfies the balance
condition and its subtree is one lower than before.  An ancestor whose balance
equals the opposite direction `-a[k]` gets one of the rotations d11 to d13. -/
theorem c26_same_side_balance_becomes_zero {α : Type} (c : AvlNode α) (f g : Frame α)
    (st : List (Frame α)) (ha : f.a = 1 ∨ f.a = -1) :
    (f.balance = f.a →
      removeBalance c (f :: g :: st)
        = removeBalance (Frame.attach ⟨f.a, f.value, 0, f.other⟩ c) (g :: st)) ∧
    (f.balance = f.a → f.fits (c.height + 1) → c.balanced = true →
      (Frame.attach ⟨f.a, f.value, 0, f.other⟩ c).balanced = true ∧
      (Frame.attach ⟨f.a, f.value, 0, f.other⟩ c).height + 1 = chainHeight [f] (c.height + 1)) ∧
    (f.balance = -f.a →
      removeBalance c (f :: g :: st)
        = (removeRotate f.a (f.attach c)).andThen fun res =>
            if res.2 = true then removeBalance res.1 (g :: st)
            else .ok (rebuild res.1 (g :: st))) := by
  refine ⟨?_, ?_, ?_⟩
  · intro h
    have hz : f.balance ≠ 0 := by omega
    rw [removeBalance_cons c f (g :: st) (by simp), if_neg hz, if_pos h]
  · intro h hfit hc
    obtain ⟨ho, h1, h2, h3⟩ := hfit
    have hfit2 : (Frame.mk f.a f.value 0 f.other).fits c.height := by
      refine ⟨ho, ?_, ?_, ?_⟩
      · simp only; omega
      · simp only; omega
      · simp only; omega
    refine ⟨Frame.balanced_attach _ c hfit2 hc, ?_⟩
    rw [Frame.height_attach]
    simp only [chainHeight]
    omega
  · intro h
    have hz : f.balance ≠ 0 := by omega
    have hne : f.balance ≠ f.a := by omega
    rw [removeBalance_cons c f (g :: st) (by simp), if_neg hz, if_neg hne, if_pos h]
    cases hrot : removeRotate f.a (f.attach c) with
    | ok res =>
      obtain ⟨n, go⟩ := res
      cases go <;> simp [Outcome.andThen]
    | internalError => rfl
    | nullDeref => rfl
    | outOfBounds => rfl

/-- C26 (amended) at the node 2 of the tree with 2 (balance -1), 1, 3 below the
head 0, when 1 has been unlinked: the node 2 keeps its place with balance 0. -/
theorem c26_witness :
    (Frame.goLeft 2 (-1) (.nil : AvlNode Nat)).a = -1 ∧
    (Frame.goLeft 2 (-1) (.nil : AvlNode Nat)).balance
      = (Frame.goLeft 2 (-1) (.nil : AvlNode Nat)).a ∧
    removeBalance (.nil : AvlNode Nat) [Frame.goLeft 2 (-1) .nil, Frame.goRight 0 0 .nil]
      = removeBalance (Frame.attach ⟨-1, 2, 0, .nil⟩ (.nil : AvlNode Nat))
          [Frame.goRight 0 0 .nil] :=
  ⟨rfl, rfl,
    (c26_same_side_balance_becomes_zero (.nil : AvlNode Nat) (Frame.goLeft 2 (-1) .nil)
      (Frame.goRight 0 0 .nil) [] (Or.inr rfl)).1 rfl⟩

/-- C27 fails as stated.  In the tree below, `remove(3)` rotates at the node 5
(balance 1, the walk comes from its left) whose right child 7 has balance 0
(d11).  The code returns there: the ancestor 10 keeps its balance -1, which is
right, since its left subtree has the height it had.  Going on with the walk
would give another tree (10 would get balance 0). -/
theorem c27_walk_stops_after_d11 :
    Avl.remove natLess 3
        ⟨.node 0 0 .nil (.node 10 (-1)
          (.node 5 1 (.node 3 0 .nil .nil)
            (.node 7 0 (.node 6 0 .nil .nil) (.node 8 0 .nil .nil)))
          (.node 20 0 (.node 15 0 .nil .nil) (.node 25 0 .nil .nil))), 10⟩
      = .ok ⟨.node 0 0 .nil (.node 10 (-1)
          (.node 7 (-1) (.node 5 1 .nil (.node 6 0 .nil .nil)) (.node 8 0 .nil .nil))
          (.node 20 0 (.node 15 0 .nil .nil) (.node 25 0 .nil .nil))), 9⟩ ∧
    removeBalance (.nil : AvlNode Nat)
        [Frame.goLeft 5 1 (.node 7 0 (.node 6 0 .nil .nil) (.node 8 0 .nil .nil)),
          Frame.goLeft 10 (-1) (.node 20 0 (.node 15 0 .nil .nil) (.node 25 0 .nil .nil)),
          Frame.goRight 0 0 .nil]
      ≠ (removeRotate (-1) ((Frame.goLeft 5 1
            (.node 7 0 (.node 6 0 .nil .nil) (.node 8 0 .nil .nil))).attach
              (.nil : AvlNode Nat))).andThen fun res =>
          removeBalance res.1
            [Frame.goLeft 10 (-1) (.node 20 0 (.node 15 0 .nil .nil) (.node 25 0 .nil .nil)),
              Frame.goRight 0 0 .nil] := by
  decide


theorem removeRotate_flag {α : Type} (a : Int) (S n : AvlNode α) (go : Bool)
    (h : removeRotate a S = .ok (n, go)) :
    ∃ rv rb rl rr, link (-a) S = .ok (.node rv rb rl rr) ∧ (go = false ↔ rb = 0) := by
  cases S with
  | nil => simp [removeRotate] at h
  | node sv sb sl sr =>
    unfold removeRotate at h
    rw [Outcome.andThen_eq_ok] at h
    obtain ⟨R, hR, h⟩ := h
    cases R with
    | nil => simp at h
    | node rv rb rl rr =>
      refine ⟨rv, rb, rl, rr, hR, ?_⟩
      simp only at h
      by_cases h0 : rb = 0
      · rw [if_pos h0] at h
        split at h <;>
          · simp only [Outcome.ok.injEq, Prod.mk.injEq] at h
            simp [h0, ← h.2]
      · rw [if_neg h0] at h
        by_cases h1 : rb = -a
        · rw [if_pos h1] at h
          split at h <;>
            · simp only [Outcome.ok.injEq, Prod.mk.injEq] at h
              simp [h0, ← h.2]
        · rw [if_neg h1] at h
          by_cases h2 : rb = a
          · rw [if_pos h2, Outcome.andThen_eq_ok] at h
            obtain ⟨PP, _, h⟩ := h
            cases PP with
            | nil => simp at h
            | node pv pb pl pr =>
              simp only at h
              rw [Outcome.andThen_eq_ok] at h
              obtain ⟨bs, _, h⟩ := h
              split at h <;>
                · simp only [Outcome.ok.injEq, Prod.mk.injEq] at h
                  simp [h0, ← h.2]
          · rw [if_neg h2] at h
            cases h

/-- C27, amended: a rotation at `S` whose child `R` on the taller side has
balance 0 (d11) ends the walk: `removeRotate` reports "do not go on" exactly
when `R->balance == 0`, and the ancestors above `S` are then left as they are
(the rotated subtree is only linked in).  When the balance fields were right
before the call this is what the tree needs: the rotated subtree satisfies the
balance condition and has the height the subtree at `S` had before. -/
theorem c27_balanced_child_rotation_ends_walk {α : Type} (c : AvlNode α) (f g : Frame α)
    (st : List (Frame α)) (n : AvlNode α) (go : Bool) (ha : f.a = 1 ∨ f.a = -1)
    (hopp : f.balance = -f.a) (hrot : removeRotate f.a (f.attach c) = .ok (n, go)) :
    (∃ rv rb rl rr, link (-f.a) (f.attach c) = .ok (.node rv rb rl rr) ∧
      (go = false ↔ rb = 0)) ∧
    (go = false → removeBalance c (f :: g :: st) = .ok (rebuild n (g :: st))) ∧
    (go = false → f.fits (c.height + 1) → c.balanced = true →
      n.balanced = true ∧ n.height = chainHeight [f] (c.height + 1)) := by
  refine ⟨removeRotate_flag f.a (f.attach c) n go hrot, ?_, ?_⟩
  · intro hgo
    subst hgo
    have hz : f.balance ≠ 0 := by omega
    have hne : f.balance ≠ f.a := by omega
    rw [removeBalance_cons c f (g :: st) (by simp), if_neg hz, if_neg hne, if_pos hopp, hrot]
  · intro hgo hfit hc
    subst hgo
    obtain ⟨n2, go2, hrot2, hnb, hnh⟩ := removeRotate_balanced f c hfit hopp hc
    rw [hrot] at hrot2
    simp only [Outcome.ok.injEq, Prod.mk.injEq] at hrot2
    obtain ⟨h1, h2⟩ := hrot2
    subst h1 h2
    refine ⟨hnb, ?_⟩
    simp only [Bool.false_eq_true, if_false, Nat.add_zero] at hnh
    rw [hnh]; rfl

/-- C27 (amended) at the node 5 of the tree 0; 10(5(3, 7(6, 8)), 20(15, 25)),
when 3 has been unlinked. -/
theorem c27_witness :
    removeRotate (-1) ((Frame.goLeft 5 1
        (.node 7 0 (.node 6 0 .nil .nil) (.node 8 0 .nil .nil))).attach (.nil : AvlNode Nat))
      = .ok (.node 7 (-1) (.node 5 1 .nil (.node 6 0 .nil .nil)) (.node 8 0 .nil .nil), false) ∧
    removeBalance (.nil : AvlNode Nat)
        [Frame.goLeft 5 1 (.node 7 0 (.node 6 0 .nil .nil) (.node 8 0 .nil .nil)),
          Frame.goLeft 10 (-1) (.node 20 0 (.node 15 0 .nil .nil) (.node 25 0 .nil .nil)),
          Frame.goRight 0 0 .nil]
      = .ok (rebuild (.node 7 (-1) (.node 5 1 .nil (.node 6 0 .nil .nil)) (.node 8 0 .nil .nil))
          [Frame.goLeft 10 (-1) (.node 20 0 (.node 15 0 .nil .nil) (.node 25 0 .nil .nil)),
            Frame.goRight 0 0 .nil]) :=
  ⟨by decide,
    (c27_balanced_child_rotation_ends_walk (.nil : AvlNode Nat)
      (Frame.goLeft 5 1 (.node 7 0 (.node 6 0 .nil .nil) (.node 8 0 .nil .nil)))
      (Frame.goLeft 10 (-1) (.node 20 0 (.node 15 0 .nil .nil) (.node 25 0 .nil .nil)))
      [Frame.goRight 0 0 .nil]
      (.node 7 (-1) (.node 5 1 .nil (.node 6 0 .nil .nil)) (.node 8 0 .nil .nil)) false
      (Or.inr rfl) (by decide) (by decide)).2.1 rfl⟩


/-! ## The claims C21, C22 and C28 to C30 -/

theorem copyNodeRec_eq {α : Type} (n : AvlNode α) : copyNodeRec n = n := by
  induction n with
  | nil => rfl
  | node v b l r ihl ihr => simp only [copyNodeRec, ihl, ihr]

theorem insertLoop_head {α : Type} (compare : α → α → Bool) (t : α) (P : AvlNode α) :
    ∀ (below above : List (Frame α)) (hf : Frame α) (h : AvlNode α),
      insertLoop compare t P below (above ++ [hf]) = .ok (some h) → ∃ p, h = hf.attach p := by
  induction P with
  | nil => intro _ _ _ _ h; simp [insertLoop] at h
  | node v b l r ihl ihr =>
    intro below above hf h hh
    unfold insertLoop at hh
    by_cases he : AvlCompareEquals compare v t = true
    · simp [he] at hh
    · simp only [he, Bool.false_eq_true, if_false] at hh
      by_cases hc : compare t v = true
      · simp only [hc, if_true] at hh
        cases l with
        | nil =>
          obtain ⟨p, hp, _⟩ := insertFinish_spec compare t _ above hf h hh
          exact ⟨p, hp⟩
        | node qv qb ql qr =>
          simp only at hh
          split at hh
          · rw [← List.append_assoc] at hh
            exact ihl _ _ hf h hh
          · exact ihl _ _ hf h hh
      · simp only [hc, Bool.false_eq_true, if_false] at hh
        cases r with
        | nil =>
          obtain ⟨p, hp, _⟩ := insertFinish_spec compare t _ above hf h hh
          exact ⟨p, hp⟩
        | node qv qb ql qr =>
          simp only at hh
          split at hh
          · rw [← List.append_assoc] at hh
            exact ihr _ _ hf h hh
          · exact ihr _ _ hf h hh

theorem Avl.insert_head_value {α : Type} (compare : α → α → Bool) (t : α) (s s2 : Avl α)
    (hv : α) (hb : Int) (hl hr : AvlNode α) (hs : s.head = .node hv hb hl hr)
    (h : s.insert compare t = .ok s2) : ∃ hr2, s2.head = .node hv hb hl hr2 := by
  obtain ⟨head, n⟩ := s
  simp only at hs
  subst hs
  unfold Avl.insert at h
  simp only at h
  split at h
  · simp only [Outcome.ok.injEq] at h
    subst h
    exact ⟨hr, rfl⟩
  · cases hr with
    | nil =>
      simp only [Outcome.ok.injEq] at h
      subst h
      exact ⟨_, rfl⟩
    | node rv rb rl rr =>
      simp only at h
      split at h
      · simp only [Outcome.ok.injEq] at h
        subst h
        exact ⟨_, rfl⟩
      · rename_i hd heq
        simp only [Outcome.ok.injEq] at h
        subst h
        obtain ⟨p, hp⟩ := insertLoop_head compare t _ [] [] (Frame.goRight hv hb hl) hd heq
        exact ⟨p, by rw [hp]; simp [Frame.attach, Frame.goRight]⟩
      · cases h
      · cases h
      · cases h

theorem Avl.insertAll_head_value {α : Type} (compare : α → α → Bool) (ts : List α) :
    ∀ (s s2 : Avl α) (hv : α) (hb : Int) (hl hr : AvlNode α), s.head = .node hv hb hl hr →
      Avl.insertAll compare s ts = .ok s2 → ∃ hr2, s2.head = .node hv hb hl hr2 := by
  induction ts with
  | nil =>
    intro s s2 hv hb hl hr hs h
    simp only [Avl.insertAll, Outcome.ok.injEq] at h
    subst h
    exact ⟨hr, hs⟩
  | cons t ts ih =>
    intro s s2 hv hb hl hr hs h
    simp only [Avl.insertAll, Outcome.andThen_eq_ok] at h
    obtain ⟨s1, h1, h2⟩ := h
    obtain ⟨hr1, hs1⟩ := Avl.insert_head_value compare t s s1 hv hb hl hr hs h1
    exact ih s1 s2 hv hb hl hr1 hs1 h2

/-- C21: for every state of an `Avl` (a state without `head` has `mySize` 0),
after `clear()` the tree is the empty one: `size()` is 0, `begin().isLast()`
holds, `get(t)` is `nullptr` for every `t`, and `insert(t)` does what it does on
a new tree: it gives the tree of size 1 in which `get(t)` finds `t`. -/
theorem c21_clear_gives_the_empty_tree {α : Type} (compare : α → α → Bool)
    (hirr : ∀ x, compare x x = false) (s : Avl α) (hs : s.head = .nil → s.mySize = 0) :
    s.clear = Avl.empty ∧ s.clear.size = 0 ∧ s.clear.begin.isLast = true ∧
      (∀ t, s.clear.get compare t = none) ∧
      ∀ t, s.clear.insert compare t = Avl.empty.insert compare t ∧
        ∃ s2, s.clear.insert compare t = .ok s2 ∧ s2.size = 1 ∧ s2.get compare t = some t := by
  have hclear : s.clear = Avl.empty := by
    obtain ⟨head, n⟩ := s
    cases head with
    | nil =>
      have hn : n = 0 := hs rfl
      subst hn
      rfl
    | node v b l r => rfl
  rw [hclear]
  refine ⟨rfl, rfl, rfl, fun t => rfl, fun t => ⟨rfl, ⟨AvlNode.mk1 t, 1⟩, rfl, rfl, ?_⟩⟩
  simp [Avl.get, AvlNode.mk1, AvlCompareEquals, hirr]

/-- C21 at the tree holding 2, 1, 3. -/
theorem c21_witness :
    Avl.clear (⟨.node 2 0 .nil (.node 1 1 .nil (.node 3 0 .nil .nil)), 3⟩ : Avl Nat)
        = Avl.empty ∧
      Avl.insert natLess 5
          (Avl.clear (⟨.node 2 0 .nil (.node 1 1 .nil (.node 3 0 .nil .nil)), 3⟩ : Avl Nat))
        = .ok ⟨.node 5 0 .nil .nil, 1⟩ :=
  ⟨(c21_clear_gives_the_empty_tree natLess natLess_strictWeak.irrefl
      ⟨.node 2 0 .nil (.node 1 1 .nil (.node 3 0 .nil .nil)), 3⟩ (by intro h; cases h)).1,
    by decide⟩

/-- C22: the copy constructor, and `operator=` from another tree, give a tree
with the same shape and the same value and balance at every node, and the same
`size()`; so a traversal yields the same sequence and `get` gives the same
answers as on the source. -/
theorem c22_copy_is_the_same_tree {α : Type} (compare : α → α → Bool) (a self : Avl α) :
    a.copy = a ∧ Avl.assign a self = a ∧ a.copy.size = a.size ∧
      (Avl.assign a self).size = a.size ∧
      (∀ fuel, AvlIterator.run fuel a.copy.begin = AvlIterator.run fuel a.begin) ∧
      (∀ fuel, AvlIterator.run fuel (Avl.assign a self).begin = AvlIterator.run fuel a.begin) ∧
      (∀ t, a.copy.get compare t = a.get compare t) ∧
      (∀ t, (Avl.assign a self).get compare t = a.get compare t) := by
  have h1 : a.copy = a := by
    obtain ⟨head, n⟩ := a
    simp only [Avl.copy, copyNodeRec_eq]
  have h2 : Avl.assign a self = a := by
    obtain ⟨head, n⟩ := a
    simp only [Avl.assign, copyNodeRec_eq]
  rw [h1, h2]
  exact ⟨rfl, rfl, rfl, rfl, fun _ => rfl, fun _ => rfl, fun _ => rfl, fun _ => rfl⟩


set_option maxRecDepth 100000 in
/-- C28 fails as stated: the tree `combTree 101` (203 nodes; 101 nodes with two
children, each the left child of the one before) is a finite binary tree on
which the traversal does not give the pre-order listing: at the 101st of these
nodes `operator++` writes `st[100]`, outside the array of `MAX_AVL_DEPTH`
entries. -/
theorem c28_deep_tree_overruns_the_stack :
    (combTree 101).count = 203 ∧
      AvlIterator.run 203 (AvlIterator.mk1 (combTree 101)) = .outOfBounds := by
  decide

/-- C28, amended: for every finite binary tree of height at most
`MAX_AVL_DEPTH`, the traversal with `AvlIterator` from its top node runs to
`isLast()` and yields the pre-order listing (node, left subtree, right
subtree), and a traversal that has run to `isLast()` has yielded exactly that
listing.  The value of the top node is the first one read through `operator*`
and the first of the listing; for an `Avl` built by inserts only it is the
value inserted first. -/
theorem c28_traversal_is_preorder {α : Type} (c : AvlNode α)
    (hd : c.height ≤ MAX_AVL_DEPTH) :
    (∀ fuel, c.count ≤ fuel →
      ∃ it, AvlIterator.run fuel (AvlIterator.mk1 c) = .ok (c.preorder, it) ∧
        it.isLast = true) ∧
    (∀ fuel xs it, AvlIterator.run fuel (AvlIterator.mk1 c) = .ok (xs, it) →
      it.isLast = true → xs = c.preorder) ∧
    (∀ v b l r, c = .node v b l r →
      (AvlIterator.mk1 c).deref = .ok v ∧ c.preorder.head? = some v) ∧
    (∀ (compare : α → α → Bool) (t : α) (ts : List α) (s : Avl α),
      Avl.insertAll compare Avl.empty (t :: ts) = .ok s → c = s.head →
        s.begin.deref = .ok t ∧ c.preorder.head? = some t) := by
  refine ⟨?_, ?_, ?_, ?_⟩
  · intro fuel hfuel
    exact AvlIterator.run_begin ⟨c, 0⟩ hd fuel hfuel
  · intro fuel xs it h hlast
    exact AvlIterator.run_begin_sound ⟨c, 0⟩ fuel xs it h hlast
  · intro v b l r hc
    subst hc
    exact ⟨rfl, rfl⟩
  · intro compare t ts s h hcs
    simp only [Avl.insertAll, Outcome.andThen_eq_ok] at h
    obtain ⟨s1, h1, h2⟩ := h
    simp only [Avl.insert, Avl.empty, Outcome.ok.injEq] at h1
    subst h1
    obtain ⟨hr2, hs⟩ := Avl.insertAll_head_value compare ts _ s t 0 .nil .nil rfl h2
    subst hcs
    simp only [Avl.begin, hs]
    exact ⟨rfl, rfl⟩

/-- C28 (amended) at the tree built by `insert(2)`, `insert(1)`, `insert(3)`,
`insert(4)`. -/
theorem c28_witness :
    (AvlNode.node 2 0 .nil (.node 3 0 (.node 1 0 .nil .nil) (.node 4 0 .nil .nil)) :
        AvlNode Nat).height ≤ MAX_AVL_DEPTH ∧
      ∃ it, AvlIterator.run 4 (AvlIterator.mk1
          (.node 2 0 .nil (.node 3 0 (.node 1 0 .nil .nil) (.node 4 0 .nil .nil))))
        = .ok ((AvlNode.node 2 0 .nil
            (.node 3 0 (.node 1 0 .nil .nil) (.node 4 0 .nil .nil))).preorder, it) ∧
        it.isLast = true :=
  ⟨by decide,
    (c28_traversal_is_preorder
      (.node 2 0 .nil (.node 3 0 (.node 1 0 .nil .nil) (.node 4 0 .nil .nil)))
      (by decide)).1 4 (by decide)⟩

/-- C29: in every state reached by completed calls in which the tree is not
empty, `head` has no left child, so every stored value other than that of
`head` is below `head->right`; this includes the states after a removal of the
value of `head`. -/
theorem c29_head_has_no_left_child {α : Type} (compare : α → α → Bool)
    (hc : StrictWeak compare) (s : Avl α) (hr : Reachable compare s)
    (hv : α) (hb : Int) (hl root : AvlNode α) (hh : s.head = .node hv hb hl root) :
    hl = .nil ∧ s.head.preorder = hv :: root.preorder ∧ s.head.count = root.count + 1 := by
  have hinv := Reachable.inv compare hc.trans s hr
  unfold Avl.Inv at hinv
  rw [hh] at hinv
  obtain ⟨h1, _⟩ := hinv
  subst h1
  rw [hh]
  exact ⟨rfl, rfl, by simp [AvlNode.count]⟩

/-- C29 at the state after `insert(1)`, `insert(2)`, `insert(3)`, `remove(1)`,
where the node 2 has taken the place of `head`. -/
theorem c29_witness :
    Reachable natLess ⟨.node 2 1 .nil (.node 3 (-1) .nil .nil), 2⟩ ∧
      (AvlNode.nil : AvlNode Nat) = .nil ∧
      (AvlNode.node 2 1 .nil (.node 3 (-1) .nil .nil)).preorder
        = 2 :: (AvlNode.node 3 (-1) .nil .nil).preorder ∧
      (AvlNode.node 2 1 .nil (.node 3 (-1) .nil .nil)).count
        = (AvlNode.node 3 (-1) .nil .nil : AvlNode Nat).count + 1 :=
  ⟨Reachable.of_ops natLess [.insert 1, .insert 2, .insert 3, .remove 1] _ (by decide),
    c29_head_has_no_left_child natLess natLess_strictWeak
      ⟨.node 2 1 .nil (.node 3 (-1) .nil .nil), 2⟩
      (Reachable.of_ops natLess [.insert 1, .insert 2, .insert 3, .remove 1] _ (by decide))
      2 1 .nil (.node 3 (-1) .nil .nil) rfl⟩

/-- C30: `MapPair::setValue` changes the value and nothing else: the key and
both flags stay.  On a pair built from a key alone, `hasValue()` is still false
and `getValue()` still throws `MapException` after `setValue(v)`; on a pair
built with key and value, `getValue()` then returns `v` and the key is as
before. -/
theorem c30_setValue_keeps_the_flags {K V : Type} [Inhabited V] (p : MapPair K V) (k : K)
    (v w : V) :
    (p.setValue v).value = v ∧ (p.setValue v).key = p.key ∧
      (p.setValue v).noValue = p.noValue ∧ (p.setValue v).noKey = p.noKey ∧
      (p.setValue v).hasValue = p.hasValue ∧ (p.setValue v).hasKey = p.hasKey ∧
      ((MapPair.mk1 k : MapPair K V).setValue v).hasValue = false ∧
      ((MapPair.mk1 k : MapPair K V).setValue v).getValue = .mapException ∧
      ((MapPair.mk1 k : MapPair K V).setValue v).getKey = .returns k ∧
      ((MapPair.mk2 k w).setValue v).getValue = .returns v ∧
      ((MapPair.mk2 k w).setValue v).getKey = .returns k ∧
      ((MapPair.mk2 k w).setValue v).hasValue = true :=
  ⟨rfl, rfl, rfl, rfl, rfl, rfl, rfl, rfl, rfl, rfl, rfl, rfl⟩

/-! ## The stack of `AvlIterator` stays within the height of the tree -/

theorem AvlIterator.within_mk1 {α : Type} (c : AvlNode α) :
    (AvlIterator.mk1 c).within c.height := by
  refine ⟨by simp [AvlIterator.mk1], by simp [AvlIterator.mk1], ?_, ?_⟩
  · simp only [AvlIterator.mk1]; omega
  · intro i hi
    simp only [AvlIterator.mk1] at hi
    omega

theorem AvlIterator.within_next {α : Type} (H : Nat) (it it2 : AvlIterator α)
    (hw : it.within H) (h : it.next = .ok it2) : it2.within H := by
  obtain ⟨st, cur, ti⟩ := it
  obtain ⟨hlen, h0, hcur, hst⟩ := hw
  simp only at hlen h0 hcur hst
  unfold AvlIterator.next at h
  simp only at h
  cases cur with
  | nil =>
    simp only [Outcome.ok.injEq] at h
    subst h
    exact ⟨hlen, h0, hcur, hst⟩
  | node v b l r =>
    cases r with
    | nil =>
      cases l with
      | nil =>
        simp only at h
        split at h
        · simp only [Outcome.ok.injEq] at h
          subst h
          refine ⟨hlen, h0, ?_, hst⟩
          simp only [AvlNode.height] at hcur ⊢
          omega
        · rw [Outcome.andThen_eq_ok] at h
          obtain ⟨c2, hc2, h⟩ := h
          simp only [Outcome.ok.injEq] at h
          subst h
          unfold AvlIterator.stackedRight at hc2
          obtain ⟨v2, b2, l2, r2, hget, hh⟩ := hst (ti - 1).toNat (by omega)
          rw [if_neg (by omega), hget] at hc2
          simp only [Outcome.ok.injEq] at hc2
          subst hc2
          refine ⟨hlen, by simp only; omega, ?_, ?_⟩
          · simp only; omega
          · intro i hi
            simp only at hi
            exact hst i (by omega)
      | node lv lb ll lr =>
        simp only [Outcome.ok.injEq] at h
        subst h
        refine ⟨hlen, h0, ?_, hst⟩
        simp only [AvlNode.height] at hcur ⊢
        omega
    | node rv rb rl rr =>
      cases l with
      | nil =>
        simp only [Outcome.ok.injEq] at h
        subst h
        refine ⟨hlen, h0, ?_, hst⟩
        simp only [AvlNode.height] at hcur ⊢
        omega
      | node lv lb ll lr =>
        simp only at h
        split at h
        · cases h
        · rename_i hb
          simp only [Outcome.ok.injEq] at h
          subst h
          simp only [AvlNode.height] at hcur
          refine ⟨by simp only [List.length_set]; exact hlen, by simp only; omega, ?_, ?_⟩
          · simp only [AvlNode.height]; omega
          · intro i hi
            simp only at hi
            by_cases hit : (i : Int) = ti
            · refine ⟨v, b, .node lv lb ll lr, .node rv rb rl rr, ?_, ?_⟩
              · have hti : ti.toNat = i := by omega
                simp only [List.get?_eq_getElem?]
                rw [hti, List.getElem?_set_self (by omega)]
              · simp only [AvlNode.height]; omega
            · obtain ⟨v2, b2, l2, r2, hget, hh⟩ := hst i (by omega)
              refine ⟨v2, b2, l2, r2, ?_, hh⟩
              simp only [List.get?_eq_getElem?] at hget ⊢
              rw [List.getElem?_set_ne (by omega)]
              exact hget

theorem AvlIterator.within_accessed {α : Type} (H : Nat) (it : AvlIterator α)
    (hw : it.within H) (hH : H ≤ MAX_AVL_DEPTH) (i : Int) (hi : it.accessed = some i) :
    0 ≤ i ∧ i < (MAX_AVL_DEPTH : Int) := by
  obtain ⟨st, cur, ti⟩ := it
  obtain ⟨hlen, h0, hcur, hst⟩ := hw
  simp only at hlen h0 hcur hst
  unfold AvlIterator.accessed at hi
  simp only at hi
  cases cur with
  | nil => cases hi
  | node v b l r =>
    simp only [AvlNode.height] at hcur
    cases r with
    | nil =>
      cases l with
      | nil =>
        simp only at hi
        split at hi
        · cases hi
        · simp only [Option.some.injEq] at hi
          omega
      | node lv lb ll lr => cases hi
    | node rv rb rl rr =>
      cases l with
      | nil => cases hi
      | node lv lb ll lr =>
        simp only [Option.some.injEq] at hi
        simp only [AvlNode.height] at hcur
        omega

theorem AvlIterator.within_next_ok {α : Type} (H : Nat) (it : AvlIterator α)
    (hw : it.within H) (hH : H ≤ MAX_AVL_DEPTH) : ∃ it2, it.next = .ok it2 := by
  obtain ⟨st, cur, ti⟩ := it
  obtain ⟨hlen, h0, hcur, hst⟩ := hw
  simp only at hlen h0 hcur hst
  unfold AvlIterator.next
  simp only
  cases cur with
  | nil => exact ⟨_, rfl⟩
  | node v b l r =>
    simp only [AvlNode.height] at hcur
    cases r with
    | nil =>
      cases l with
      | nil =>
        simp only
        split
        · exact ⟨_, rfl⟩
        · obtain ⟨v2, b2, l2, r2, hget, _⟩ := hst (ti - 1).toNat (by omega)
          unfold AvlIterator.stackedRight
          rw [if_neg (by omega), hget]
          exact ⟨_, rfl⟩
      | node lv lb ll lr => exact ⟨_, rfl⟩
    | node rv rb rl rr =>
      cases l with
      | nil => exact ⟨_, rfl⟩
      | node lv lb ll lr =>
        simp only [AvlNode.height] at hcur
        simp only
        rw [if_neg (by omega)]
        exact ⟨_, rfl⟩

theorem AvlIterator.within_nextTimes {α : Type} (H : Nat) (n : Nat) :
    ∀ it it2 : AvlIterator α, it.within H → AvlIterator.nextTimes n it = .ok it2 →
      it2.within H := by
  induction n with
  | zero =>
    intro it it2 hw h
    simp only [AvlIterator.nextTimes, Outcome.ok.injEq] at h
    subst h
    exact hw
  | succ n ih =>
    intro it it2 hw h
    simp only [AvlIterator.nextTimes, Outcome.andThen_eq_ok] at h
    obtain ⟨it1, h1, h2⟩ := h
    exact ih it1 it2 (AvlIterator.within_next H it it1 hw h1) h2

theorem AvlIterator.nextTimes_ok {α : Type} (H : Nat) (hH : H ≤ MAX_AVL_DEPTH) (n : Nat) :
    ∀ it : AvlIterator α, it.within H → ∃ it2, AvlIterator.nextTimes n it = .ok it2 := by
  induction n with
  | zero => intro it _; exact ⟨it, rfl⟩
  | succ n ih =>
    intro it hw
    obtain ⟨it1, h1⟩ := AvlIterator.within_next_ok H it hw hH
    obtain ⟨it2, h2⟩ := ih it1 (AvlIterator.within_next H it it1 hw h1)
    exact ⟨it2, by simp only [AvlIterator.nextTimes, h1, Outcome.andThen]; exact h2⟩

/-! ## The claim C31 -/

/-- C31: during a traversal with `AvlIterator` of any finite binary tree, from
its top node, `tableIndex` (the number of stacked nodes) is never negative and
never exceeds the height of the tree minus one (0 for the empty tree, on which
nothing is stacked).  When the height is at most `MAX_AVL_DEPTH`, every
`operator++` of the traversal completes, and the index of `st` it reads
(`tableIndex-1`) or writes (`tableIndex`) lies within `0 .. MAX_AVL_DEPTH-1`. -/
theorem c31_stack_index_within_height {α : Type} (c : AvlNode α) :
    (∀ n it, AvlIterator.nextTimes n (AvlIterator.mk1 c) = .ok it →
      0 ≤ it.tableIndex ∧ it.tableIndex ≤ ((c.height - 1 : Nat) : Int)) ∧
    (c.height ≤ MAX_AVL_DEPTH →
      ∀ n, ∃ it, AvlIterator.nextTimes n (AvlIterator.mk1 c) = .ok it ∧
        it.st.length = MAX_AVL_DEPTH ∧
        (∀ i, it.accessed = some i → 0 ≤ i ∧ i < (MAX_AVL_DEPTH : Int)) ∧
        ∃ it2, it.next = .ok it2) := by
  constructor
  · intro n it h
    obtain ⟨_, h0, hcur, _⟩ :=
      AvlIterator.within_nextTimes c.height n _ it (AvlIterator.within_mk1 c) h
    exact ⟨h0, by omega⟩
  · intro hH n
    obtain ⟨it, h⟩ :=
      AvlIterator.nextTimes_ok c.height hH n _ (AvlIterator.within_mk1 c)
    have hw := AvlIterator.within_nextTimes c.height n _ it (AvlIterator.within_mk1 c) h
    exact ⟨it, h, hw.1, fun i hi => AvlIterator.within_accessed c.height it hw hH i hi,
      AvlIterator.within_next_ok c.height it hw hH⟩

/-- C31 at the tree 2(-, 3(1, 4)) after two increments: the node 3 is stacked,
`current` is the node 1, and `tableIndex` is 1, with the height 3. -/
theorem c31_witness :
    AvlIterator.nextTimes 2 (AvlIterator.mk1
        (.node 2 0 .nil (.node 3 0 (.node 1 0 .nil .nil) (.node 4 0 .nil .nil))))
      = .ok ⟨(List.replicate MAX_AVL_DEPTH .nil).set 0
          (.node 3 0 (.node 1 0 .nil .nil) (.node 4 0 .nil .nil)), .node 1 0 .nil .nil, 1⟩ ∧
    (0 : Int) ≤ 1 ∧
    (1 : Int) ≤ (((AvlNode.node 2 0 .nil
      (.node 3 0 (.node 1 0 .nil .nil) (.node 4 0 .nil .nil)) : AvlNode Nat).height - 1 : Nat) :
        Int) :=
  ⟨by decide,
    (c31_stack_index_within_height
      (.node 2 0 .nil (.node 3 0 (.node 1 0 .nil .nil) (.node 4 0 .nil .nil)))).1 2
      ⟨(List.replicate MAX_AVL_DEPTH .nil).set 0
        (.node 3 0 (.node 1 0 .nil .nil) (.node 4 0 .nil .nil)), .node 1 0 .nil .nil, 1⟩
      (by decide)⟩
